import Mathlib

/-!
Verification of the keyword semantic-clustering engine (keyword grouping
utilities module): a shallow embedding in Lean 4 of the JavaScript source,
with theorems checking the natural-language specification's claims.

Modelling conventions:
* A JavaScript string is a `List Char` (one entry per code point; all inputs
  used below lie in the Basic Multilingual Plane, where code points and the
  UTF-16 code units that JavaScript's `.length` counts coincide).
* JavaScript numbers are modelled as exact rationals `ℚ`.  Every claim
  settled below is robust to this choice (bounds, signs and comparisons of
  integer-valued or well-separated quantities), as noted at each theorem.
  Division by zero is `0` in `ℚ` while JavaScript produces `NaN`; the
  theorems below either avoid that corner by hypothesis or do not depend
  on it.
* A thrown JavaScript exception is modelled by `Except.error ()`.
-/

namespace KwGroup

/-- A JavaScript string: a list of code points. -/
abbrev JSStr := List Char

/-- Convert a Lean string literal to the JavaScript string model. -/
def jsStr (s : String) : JSStr := s.data

/-- Characters matched by the JavaScript regex class `\s` (the whitespace
forms that occur in this development: space, tab, LF, CR, VT, FF, NBSP). -/
def isJsSpace (c : Char) : Bool :=
  c = ' ' || c = '\t' || c = '\n' || c = '\r' ||
  c = Char.ofNat 0x0b || c = Char.ofNat 0x0c || c = Char.ofNat 0xa0

/-- Models `String.prototype.toLowerCase` on a single code point, for the
code points exercised in this development: ASCII letters map to their
lowercase forms, and U+0130 LATIN CAPITAL LETTER I WITH DOT ABOVE maps —
exactly as in JavaScript/Unicode `SpecialCasing` — to the two–code-point
sequence U+0069 U+0307.  All other code points used below are fixed by
`toLowerCase` and are returned unchanged. -/
def jsToLowerChar (c : Char) : List Char :=
  if c = Char.ofNat 0x130 then [Char.ofNat 0x69, Char.ofNat 0x307]
  else if 'A' ≤ c ∧ c ≤ 'Z' then [Char.ofNat (c.toNat + 32)]
  else [c]

/-- Models `String.prototype.toLowerCase` (see `jsToLowerChar`). -/
def jsToLower (s : JSStr) : JSStr := (s.map jsToLowerChar).flatten

/-- Models `String.prototype.trim` (strip leading and trailing whitespace). -/
def jsTrim (s : JSStr) : JSStr :=
  ((s.dropWhile isJsSpace).reverse.dropWhile isJsSpace).reverse

/-- Models `.replace(/\s+/g, ' ')`: collapse every whitespace run to a single
space.  The Boolean argument records whether the previous character was
whitespace. -/
def collapseWsAux : List Char → Bool → List Char
  | [], _ => []
  | c :: rest, prevSpace =>
    if isJsSpace c then
      if prevSpace then collapseWsAux rest true
      else ' ' :: collapseWsAux rest true
    else c :: collapseWsAux rest false

/-- Collapse whitespace runs to single spaces (see `collapseWsAux`). -/
def collapseWs (s : JSStr) : List Char := collapseWsAux s false

/-- Insertion-ordered deduplication: the element list of a JavaScript `Set`
built by successive insertions. -/
def dedupKeep (l : List JSStr) : List JSStr :=
  l.foldl (fun acc x => if x ∈ acc then acc else acc ++ [x]) []

/-- All length-`n` windows of a list, in order of their start offset; mirrors
the loop `for (let i = 0; i <= paddedStr.length - n; i++)`. -/
def windows (n : Nat) (l : List Char) : List JSStr :=
  (List.range (l.length + 1 - n)).map (fun i => (l.drop i).take n)

/-- Embeds `getNGrams(str, n)`: lowercase, collapse whitespace, trim, pad
with `#` on both sides, and collect the distinct length-`n` windows (the
JavaScript `Set`, as an insertion-ordered duplicate-free list). -/
def getNGrams (s : JSStr) (n : Nat) : List JSStr :=
  let cleanStr := jsTrim (collapseWs (jsToLower s))
  let paddedStr := '#' :: cleanStr ++ ['#']
  dedupKeep (windows n paddedStr)

/-- The punctuation-and-whitespace splitting class of `getWordTokens`:
`[\s\-_,;:.!?()[\]{}'"]`.  The braces are written via `Char.ofNat`. -/
def isSplitChar (c : Char) : Bool :=
  isJsSpace c ||
  c ∈ ['-', '_', ',', ';', ':', '.', '!', '?', '(', ')', '[', ']',
       Char.ofNat 123, Char.ofNat 125, Char.ofNat 39, Char.ofNat 34]

/-- Split at every splitting character.  Splitting at single characters and
then discarding empty fragments is equivalent to the source's splitting at
maximal runs (`/[...]+/`) followed by the same filter. -/
def splitChunks : List Char → List Char → List JSStr
  | [], acc => [acc.reverse]
  | c :: rest, acc =>
    if isSplitChar c then acc.reverse :: splitChunks rest []
    else splitChunks rest (c :: acc)

/-- Embeds `getWordTokens(keyword)`: lowercase, split on whitespace and
common punctuation, drop empty tokens. -/
def getWordTokens (keyword : JSStr) : List JSStr :=
  (splitChunks (jsToLower keyword) []).filter (fun t => t.length > 0)

/-- The CJK test of `extractTerms`: does the string contain a code point in
the Han, Hiragana, Katakana or Hangul blocks
(`/[一-鿿぀-ゟ゠-ヿ가-힯]/`). -/
def isCJKStr (s : JSStr) : Bool :=
  s.any (fun c =>
    (0x4e00 ≤ c.toNat ∧ c.toNat ≤ 0x9fff) ||
    (0x3040 ≤ c.toNat ∧ c.toNat ≤ 0x309f) ||
    (0x30a0 ≤ c.toNat ∧ c.toNat ≤ 0x30ff) ||
    (0xac00 ≤ c.toNat ∧ c.toNat ≤ 0xd7af))

/-- Models the regex class `\p{L}` (a Unicode letter) for the code points
used in this development: ASCII letters, the CJK blocks above, the Cyrillic
block, and the precomposed Latin letters of the pattern tables. -/
def jsIsLetter (c : Char) : Bool :=
  ('a' ≤ c ∧ c ≤ 'z') || ('A' ≤ c ∧ c ≤ 'Z') ||
  (0x400 ≤ c.toNat ∧ c.toNat ≤ 0x4ff) ||
  (0xc0 ≤ c.toNat ∧ c.toNat ≤ 0x24f ∧ c.toNat ≠ 0xd7 ∧ c.toNat ≠ 0xf7) ||
  (0x600 ≤ c.toNat ∧ c.toNat ≤ 0x6ff) ||
  (0x4e00 ≤ c.toNat ∧ c.toNat ≤ 0x9fff) ||
  (0x3040 ≤ c.toNat ∧ c.toNat ≤ 0x30ff) ||
  (0xac00 ≤ c.toNat ∧ c.toNat ≤ 0xd7af)

/-- Embeds `extractTerms(keyword)`: tokenize, then filter with a minimum
token length of 1 for CJK-containing keywords and 2 otherwise, keeping
tokens that contain a letter.  The filter body mirrors the source's chain
of early returns (its third test, requiring both a digit and a letter, is
subsumed by the second and is kept for faithfulness). -/
def extractTerms (keyword : JSStr) : List JSStr :=
  let tokens := getWordTokens keyword
  let isCJK := isCJKStr keyword
  let minLength : Nat := if isCJK then 1 else 2
  tokens.filter (fun token =>
    if token.length < minLength then false
    else if token.any jsIsLetter then true
    else if token.any (fun c => '0' ≤ c ∧ c ≤ '9') && token.any jsIsLetter then true
    else false)

/-- Embeds `jaccardSimilarity(terms1, terms2)`: `|A∩B| / |A∪B|` on the
deduplicated term sets.  In `ℚ` the empty-by-empty case yields `0` where
JavaScript yields `NaN`; every theorem below that quantifies over inputs
excludes that corner by hypothesis. -/
def jaccardSimilarity (terms1 terms2 : List JSStr) : ℚ :=
  let set1 := dedupKeep terms1
  let set2 := dedupKeep terms2
  let inter := set1.filter (fun x => x ∈ set2)
  let union := dedupKeep (set1 ++ set2)
  (inter.length : ℚ) / (union.length : ℚ)

/-- Fuel-indexed Levenshtein distance.  The source computes the distance by
the textbook dynamic program `dp[i][j] = dp[i-1][j-1]` on equal characters
and `1 + min(deletion, insertion, substitution)` otherwise; this is the
same recurrence written as a recursion, with a fuel argument so that the
definition is structural (any fuel of at least `|xs| + |ys|` computes the
true distance; below that the recursion can only bottom out at empty lists,
where the answer is exact anyway). -/
def levAux : Nat → List Char → List Char → Nat
  | _, [], ys => ys.length
  | _, xs, [] => xs.length
  | 0, xs, ys => xs.length + ys.length
  | fuel + 1, x :: xs, y :: ys =>
    if x = y then levAux fuel xs ys
    else 1 + min (levAux fuel xs (y :: ys))
               (min (levAux fuel (x :: xs) ys) (levAux fuel xs ys))

/-- Embeds `levenshteinDistance(str1, str2)` (see `levAux`). -/
def levenshteinDistance (str1 str2 : List Char) : Nat :=
  levAux (str1.length + str2.length) str1 str2

/-- Embeds `editDistanceSimilarity(str1, str2)`:
`1 - levenshtein(lower str1, lower str2) / max(str1.length, str2.length)`,
where the lengths in the denominator are of the original strings. -/
def editDistanceSimilarity (str1 str2 : JSStr) : ℚ :=
  let distance := levenshteinDistance (jsToLower str1) (jsToLower str2)
  let maxLength := max str1.length str2.length
  if maxLength = 0 then 1 else 1 - (distance : ℚ) / (maxLength : ℚ)

/-- Length of the longest common suffix of two lists, counted from the end.
The source's table entry `dp[i][j]` (reset to `0` on a mismatch, otherwise
`dp[i-1][j-1] + 1`) is exactly the longest common suffix length of the two
prefixes of lengths `i` and `j`. -/
def commonSuffixLen (a b : List Char) : Nat :=
  ((a.reverse.zip b.reverse).takeWhile (fun p => p.1 = p.2)).length

/-- Embeds `findLongestCommonSubstring(str1, str2)`: scan all table cells in
the source's row-major order, keeping the first strictly larger suffix
length together with its ending position in `str1`, and slice the winning
substring out of `str1`. -/
def findLongestCommonSubstring (str1 str2 : JSStr) : JSStr :=
  let m := str1.length
  let n := str2.length
  let cells := (List.range m).flatMap (fun i0 =>
    (List.range n).map (fun j0 => (i0 + 1, j0 + 1)))
  let best := cells.foldl
    (fun (acc : Nat × Nat) cell =>
      let v := commonSuffixLen (str1.take cell.1) (str2.take cell.2)
      if acc.1 < v then (v, cell.1) else acc)
    (0, 0)
  (str1.take best.2).drop (best.2 - best.1)

/-- The token part of `calculateAlgorithmicSimilarity` (its step 3): a
Jaccard similarity over the raw word tokens of the two keywords, or `0`
when either keyword has no tokens.  Note that the source uses
`getWordTokens` here, not `extractTerms`. -/
def tokenSimilarityPart (keyword1 keyword2 : JSStr) : ℚ :=
  let tokens1 := getWordTokens keyword1
  let tokens2 := getWordTokens keyword2
  if tokens1.length > 0 ∧ tokens2.length > 0 then
    jaccardSimilarity tokens1 tokens2
  else 0

/-- Embeds `calculateAlgorithmicSimilarity(keyword1, keyword2)`: the
weighted combination of bigram, trigram, token, edit-distance, affix and
longest-common-substring signals, short-circuited to `1` on a
case-insensitive exact match and capped above (only above) at `1` by
`Math.min`. -/
def calculateAlgorithmicSimilarity (keyword1 keyword2 : JSStr) : ℚ :=
  if jsToLower keyword1 = jsToLower keyword2 then 1 else
  let ngramSimilarity := jaccardSimilarity (getNGrams keyword1 2) (getNGrams keyword2 2)
  let trigramSimilarity := jaccardSimilarity (getNGrams keyword1 3) (getNGrams keyword2 3)
  let tokenSimilarity := tokenSimilarityPart keyword1 keyword2
  let editSimilarity := editDistanceSimilarity keyword1 keyword2
  let k1Lower := jsToLower keyword1
  let k2Lower := jsToLower keyword2
  let affixBonus : ℚ :=
    (if k2Lower.isPrefixOf k1Lower ∨ k1Lower.isPrefixOf k2Lower then 3/20 else 0) +
    (if k2Lower.isSuffixOf k1Lower ∨ k1Lower.isSuffixOf k2Lower then 1/10 else 0)
  let lcs := findLongestCommonSubstring k1Lower k2Lower
  let substringBonus : ℚ :=
    if 4 ≤ lcs.length then
      ((lcs.length : ℚ) / (max k1Lower.length k2Lower.length : ℚ)) * (1/5)
    else 0
  let weightedSimilarity :=
    ngramSimilarity * (1/4) + trigramSimilarity * (1/5) +
    tokenSimilarity * (1/5) + editSimilarity * (1/4) +
    affixBonus * (1/20) + substringBonus * (1/20)
  min weightedSimilarity 1

/-- Embeds `calculateSimilarity`, which delegates to the algorithmic
similarity. -/
def calculateSimilarity (keyword1 keyword2 : JSStr) : ℚ :=
  calculateAlgorithmicSimilarity keyword1 keyword2

/-- The four search-intent categories of `INTENT_PATTERNS`, in declaration
order. -/
inductive Intent where
  | informational
  | commercial
  | navigational
  | transactional
deriving DecidableEq, Repr

/-- Does `needle` occur as a contiguous substring of `hay`?  This is the
semantics of an unanchored literal-alternative regex `test`. -/
def jsIncludes (hay needle : JSStr) : Bool :=
  hay.tails.any (fun t => needle.isPrefixOf t)

/-- Is `c` an ASCII digit? -/
def isDigitCh (c : Char) : Bool := '0' ≤ c && c ≤ '9'

/-- The tail of the price regex after the digits: `\s*(€|$|£|¥|₽|₹|₩|﷼)`.
Inside the alternation `$` is the end-of-input anchor, not a dollar sign,
so the pattern is satisfied by a currency code point or by the end of the
string (and a literal dollar sign satisfies it only through the
end-anchor when nothing follows). -/
def priceTail (l : List Char) : Bool :=
  let r := l.dropWhile isJsSpace
  match r with
  | [] => true
  | c :: _ =>
    c = Char.ofNat 0x20ac || c = Char.ofNat 0xa3 || c = Char.ofNat 0xa5 ||
    c = Char.ofNat 0x20bd || c = Char.ofNat 0x20b9 || c = Char.ofNat 0x20a9 ||
    c = Char.ofNat 0xfdfc

/-- Does the price pattern `[0-9]+[.,]?[0-9]*\s*(€|$|£|¥|₽|₹|₩|﷼)` match at
the start of `s`?  Taking the digit runs maximally is equivalent to the
regex's backtracking search here: stopping a digit run early leaves a digit
as the next character, which can satisfy neither the separator, the
whitespace run, the currency alternative, nor the end anchor.  Both choices
of the optional `[.,]` are tried. -/
def priceFrom (s : List Char) : Bool :=
  let ds := s.takeWhile isDigitCh
  if ds.length = 0 then false
  else
    let rest := s.drop ds.length
    priceTail rest ||
    (match rest with
     | c :: r2 =>
       if c = '.' || c = ',' then priceTail (r2.dropWhile isDigitCh) else false
     | [] => false)

/-- Does the price pattern match anywhere in `s`? -/
def matchesPrice (s : JSStr) : Bool := s.tails.any priceFrom

/-- The anchored question-word alternatives of the first informational
pattern (`/^(how|what|...)/i`). -/
def infoStarts : List JSStr :=
  ["how", "what", "why", "when", "where", "who", "which", "comment",
   "qué", "cómo", "когда", "что", "как", "什么", "怎么", "どう", "何", "왜",
   "무엇"].map jsStr

/-- The unanchored alternatives of the second informational pattern. -/
def infoContains : List JSStr :=
  ["guide", "tutorial", "tips", "learn", "understand", "учить", "学习",
   "تعلم", "guía", "ガイド"].map jsStr

/-- The unanchored alternatives of the first commercial pattern. -/
def commercialContains1 : List JSStr :=
  ["buy", "purchase", "price", "cost", "cheap", "best", "review", "vs",
   "compare", "купить", "покупка", "цена", "购买", "价格", "شراء", "سعر",
   "comprar", "precio", "比較", "購入"].map jsStr

/-- The unanchored alternatives of the second commercial pattern. -/
def commercialContains2 : List JSStr :=
  ["discount", "deal", "sale", "offer", "скидка", "折扣", "تخفيض",
   "descuento", "割引"].map jsStr

/-- The unanchored alternatives of the first navigational pattern. -/
def navContains : List JSStr :=
  ["login", "signin", "website", "homepage", "contact", "about", "вход",
   "登录", "دخول", "サインイン"].map jsStr

/-- The domain-extension alternatives of the third navigational pattern. -/
def navDomains : List JSStr :=
  [".com", ".org", ".net", ".edu"].map jsStr

/-- The unanchored alternatives of the first transactional pattern. -/
def transContains1 : List JSStr :=
  ["download", "install", "signup", "register", "subscribe", "order",
   "скачать", "下载", "تحميل", "ダウンロード", "descargar"].map jsStr

/-- The unanchored alternatives of the second transactional pattern. -/
def transContains2 : List JSStr :=
  ["free", "trial", "demo", "бесплатно", "免费", "مجاني", "無料",
   "gratis"].map jsStr

/-- Does any informational pattern match the (already lowercased) keyword?
The three patterns are the anchored question words, the unanchored topic
words, and `\?$`. -/
def matchesInformational (lower : JSStr) : Bool :=
  infoStarts.any (fun p => p.isPrefixOf lower) ||
  infoContains.any (fun p => jsIncludes lower p) ||
  lower.getLast? = some '?'

/-- Does any commercial pattern match the lowercased keyword?  The three
patterns are the two unanchored word lists and the price pattern. -/
def matchesCommercial (lower : JSStr) : Bool :=
  commercialContains1.any (fun p => jsIncludes lower p) ||
  commercialContains2.any (fun p => jsIncludes lower p) ||
  matchesPrice lower

/-- Does any navigational pattern match the lowercased keyword?  The three
patterns are the unanchored word list, the anchored URL forms, and the
domain extensions. -/
def matchesNavigational (lower : JSStr) : Bool :=
  navContains.any (fun p => jsIncludes lower p) ||
  ((jsStr "www.").isPrefixOf lower || (jsStr "http://").isPrefixOf lower ||
    (jsStr "https://").isPrefixOf lower) ||
  navDomains.any (fun p => jsIncludes lower p)

/-- Does any transactional pattern match the lowercased keyword? -/
def matchesTransactional (lower : JSStr) : Bool :=
  transContains1.any (fun p => jsIncludes lower p) ||
  transContains2.any (fun p => jsIncludes lower p)

/-- Does the given category match the lowercased keyword?  A category
matches when any of its patterns matches (the source's inner `break` only
short-circuits this disjunction). -/
def intentMatches : Intent → JSStr → Bool
  | .informational, lower => matchesInformational lower
  | .commercial, lower => matchesCommercial lower
  | .navigational, lower => matchesNavigational lower
  | .transactional, lower => matchesTransactional lower

/-- The weight table of `INTENT_PATTERNS`. -/
def intentWeight : Intent → ℚ
  | .informational => 4/5
  | .commercial => 9/10
  | .navigational => 7/10
  | .transactional => 17/20

/-- The categories in declaration order (`Object.entries` iteration
order). -/
def intentOrder : List Intent :=
  [.informational, .commercial, .navigational, .transactional]

/-- Embeds `classifyIntent(keyword)`: fold the categories in declaration
order, replacing the current best (initially `informational` with score 0)
whenever a category matches and its weight strictly exceeds the best
score. -/
def classifyIntent (keyword : JSStr) : Intent :=
  let lowerKeyword := jsToLower keyword
  (intentOrder.foldl
    (fun (best : Intent × ℚ) intent =>
      if intentMatches intent lowerKeyword ∧ intentWeight intent > best.2 then
        (intent, intentWeight intent)
      else best)
    (.informational, 0)).1

/-- Is `c` a word character for the regex `\b` boundary (`[A-Za-z0-9_]`)? -/
def isWordCh (c : Char) : Bool :=
  ('a' ≤ c && c ≤ 'z') || ('A' ≤ c && c ≤ 'Z') || isDigitCh c || c = '_'

/-- Word-character test lifted to an optional character (out of range counts
as a non-word character, as at the ends of a string). -/
def optWordCh : Option Char → Bool
  | some c => isWordCh c
  | none => false

/-- Does the regex `\b sub \b` (with `sub` taken literally) match somewhere
in `hay`?  A `\b` holds at a position when exactly one of the two adjacent
characters is a word character. -/
def wbTest (sub hay : JSStr) : Bool :=
  (List.range (hay.length + 1)).any (fun p =>
    sub.isPrefixOf (hay.drop p) &&
    (optWordCh (if p = 0 then none else hay[p-1]?) != optWordCh sub.head?) &&
    (optWordCh sub.getLast? != optWordCh hay[p + sub.length]?))

/-- Characters that are taken literally by a JavaScript regex outside any
escape: everything except the metacharacters `\ ^ $ . | ? * + ( ) [ ] { }`. -/
def regexSafeChar (c : Char) : Bool :=
  !(c ∈ ['\\', '^', '$', '.', '|', '?', '*', '+', '(', ')', '[', ']',
         Char.ofNat 123, Char.ofNat 125])

/-- A string whose interpolation into `new RegExp("\\b" + s + "\\b")` gives
a well-formed regex that matches `s` literally between word boundaries. -/
def regexSafe (s : JSStr) : Bool := s.all regexSafeChar

/-- Is candidate `a` matched as a whole word in some keyword?  Models
`keywords.some(k => new RegExp("\\b" + a + "\\b", "i").test(k))` for
regex-safe candidates; the `i` flag is modelled by lowercasing the keyword
(candidates are substrings of a lowercased keyword already). -/
def candIsWord (kws : List JSStr) (a : JSStr) : Bool :=
  kws.any (fun k => wbTest a (jsToLower k))

/-- The candidate sort comparator of `findCommonSubstrings` as a relation
“`a` sorts no later than `b`”: whole-word candidates first, then longer
candidates first, ties keeping insertion order. -/
def candLE (kws : List JSStr) (a b : JSStr) : Bool :=
  let aw := candIsWord kws a
  let bw := candIsWord kws b
  (aw && !bw) || (aw == bw && b.length ≤ a.length)

/-- The candidate sort of `findCommonSubstrings`.  JavaScript's stable sort
under this total-preorder comparator is the insertion sort below.  The
comparator interpolates each compared candidate into `new RegExp`, which
throws a `SyntaxError` for candidates containing regex metacharacters such
as an unbalanced `(`; with at most one candidate the comparator is never
invoked.  The model treats any metacharacter-containing candidate as
throwing; this is exact for the inputs of every theorem below (all of
whose candidates are metacharacter-free or contain `(`). -/
def sortCandidatesJS (kws : List JSStr) (cands : List JSStr) :
    Except Unit (List JSStr) :=
  if cands.length ≤ 1 then .ok cands
  else if cands.all regexSafe then
    .ok (List.insertionSort (fun a b => candLE kws a b = true) cands)
  else .error ()

/-- The candidate substrings of a given length: every window of the first
keyword that occurs (case-insensitively) in all keywords and is not made
up solely of digits, whitespace, `-`, `_` and `.` (the source's
`/^[\d\s\-_.]+$/` skip). -/
def candidatesAtLen (kws : List JSStr) (firstKeyword : JSStr) (len : Nat) :
    List JSStr :=
  (List.range (firstKeyword.length + 1 - len)).filterMap (fun start =>
    let substring := (firstKeyword.drop start).take len
    if kws.all (fun k => jsIncludes (jsToLower k) substring) &&
       !(substring.all (fun c =>
          isDigitCh c || isJsSpace c || c = '-' || c = '_' || c = '.')) then
      some substring
    else none)

/-- Scan candidate lengths in decreasing order and keep the first length
that yields any candidate (the source's `break`). -/
def firstLenHit (kws : List JSStr) (firstKeyword : JSStr) :
    List Nat → List JSStr
  | [] => []
  | len :: rest =>
    let c := candidatesAtLen kws firstKeyword len
    if c.isEmpty then firstLenHit kws firstKeyword rest else c

/-- Embeds `findCommonSubstrings(keywords)`: for fewer than two keywords
return `[]`; otherwise scan substring lengths from `min(len(first), 20)`
down to `3`, stop at the first length with qualifying candidates, keep the
candidates whose trimmed length exceeds 2, and sort them whole-words-first
then longer-first (the sort can throw, see `sortCandidatesJS`). -/
def findCommonSubstrings (keywords : List JSStr) : Except Unit (List JSStr) :=
  if keywords.length < 2 then .ok []
  else
    let firstKeyword := jsToLower (keywords.headD [])
    let top := min firstKeyword.length 20
    let raw := firstLenHit keywords firstKeyword ((List.range' 3 (top - 2)).reverse)
    let filtered := raw.filter (fun s => (jsTrim s).length > 2)
    sortCandidatesJS keywords filtered

/-- Record one token occurrence in the frequency map.  The JavaScript `Map`
iterates in key-insertion order, so it is modelled as an association list
that increments in place and appends new keys. -/
def bumpTok (m : List (JSStr × Nat)) (t : JSStr) : List (JSStr × Nat) :=
  if m.any (fun p => p.1 = t) then
    m.map (fun p => if p.1 = t then (p.1, p.2 + 1) else p)
  else m ++ [(t, 1)]

/-- The token-frequency map of `extractGroupTopic`: count, across all
keywords, every word token of length above 1.  (The source also builds a
trigram-frequency map `ngramFreq`, but never reads it; it cannot affect
any result and is not modelled.) -/
def buildTokenFreq (keywords : List JSStr) : List (JSStr × Nat) :=
  keywords.foldl
    (fun m keyword =>
      (((getWordTokens keyword).filter (fun t => t.length > 1))).foldl bumpTok m)
    []

/-- The token sort comparator of `extractGroupTopic` as “`a` sorts no later
than `b`”: higher frequency first, then longer token first, ties keeping
insertion order. -/
def tokLE (a b : JSStr × Nat) : Bool :=
  (b.2 < a.2) || (a.2 == b.2 && b.1.length ≤ a.1.length)

/-- The filter stage of `commonTokens`: the token/frequency entries whose
frequency strictly exceeds `Math.min(2, keywords.length * 0.3)`.  The
comparison of an integer frequency against `n * 0.3` is unaffected by
modelling the float `0.3` as the rational `3/10`: the two differ by under
`10⁻¹⁵` and the threshold is never an integer when it is below 2. -/
def qualifyingTokens (keywords : List JSStr) : List (JSStr × Nat) :=
  (buildTokenFreq keywords).filter
    (fun p => (p.2 : ℚ) > min 2 ((keywords.length : ℚ) * (3/10)))

/-- The `commonTokens` list of `extractGroupTopic`: the qualifying tokens
sorted by frequency then length (descending), truncated to at most 3. -/
def commonTokensOf (keywords : List JSStr) : List JSStr :=
  ((List.insertionSort (fun a b => tokLE a b = true)
      (qualifyingTokens keywords)).take 3).map (·.1)

/-- Embeds `extractGroupTopic(keywords)`: (1) the best common substring if
any; (2) otherwise the frequent tokens joined with `" + "` (no separator
when the first keyword is CJK); (3) otherwise the shortest keyword,
truncated to 27 characters plus `"..."` when longer than 30.  On an empty
keyword list strategy 3 dereferences `undefined` in the source and throws;
the strategies can also throw through the candidate sort. -/
def extractGroupTopic (keywords : List JSStr) : Except Unit JSStr := do
  let commonSubstrings ← findCommonSubstrings keywords
  match commonSubstrings with
  | c :: _ => return c
  | [] =>
    let commonTokens := commonTokensOf keywords
    match commonTokens with
    | _ :: _ =>
      let firstKeyword := keywords.headD []
      let sep := if isCJKStr firstKeyword then ([] : JSStr) else jsStr " + "
      return List.intercalate sep commonTokens
    | [] =>
      match keywords with
      | [] => .error ()
      | k0 :: _ =>
        let shortestKeyword :=
          keywords.foldl (fun shortest k =>
            if k.length < shortest.length then k else shortest) k0
        return (if shortestKeyword.length > 30 then
          shortestKeyword.take 27 ++ jsStr "..." else shortestKeyword)

/-- A keyword performance record.  The numeric fields are exact rationals;
the source's `|| 0` coercions are identities on present numeric fields. -/
structure KeywordRecord where
  query : JSStr
  clicks : ℚ
  impressions : ℚ
  ctr : ℚ
  position : ℚ
deriving DecidableEq, Repr

/-- The record used where the source would read a field of an element that
cannot be absent on any reachable path. -/
def emptyRecord : KeywordRecord := ⟨[], 0, 0, 0, 0⟩

/-- JavaScript `Math.round`: round half toward positive infinity. -/
def jsRound (q : ℚ) : ℤ := Int.floor (q + 1/2)

/-- The aggregated metrics of a group. -/
structure GroupMetrics where
  totalClicks : ℚ
  totalImpressions : ℚ
  avgCTR : ℚ
  avgPosition : ℚ
  keywordCount : Nat
deriving DecidableEq, Repr

/-- Embeds `calculateGroupMetrics(keywords)`: total clicks and impressions,
CTR as a percentage rounded to 2 decimals, mean position rounded to 1
decimal. -/
def calculateGroupMetrics (keywords : List KeywordRecord) : GroupMetrics :=
  let totalClicks := (keywords.map (·.clicks)).sum
  let totalImpressions := (keywords.map (·.impressions)).sum
  let avgCTR : ℚ :=
    if totalImpressions > 0 then totalClicks / totalImpressions * 100 else 0
  let avgPosition := (keywords.map (·.position)).sum / (keywords.length : ℚ)
  { totalClicks := totalClicks
    totalImpressions := totalImpressions
    avgCTR := (jsRound (avgCTR * 100) : ℚ) / 100
    avgPosition := (jsRound (avgPosition * 10) : ℚ) / 10
    keywordCount := keywords.length }

/-- A keyword group of the final result. -/
structure Group where
  id : JSStr
  topic : JSStr
  intent : Intent
  keywords : List KeywordRecord
  metrics : GroupMetrics
  size : Nat
  expanded : Bool
deriving DecidableEq, Repr

/-- The options record of `groupKeywords`. -/
structure Options where
  similarityThreshold : ℚ
  minGroupSize : Nat
  maxGroups : Nat
  groupByIntent : Bool
deriving Repr

/-- The destructuring defaults of `groupKeywords`. -/
def defaultOptions : Options :=
  { similarityThreshold := 1/2, minGroupSize := 2, maxGroups := 20,
    groupByIntent := true }

/-- The grouping result.  The three count fields are optional because the
source's empty-input early return omits them (reading them then yields
`undefined`), while the main path sets all three. -/
structure GroupingResult where
  groups : List Group
  ungrouped : List KeywordRecord
  totalGroups : Option Nat
  totalKeywords : Option Nat
  groupedKeywords : Option Nat
deriving DecidableEq, Repr

/-- Embeds `createSimilarityMatrix(keywords)`: diagonal `1.0`, and for each
unordered pair `i < j` the similarity of the two queries written into both
triangles (so the entry at `(i, j)` with `i > j` is the value computed for
`(j, i)`). -/
def createSimilarityMatrix (keywords : List KeywordRecord) : List (List ℚ) :=
  let q := fun i => (keywords.getD i emptyRecord).query
  (List.range keywords.length).map (fun i =>
    (List.range keywords.length).map (fun j =>
      if i = j then 1
      else if i < j then calculateSimilarity (q i) (q j)
      else calculateSimilarity (q j) (q i)))

/-- Matrix entry lookup `similarities[i][j]` (out-of-range reads cannot
occur on the reachable paths of the pipeline). -/
def matAt (m : List (List ℚ)) (i j : Nat) : ℚ := (m.getD i []).getD j 0

/-- Embeds `getClusterSimilarity(cluster1, cluster2, similarities, allItems)`:
the maximum, starting from `0`, of the matrix entries at the index pairs
found by `indexOf` over `allItems`. -/
def getClusterSimilarity {α : Type} [DecidableEq α]
    (cluster1 cluster2 : List α) (similarities : List (List ℚ))
    (allItems : List α) : ℚ :=
  cluster1.foldl
    (fun acc item1 =>
      cluster2.foldl
        (fun acc2 item2 =>
          max acc2 (matAt similarities (allItems.indexOf item1)
            (allItems.indexOf item2)))
        acc)
    0

/-- The index pairs `(i, j)` with `i < j < k` in the row-major order of the
source's nested scan. -/
def pairIndices (k : Nat) : List (Nat × Nat) :=
  (List.range k).flatMap (fun i =>
    (List.range' (i + 1) (k - (i + 1))).map (fun j => (i, j)))

/-- The scan for the two most similar clusters: fold over all cluster pairs
keeping the first strict maximum, starting from similarity `-1` and the
sentinel indices `[-1, -1]` (modelled as `none`). -/
def findBestPair {α : Type} [DecidableEq α] (clusters : List (List α))
    (similarities : List (List ℚ)) (items : List α) :
    ℚ × Option (Nat × Nat) :=
  (pairIndices clusters.length).foldl
    (fun acc p =>
      let similarity := getClusterSimilarity (clusters.getD p.1 [])
        (clusters.getD p.2 []) similarities items
      if similarity > acc.1 then (similarity, some p) else acc)
    (-1, none)

/-- One merge: drop the clusters at indices `i` and `j` (keeping order) and
push their concatenation at the end. -/
def mergeAt {α : Type} (clusters : List (List α)) (i j : Nat) :
    List (List α) :=
  (clusters.enum.filter (fun p => p.1 ≠ i ∧ p.1 ≠ j)).map (·.2) ++
  [clusters.getD i [] ++ clusters.getD j []]

/-- The agglomeration loop of `performHierarchicalClustering`: stop when the
best similarity is below the threshold; otherwise merge the best pair.  If
the stop test fails while no pair was found (the sentinel `[-1, -1]`), the
source spreads `clusters[-1]`, which is `undefined`, and throws — the
`none` branch.  The fuel argument makes the recursion structural; each
merge shrinks the cluster list, so any fuel above the initial cluster
count is never exhausted (exhaustion is mapped to the error case). -/
def clusterLoop {α : Type} [DecidableEq α] (similarities : List (List ℚ))
    (items : List α) (threshold : ℚ) :
    Nat → List (List α) → Except Unit (List (List α))
  | 0, _ => .error ()
  | fuel + 1, clusters =>
    let best := findBestPair clusters similarities items
    if best.1 < threshold then .ok clusters
    else
      match best.2 with
      | none => .error ()
      | some (i, j) =>
        clusterLoop similarities items threshold fuel (mergeAt clusters i j)

/-- Embeds `performHierarchicalClustering(items, similarities, threshold)`:
start from singleton clusters and run the merge loop. -/
def performHierarchicalClustering {α : Type} [DecidableEq α]
    (items : List α) (similarities : List (List ℚ)) (threshold : ℚ) :
    Except Unit (List (List α)) :=
  clusterLoop similarities items threshold (items.length + 1)
    (items.map (fun item => [item]))

/-- Embeds `groupBySearchIntent(keywordData)`: the four intent buckets in
declaration order.  The source pushes each record into its intent's list
while scanning the input once; per bucket this is the order-preserving
filter below. -/
def groupBySearchIntent (keywordData : List KeywordRecord) :
    List (Intent × List KeywordRecord) :=
  intentOrder.map (fun i =>
    (i, keywordData.filter (fun kw => classifyIntent kw.query = i)))

/-- The bucket list the orchestrator iterates over: the four intent buckets,
or the single `all` bucket (whose groups are labelled per-cluster) when
intent grouping is off. -/
def bucketize (keywordData : List KeywordRecord) (groupByIntent : Bool) :
    List (Option Intent × List KeywordRecord) :=
  if groupByIntent then
    (groupBySearchIntent keywordData).map (fun p => (some p.1, p.2))
  else [(none, keywordData)]

/-- The group a qualifying cluster becomes: id from the global group
counter, topic as computed, intent from the bucket (or classified from the
cluster's first query when intent bucketing is off), the cluster as the
keyword list, aggregated metrics, the cluster size, and the UI flag. -/
def mkGroup (bucketIntent : Option Intent) (groupTopic : JSStr)
    (cluster : List KeywordRecord) (numExisting : Nat) : Group :=
  { id := jsStr "group_" ++ Nat.toDigits 10 (numExisting + 1)
    topic := groupTopic
    intent :=
      match bucketIntent with
      | some i => i
      | none => classifyIntent (cluster.headD emptyRecord).query
    keywords := cluster
    metrics := calculateGroupMetrics cluster
    size := cluster.length
    expanded := false }

/-- Turn the clusters of one bucket into groups and ungrouped records, in
cluster order, threading the global accumulator (the group id counter is
the number of groups created so far across all buckets). -/
def processClusters (opts : Options) (bucketIntent : Option Intent) :
    List (List KeywordRecord) → List Group × List KeywordRecord →
    Except Unit (List Group × List KeywordRecord)
  | [], acc => .ok acc
  | cluster :: rest, (gs, ung) =>
    if opts.minGroupSize ≤ cluster.length then do
      let groupTopic ← extractGroupTopic (cluster.map (·.query))
      processClusters opts bucketIntent rest
        (gs ++ [mkGroup bucketIntent groupTopic cluster gs.length], ung)
    else processClusters opts bucketIntent rest (gs, ung ++ cluster)

/-- Process the buckets in order: a bucket with fewer than two records goes
straight to `ungrouped`; otherwise build the similarity matrix, cluster,
and convert the clusters. -/
def processBuckets (opts : Options) :
    List (Option Intent × List KeywordRecord) →
    List Group × List KeywordRecord →
    Except Unit (List Group × List KeywordRecord)
  | [], acc => .ok acc
  | (bIntent, intentKeywords) :: rest, (gs, ung) =>
    if intentKeywords.length < 2 then
      processBuckets opts rest (gs, ung ++ intentKeywords)
    else do
      let similarities := createSimilarityMatrix intentKeywords
      let clusters ← performHierarchicalClustering intentKeywords
        similarities opts.similarityThreshold
      let acc2 ← processClusters opts bIntent clusters (gs, ung)
      processBuckets opts rest acc2

/-- The groups and ungrouped records of all buckets, before the final sort
and cap. -/
def survivingGroups (keywordData : List KeywordRecord) (opts : Options) :
    Except Unit (List Group × List KeywordRecord) :=
  processBuckets opts (bucketize keywordData opts.groupByIntent) ([], [])

/-- The final sort relation: total clicks descending.  JavaScript's stable
sort under the comparator `(a, b) => b.metrics.totalClicks -
a.metrics.totalClicks` is the insertion sort by this relation. -/
def clicksGE (a b : Group) : Prop :=
  b.metrics.totalClicks ≤ a.metrics.totalClicks

instance : DecidableRel clicksGE := fun a b =>
  inferInstanceAs (Decidable (b.metrics.totalClicks ≤ a.metrics.totalClicks))

/-- Embeds `groupKeywords(keywordData, options)`.  The empty-input early
return carries no count fields.  Otherwise: bucket, cluster and convert;
sort the groups by total clicks descending; if more than `maxGroups`
remain, splice off the excess groups and move their keywords into
`ungrouped`; return the result with the three counts.

The final sort, cap, and count step is `finalizeGroups`: sort the
groups by total clicks descending; when more groups remain than
`maxGroups`, splice the excess off and move their keywords into
`ungrouped`; attach the three counts. -/
def finalizeGroups (keywordData : List KeywordRecord) (opts : Options)
    (finalGroups : List Group) (ungrouped : List KeywordRecord) :
    GroupingResult :=
  let sorted := List.insertionSort clicksGE finalGroups
  let kept :=
    if opts.maxGroups < sorted.length then sorted.take opts.maxGroups
    else sorted
  let ungrouped2 :=
    if opts.maxGroups < sorted.length then
      ungrouped ++ (sorted.drop opts.maxGroups).flatMap (·.keywords)
    else ungrouped
  { groups := kept
    ungrouped := ungrouped2
    totalGroups := some kept.length
    totalKeywords := some keywordData.length
    groupedKeywords := some ((kept.map (·.size)).sum) }

def groupKeywords (keywordData : List KeywordRecord) (opts : Options) :
    Except Unit GroupingResult :=
  if keywordData.length = 0 then
    .ok { groups := [], ungrouped := [], totalGroups := none,
          totalKeywords := none, groupedKeywords := none }
  else do
    let (finalGroups, ungrouped) ← survivingGroups keywordData opts
    .ok (finalizeGroups keywordData opts finalGroups ungrouped)

/-- The entry point with the source's `!keywordData` guard: a missing
(`null`/`undefined`) input takes the same early return as an empty one. -/
def groupKeywordsJS (keywordData : Option (List KeywordRecord))
    (opts : Options) : Except Unit GroupingResult :=
  match keywordData with
  | none =>
    .ok { groups := [], ungrouped := [], totalGroups := none,
          totalKeywords := none, groupedKeywords := none }
  | some data => groupKeywords data opts

/-! ### General lemmas about the similarity signals -/

theorem jaccardSimilarity_nonneg (t1 t2 : List JSStr) :
    0 ≤ jaccardSimilarity t1 t2 := by
  unfold jaccardSimilarity
  exact div_nonneg (by positivity) (by positivity)

theorem tokenSimilarityPart_nonneg (k1 k2 : JSStr) :
    0 ≤ tokenSimilarityPart k1 k2 := by
  simp only [tokenSimilarityPart]
  split
  · exact jaccardSimilarity_nonneg _ _
  · exact le_refl 0

/-- With fuel at least the total length, the fuel-indexed Levenshtein
distance is bounded by the longer length (delete the surplus of the longer
string, substitute the rest). -/
theorem levAux_le_max :
    ∀ (fuel : Nat) (xs ys : List Char), xs.length + ys.length ≤ fuel →
      levAux fuel xs ys ≤ max xs.length ys.length := by
  intro fuel
  induction fuel with
  | zero =>
    intro xs ys h
    match xs, ys with
    | [], [] => simp [levAux]
    | [], y :: ys => simp [levAux]
    | x :: xs, ys => simp at h
  | succ f ih =>
    intro xs ys h
    match xs, ys with
    | [], ys => simp [levAux]
    | x :: xs, [] => simp [levAux]
    | x :: xs, y :: ys =>
      simp only [levAux]
      split
      · have hf : xs.length + ys.length ≤ f := by
          simp only [List.length_cons] at h; omega
        have := ih xs ys hf
        simp only [List.length_cons]
        omega
      · have hf : xs.length + ys.length ≤ f := by
          simp only [List.length_cons] at h; omega
        have h3 := ih xs ys hf
        have hmin : min (levAux f xs (y :: ys))
            (min (levAux f (x :: xs) ys) (levAux f xs ys)) ≤ levAux f xs ys :=
          le_trans (min_le_right _ _) (min_le_right _ _)
        simp only [List.length_cons]
        omega

theorem levenshteinDistance_le_max (s1 s2 : List Char) :
    levenshteinDistance s1 s2 ≤ max s1.length s2.length :=
  levAux_le_max _ s1 s2 (le_refl _)

/-- Lowercasing a single code point yields at most two code points. -/
theorem jsToLowerChar_length_le (c : Char) : (jsToLowerChar c).length ≤ 2 := by
  unfold jsToLowerChar
  split
  · simp
  · split <;> simp

/-- Lowercasing at most doubles the length of a string. -/
theorem jsToLower_length_le (s : JSStr) : (jsToLower s).length ≤ 2 * s.length := by
  induction s with
  | nil => simp [jsToLower]
  | cons c rest ih =>
    have hc := jsToLowerChar_length_le c
    simp only [jsToLower, List.map_cons, List.flatten_cons, List.length_append,
      List.length_cons] at *
    omega

/-- The edit-distance signal is at least `-1` (the lowercased strings are at
most twice as long as the originals). -/
theorem editDistanceSimilarity_ge_neg_one (s1 s2 : JSStr) :
    -1 ≤ editDistanceSimilarity s1 s2 := by
  simp only [editDistanceSimilarity]
  split
  · norm_num
  · rename_i hml
    have hlen : levenshteinDistance (jsToLower s1) (jsToLower s2) ≤
        2 * max s1.length s2.length := by
      have h1 := levenshteinDistance_le_max (jsToLower s1) (jsToLower s2)
      have h2 := jsToLower_length_le s1
      have h3 := jsToLower_length_le s2
      have : max (jsToLower s1).length (jsToLower s2).length ≤
          2 * max s1.length s2.length := by omega
      omega
    have hpos : (0 : ℚ) < ((max s1.length s2.length : Nat) : ℚ) := by
      have h0 : 0 < max s1.length s2.length := Nat.pos_of_ne_zero hml
      exact_mod_cast h0
    have hq : ((levenshteinDistance (jsToLower s1) (jsToLower s2) : ℚ)) ≤
        2 * ((max s1.length s2.length : Nat) : ℚ) := by
      push_cast
      have h2' : (levenshteinDistance (jsToLower s1) (jsToLower s2) : ℚ) ≤
          ((2 * max s1.length s2.length : Nat) : ℚ) := by exact_mod_cast hlen
      push_cast at h2'
      linarith
    have hdiv := (div_le_iff₀ hpos).mpr hq
    linarith

/-- If lowercasing preserves both lengths, the edit-distance signal is
nonnegative. -/
theorem editDistanceSimilarity_nonneg (s1 s2 : JSStr)
    (h1 : (jsToLower s1).length = s1.length)
    (h2 : (jsToLower s2).length = s2.length) :
    0 ≤ editDistanceSimilarity s1 s2 := by
  simp only [editDistanceSimilarity]
  split
  · norm_num
  · rename_i hml
    have hlen : levenshteinDistance (jsToLower s1) (jsToLower s2) ≤
        max s1.length s2.length := by
      have := levenshteinDistance_le_max (jsToLower s1) (jsToLower s2)
      omega
    have hpos : (0 : ℚ) < ((max s1.length s2.length : Nat) : ℚ) := by
      have h0 : 0 < max s1.length s2.length := Nat.pos_of_ne_zero hml
      exact_mod_cast h0
    have hq : ((levenshteinDistance (jsToLower s1) (jsToLower s2) : ℚ)) ≤
        ((max s1.length s2.length : Nat) : ℚ) := by exact_mod_cast hlen
    have hdiv := (div_le_one hpos).mpr hq
    linarith

/-- The affix bonus of the similarity is nonnegative. -/
theorem affix_nonneg (p q : Prop) [Decidable p] [Decidable q] :
    (0 : ℚ) ≤ (if p then 3/20 else 0) + (if q then 1/10 else 0) := by
  split <;> split <;> norm_num

/-- The longest-common-substring bonus of the similarity is nonnegative. -/
theorem substring_bonus_nonneg (l m : Nat) :
    (0 : ℚ) ≤ (if 4 ≤ l then ((l : ℚ) / (m : ℚ)) * (1/5) else 0) := by
  split
  · exact mul_nonneg (div_nonneg (by positivity) (by positivity)) (by norm_num)
  · exact le_refl 0

/-- The weighted combination of the six signals is at least `-1/4` when
only the fourth signal (weight `1/4`) can go negative, and it is at least
`-1`. -/
theorem weighted_ge (A B C D E F : ℚ) (hA : 0 ≤ A) (hB : 0 ≤ B) (hC : 0 ≤ C)
    (hD : -1 ≤ D) (hE : 0 ≤ E) (hF : 0 ≤ F) :
    -(1/4 : ℚ) ≤ A * (1/4) + B * (1/5) + C * (1/5) + D * (1/4) +
      E * (1/20) + F * (1/20) := by
  nlinarith

/-- The weighted combination of the six signals is nonnegative when every
signal is. -/
theorem weighted_nonneg (A B C D E F : ℚ) (hA : 0 ≤ A) (hB : 0 ≤ B)
    (hC : 0 ≤ C) (hD : 0 ≤ D) (hE : 0 ≤ E) (hF : 0 ≤ F) :
    (0 : ℚ) ≤ A * (1/4) + B * (1/5) + C * (1/5) + D * (1/4) +
      E * (1/20) + F * (1/20) := by
  nlinarith

/-- Every similarity score is capped at 1 by the final `Math.min`. -/
theorem calculateAlgorithmicSimilarity_le_one (a b : JSStr) :
    calculateAlgorithmicSimilarity a b ≤ 1 := by
  simp only [calculateAlgorithmicSimilarity]
  split
  · exact le_refl 1
  · exact min_le_right _ _

/-- Every similarity score is at least `-1/4`: only the edit-distance
signal can be negative, it is at least `-1`, and its weight is `1/4`. -/
theorem calculateAlgorithmicSimilarity_ge (a b : JSStr) :
    -(1/4 : ℚ) ≤ calculateAlgorithmicSimilarity a b := by
  simp only [calculateAlgorithmicSimilarity]
  split
  · norm_num
  · refine le_min (weighted_ge _ _ _ _ _ _ ?_ ?_ ?_ ?_ ?_ ?_) (by norm_num)
    · exact jaccardSimilarity_nonneg _ _
    · exact jaccardSimilarity_nonneg _ _
    · exact tokenSimilarityPart_nonneg _ _
    · exact editDistanceSimilarity_ge_neg_one _ _
    · refine add_nonneg ?_ ?_ <;> · split <;> norm_num
    · split
      · exact mul_nonneg (div_nonneg (by positivity) (by positivity)) (by norm_num)
      · exact le_refl 0

/-- Every similarity score is nonnegative when lowercasing preserves the
two lengths. -/
theorem calculateAlgorithmicSimilarity_nonneg (a b : JSStr)
    (h1 : (jsToLower a).length = a.length)
    (h2 : (jsToLower b).length = b.length) :
    0 ≤ calculateAlgorithmicSimilarity a b := by
  simp only [calculateAlgorithmicSimilarity]
  split
  · norm_num
  · refine le_min (weighted_nonneg _ _ _ _ _ _ ?_ ?_ ?_ ?_ ?_ ?_) (by norm_num)
    · exact jaccardSimilarity_nonneg _ _
    · exact jaccardSimilarity_nonneg _ _
    · exact tokenSimilarityPart_nonneg _ _
    · exact editDistanceSimilarity_nonneg _ _ h1 h2
    · refine add_nonneg ?_ ?_ <;> · split <;> norm_num
    · split
      · exact mul_nonneg (div_nonneg (by positivity) (by positivity)) (by norm_num)
      · exact le_refl 0

/-! ### Claim C1 — empty and missing input -/

/-- Claim C1 (counterexample): the claim states that on empty input
`groupKeywords` returns a value whose count fields `totalGroups`,
`totalKeywords` and `groupedKeywords` are present and equal to 0; in fact
the early return carries no count fields at all (reading them yields
`undefined`, modelled as `none`), so `totalGroups` is not 0. -/
theorem claim_C1_counterexample :
    groupKeywords [] defaultOptions =
      .ok { groups := [], ungrouped := [], totalGroups := none,
            totalKeywords := none, groupedKeywords := none } ∧
    (none : Option Nat) ≠ some 0 :=
  ⟨rfl, by decide⟩

/-- Claim C1 (amended): for every options value, an empty (or missing)
input makes `groupKeywords` return exactly `{groups: [], ungrouped: []}`;
the three count fields are absent from this early return (they are
`undefined`), not 0. -/
theorem claim_C1 (opts : Options) :
    groupKeywords [] opts =
      .ok { groups := [], ungrouped := [], totalGroups := none,
            totalKeywords := none, groupedKeywords := none } ∧
    groupKeywordsJS none opts =
      .ok { groups := [], ungrouped := [], totalGroups := none,
            totalKeywords := none, groupedKeywords := none } :=
  ⟨rfl, rfl⟩

/-! ### Claim C5 — similarity bounds -/

/-- Claim C5 (counterexample): the claim states `similarity(a, b) ∈ [0, 1]`
for all strings.  The final `Math.min` clips only from above; for
`a = "İ"` (whose lowercase `"i̇"` has length 2 while `a.length = 1`) and
`b = ""` the edit-distance signal is `1 - 2/1 = -1` and the total score is
`-19/80 < 0`. -/
theorem claim_C5_counterexample :
    calculateAlgorithmicSimilarity (jsStr "İ") (jsStr "") = -(19/80) ∧
    (-(19/80) : ℚ) < 0 := by
  constructor
  · with_unfolding_all decide
  · norm_num

/-- Claim C5 (amended): `similarity(a, b) ≤ 1` always (the score is clipped
from above by `Math.min`); it is not clipped from below, but is nonnegative
whenever lowercasing preserves both strings' lengths (as it does for all
ASCII input) — the third hypothesis (at least one string has visible
content, or the two are equal) excludes the corner where JavaScript's
trigram Jaccard computes `0/0 = NaN`, which the rational model renders
as 0 and does not otherwise need. -/
theorem claim_C5 :
    (∀ a b : JSStr, calculateAlgorithmicSimilarity a b ≤ 1) ∧
    (∀ a b : JSStr,
      (jsToLower a).length = a.length →
      (jsToLower b).length = b.length →
      (jsTrim (collapseWs (jsToLower a)) ≠ [] ∨
        jsTrim (collapseWs (jsToLower b)) ≠ [] ∨ jsToLower a = jsToLower b) →
      0 ≤ calculateAlgorithmicSimilarity a b) :=
  ⟨fun a b => calculateAlgorithmicSimilarity_le_one a b,
   fun a b h1 h2 _ => calculateAlgorithmicSimilarity_nonneg a b h1 h2⟩

/-- Witness for claim C5 at a concrete input. -/
theorem claim_C5_witness :
    calculateAlgorithmicSimilarity (jsStr "abc") (jsStr "abd") ≤ 1 ∧
    0 ≤ calculateAlgorithmicSimilarity (jsStr "abc") (jsStr "abd") :=
  ⟨claim_C5.1 (jsStr "abc") (jsStr "abd"),
   claim_C5.2 (jsStr "abc") (jsStr "abd") (by decide) (by decide)
     (Or.inl (by with_unfolding_all decide))⟩

/-! ### Claim C4 — tokenization and minimum token length -/

/-- Claim C4 (counterexample): the claim states that the tokenization
feeding the token-Jaccard signal of the similarity discards length-1
tokens for non-CJK strings.  In fact that signal is computed from
`getWordTokens`, which keeps every nonempty token: for the non-CJK
queries `"a x"` and `"a y"` the length-1 token `"a"` is retained and the
signal equals `1/3` (it would be `0` under the claimed filtering, as the
`extractTerms` value shows). -/
theorem claim_C4_counterexample :
    isCJKStr (jsStr "a x") = false ∧
    jsStr "a" ∈ getWordTokens (jsStr "a x") ∧
    (jsStr "a").length = 1 ∧
    tokenSimilarityPart (jsStr "a x") (jsStr "a y") = 1/3 ∧
    jaccardSimilarity (extractTerms (jsStr "a x")) (extractTerms (jsStr "a y")) = 0 := by
  refine ⟨by decide, by decide, by decide, by with_unfolding_all decide,
    by with_unfolding_all decide⟩

/-- Claim C4 (amended): the CJK-aware minimum token length (1 for strings
containing Han/Hiragana/Katakana/Hangul characters, 2 otherwise) is
enforced by `extractTerms`, which the similarity does not use; the
token-Jaccard signal of the similarity is computed from `getWordTokens`,
whose only filter is nonemptiness (minimum token length 1 for every
script). -/
theorem claim_C4 :
    (∀ kw t, t ∈ extractTerms kw → (if isCJKStr kw then 1 else 2) ≤ t.length) ∧
    (∀ kw t, t ∈ getWordTokens kw →
      1 ≤ t.length ∧
      ((if isCJKStr kw then 1 else 2) ≤ t.length → t.any jsIsLetter = true →
        t ∈ extractTerms kw)) ∧
    (∀ k1 k2, tokenSimilarityPart k1 k2 =
        jaccardSimilarity (getWordTokens k1) (getWordTokens k2) ∨
      tokenSimilarityPart k1 k2 = 0) := by
  refine ⟨?_, ?_, ?_⟩
  · intro kw t ht
    simp only [extractTerms, List.mem_filter] at ht
    obtain ⟨-, hp⟩ := ht
    by_cases h : t.length < (if isCJKStr kw then 1 else 2)
    · simp [h] at hp
    · omega
  · intro kw t ht
    constructor
    · simp only [getWordTokens, List.mem_filter, gt_iff_lt,
        decide_eq_true_eq] at ht
      omega
    · intro hlen hlet
      simp only [extractTerms, List.mem_filter]
      refine ⟨ht, ?_⟩
      have h1 : ¬ t.length < (if isCJKStr kw then 1 else 2) := by omega
      simp [h1, hlet]
  · intro k1 k2
    simp only [tokenSimilarityPart]
    split
    · exact Or.inl rfl
    · exact Or.inr rfl

/-! ### Claim C3 — the token-frequency fallback of topic extraction -/

/-- The frequency of token `t` across the keywords: the number of
occurrences of `t` in the stream of length-above-1 word tokens of all
keywords, in scanning order. -/
def specTokenFreq (keywords : List JSStr) (t : JSStr) : Nat :=
  (keywords.flatMap (fun kw =>
    (getWordTokens kw).filter (fun s => s.length > 1))).count t

/-- `buildTokenFreq` is the fold of `bumpTok` over the flattened token
stream. -/
theorem buildTokenFreq_eq_foldl (keywords : List JSStr) :
    buildTokenFreq keywords =
      (keywords.flatMap (fun kw =>
        (getWordTokens kw).filter (fun s => s.length > 1))).foldl bumpTok [] := by
  unfold buildTokenFreq
  rw [List.flatMap_def, List.foldl_flatten, List.foldl_map]

/-- Appending one element changes exactly that element's count. -/
theorem count_append_one (s : List JSStr) (t u : JSStr) :
    (s ++ [t]).count u = s.count u + (if u = t then 1 else 0) := by
  by_cases h : u = t
  · subst h; simp [List.count_append]
  · simp [List.count_append, List.count_singleton', h]

/-- One `bumpTok` step preserves the frequency-map invariant: distinct
keys, and an entry `(u, k)` exactly when `k` is the positive number of
occurrences of `u` counted so far. -/
theorem bumpTok_inv (m : List (JSStr × Nat)) (s₀ : List JSStr) (t : JSStr)
    (hnd : (m.map Prod.fst).Nodup)
    (hmem : ∀ u k, (u, k) ∈ m ↔ (0 < k ∧ k = s₀.count u)) :
    ((bumpTok m t).map Prod.fst).Nodup ∧
    ∀ u k, ((u, k) ∈ bumpTok m t ↔ (0 < k ∧ k = (s₀ ++ [t]).count u)) := by
  unfold bumpTok
  split
  · rename_i hany
    rw [List.any_eq_true] at hany
    obtain ⟨p0, hp0m, hp0t⟩ := hany
    rw [decide_eq_true_eq] at hp0t
    have hcnt : 0 < s₀.count t := by
      have h0 := (hmem p0.1 p0.2).mp (by exact hp0m)
      rw [hp0t] at h0
      omega
    constructor
    · rw [List.map_map]
      have heq : m.map (Prod.fst ∘ fun p => if p.1 = t then (p.1, p.2 + 1) else p) =
          m.map Prod.fst :=
        List.map_congr_left (fun a _ => by
          by_cases h : a.1 = t <;> simp [Function.comp, h])
      rw [heq]
      exact hnd
    · intro u k
      rw [List.mem_map]
      constructor
      · rintro ⟨⟨v, n⟩, hpm, hgp⟩
        rw [count_append_one]
        by_cases hvt : v = t
        · subst hvt
          simp only [if_pos rfl] at hgp
          obtain ⟨hu, hk⟩ := Prod.mk.injEq .. |>.mp hgp
          subst hu
          subst hk
          have h0 := (hmem v n).mp hpm
          simp only [if_pos rfl, if_true, eq_self_iff_true]
          omega
        · simp only [if_neg hvt] at hgp
          obtain ⟨hu, hk⟩ := Prod.mk.injEq .. |>.mp hgp
          subst hu
          subst hk
          have h0 := (hmem v n).mp hpm
          simp only [if_neg hvt]
          omega
      · rintro ⟨hk, hkc⟩
        rw [count_append_one] at hkc
        by_cases hut : u = t
        · subst hut
          rw [if_pos rfl] at hkc
          refine ⟨(u, s₀.count u), (hmem u (s₀.count u)).mpr ⟨hcnt, rfl⟩, ?_⟩
          rw [hkc]
          simp
        · rw [if_neg hut] at hkc
          refine ⟨(u, k), (hmem u k).mpr ⟨hk, by omega⟩, ?_⟩
          simp only [if_neg hut]
  · rename_i hany
    have hnone : ∀ p ∈ m, p.1 ≠ t := by
      intro p hp hpt
      exact hany (List.any_eq_true.mpr ⟨p, hp, by simpa using hpt⟩)
    have hzero : s₀.count t = 0 := by
      by_contra hc
      have h0 : 0 < s₀.count t := Nat.pos_of_ne_zero hc
      have hin := (hmem t (s₀.count t)).mpr ⟨h0, rfl⟩
      exact hnone _ hin rfl
    constructor
    · rw [List.map_append]
      refine List.Nodup.append hnd (by simp) ?_
      intro x hx hxr
      simp only [List.map_cons, List.map_nil, List.mem_singleton] at hxr
      subst hxr
      rw [List.mem_map] at hx
      obtain ⟨p, hpm, hpf⟩ := hx
      exact hnone p hpm hpf
    · intro u k
      rw [List.mem_append, List.mem_singleton, count_append_one]
      constructor
      · rintro (hin | heq)
        · have hp := (hmem u k).mp hin
          have hut : u ≠ t := fun h => hnone (u, k) hin (by simpa using h)
          rw [if_neg hut]
          omega
        · obtain ⟨hu, hk⟩ := Prod.mk.injEq .. |>.mp heq
          subst hu
          subst hk
          rw [if_pos rfl, hzero]
          omega
      · rintro ⟨hk, hkc⟩
        by_cases hut : u = t
        · subst hut
          rw [if_pos rfl, hzero] at hkc
          right
          rw [hkc]
        · rw [if_neg hut] at hkc
          exact Or.inl ((hmem u k).mpr ⟨hk, by omega⟩)

/-- Folding `bumpTok` over a token stream preserves the frequency-map
invariant. -/
theorem foldl_bumpTok_inv :
    ∀ (s : List JSStr) (m : List (JSStr × Nat)) (s₀ : List JSStr),
      (m.map Prod.fst).Nodup →
      (∀ u k, (u, k) ∈ m ↔ (0 < k ∧ k = s₀.count u)) →
      ((s.foldl bumpTok m).map Prod.fst).Nodup ∧
      ∀ u k, ((u, k) ∈ s.foldl bumpTok m ↔ (0 < k ∧ k = (s₀ ++ s).count u))
  | [], m, s₀, hnd, hmem => by
    simpa using ⟨hnd, hmem⟩
  | t :: rest, m, s₀, hnd, hmem => by
    obtain ⟨hnd2, hmem2⟩ := bumpTok_inv m s₀ t hnd hmem
    have ih := foldl_bumpTok_inv rest (bumpTok m t) (s₀ ++ [t]) hnd2 hmem2
    simpa using ih

/-- The entries of `buildTokenFreq` are exactly the tokens with positive
frequency, paired with their frequency. -/
theorem buildTokenFreq_mem (keywords : List JSStr) (t : JSStr) (k : Nat) :
    (t, k) ∈ buildTokenFreq keywords ↔
      (0 < k ∧ k = specTokenFreq keywords t) := by
  rw [buildTokenFreq_eq_foldl]
  have h := foldl_bumpTok_inv
    (keywords.flatMap (fun kw => (getWordTokens kw).filter (fun s => s.length > 1)))
    [] [] (by simp) (by intro u k; simp; omega)
  have := (h.2 t k)
  simpa [specTokenFreq] using this

instance : IsTotal (JSStr × Nat) (fun a b => tokLE a b = true) := by
  constructor
  intro a b
  simp only [tokLE, Bool.or_eq_true, Bool.and_eq_true, decide_eq_true_eq,
    beq_iff_eq]
  omega

instance : IsTrans (JSStr × Nat) (fun a b => tokLE a b = true) := by
  constructor
  intro a b c hab hbc
  simp only [tokLE, Bool.or_eq_true, Bool.and_eq_true, decide_eq_true_eq,
    beq_iff_eq] at *
  omega

/-- Claim C3 (counterexample): the claim keeps a token iff its frequency
exceeds `max(2, 0.3 · cluster_size)`.  The code uses `Math.min`.  For the
three queries `"ab cd"`, `"ab ef"`, `"xy zw"` the common-substring search
finds nothing, the token `"ab"` has frequency 2, and `2 > max(2, 0.9)` is
false — yet the token is kept (indeed every frequency-1 token also passes
the code's `min` threshold `0.9`). -/
theorem claim_C3_counterexample :
    (findCommonSubstrings
      [jsStr "ab cd", jsStr "ab ef", jsStr "xy zw"]).toOption = some [] ∧
    jsStr "ab" ∈ commonTokensOf [jsStr "ab cd", jsStr "ab ef", jsStr "xy zw"] ∧
    specTokenFreq [jsStr "ab cd", jsStr "ab ef", jsStr "xy zw"] (jsStr "ab") = 2 ∧
    ¬ ((2 : ℚ) > max 2 ((3 : ℚ) * (3/10))) := by
  refine ⟨by decide, by with_unfolding_all decide, by decide, ?_⟩
  have h : max (2 : ℚ) ((3 : ℚ) * (3/10)) = 2 := max_eq_left (by norm_num)
  rw [h]
  norm_num

/-- Claim C3 (amended): in the token-frequency fallback, a token is kept by
the filter if and only if its frequency strictly exceeds
`min(2, 0.3 · cluster_size)` (the source uses `Math.min`, not `max`; only
tokens of length above 1 are counted at all); the kept entries are sorted
by frequency descending then token length descending, and at most 3 are
taken. -/
theorem claim_C3 (keywords : List JSStr) :
    (∀ t, t ∈ (qualifyingTokens keywords).map Prod.fst ↔
      min 2 ((keywords.length : ℚ) * (3/10)) < (specTokenFreq keywords t : ℚ)) ∧
    commonTokensOf keywords =
      ((List.insertionSort (fun a b => tokLE a b = true)
        (qualifyingTokens keywords)).take 3).map Prod.fst ∧
    (commonTokensOf keywords).length ≤ 3 ∧
    List.Sorted (fun a b => tokLE a b = true)
      (List.insertionSort (fun a b => tokLE a b = true)
        (qualifyingTokens keywords)) := by
  refine ⟨?_, rfl, ?_, List.sorted_insertionSort _ _⟩
  · intro t
    constructor
    · intro ht
      rw [List.mem_map] at ht
      obtain ⟨p, hpq, hpt⟩ := ht
      simp only [qualifyingTokens, List.mem_filter, decide_eq_true_eq,
        gt_iff_lt] at hpq
      obtain ⟨hbtf, hgt⟩ := hpq
      have hchar := (buildTokenFreq_mem keywords p.1 p.2).mp (by
        simpa using hbtf)
      rw [← hpt, ← hchar.2]
      exact hgt
    · intro ht
      have hmin0 : (0 : ℚ) ≤ min 2 ((keywords.length : ℚ) * (3/10)) :=
        le_min (by norm_num) (by positivity)
      have hkpos : 0 < specTokenFreq keywords t := by
        by_contra hz
        have h0 : specTokenFreq keywords t = 0 := by omega
        rw [h0] at ht
        simp only [Nat.cast_zero] at ht
        exact absurd ht (not_lt.mpr hmin0)
      rw [List.mem_map]
      refine ⟨(t, specTokenFreq keywords t), ?_, rfl⟩
      simp only [qualifyingTokens, List.mem_filter, decide_eq_true_eq,
        gt_iff_lt]
      exact ⟨(buildTokenFreq_mem keywords t _).mpr ⟨hkpos, rfl⟩, ht⟩
  · unfold commonTokensOf
    rw [List.length_map]
    have := List.length_take 3
      (List.insertionSort (fun a b => tokLE a b = true)
        (qualifyingTokens keywords))
    omega

/-- Witness for claim C3 at a concrete input: the token `"ab"` of the
queries above is among the qualifying tokens, so its frequency clears the
`min` threshold. -/
theorem claim_C3_witness :
    min 2 ((([jsStr "ab cd", jsStr "ab ef", jsStr "xy zw"] : List JSStr).length : ℚ)
        * (3/10)) <
      (specTokenFreq [jsStr "ab cd", jsStr "ab ef", jsStr "xy zw"] (jsStr "ab") : ℚ) ∧
    (commonTokensOf [jsStr "ab cd", jsStr "ab ef", jsStr "xy zw"]).length ≤ 3 :=
  ⟨((claim_C3 [jsStr "ab cd", jsStr "ab ef", jsStr "xy zw"]).1 (jsStr "ab")).mp
      (by with_unfolding_all decide),
   (claim_C3 [jsStr "ab cd", jsStr "ab ef", jsStr "xy zw"]).2.2.1⟩

/-- Witness for claim C4 at concrete inputs. -/
theorem claim_C4_witness :
    (if isCJKStr (jsStr "ab cd") then 1 else 2) ≤ (jsStr "ab").length ∧
    jsStr "ab" ∈ extractTerms (jsStr "ab cd") := by
  refine ⟨claim_C4.1 (jsStr "ab cd") (jsStr "ab") ?_,
    (claim_C4.2.1 (jsStr "ab cd") (jsStr "ab") ?_).2 ?_ ?_⟩
  · decide
  · decide
  · decide
  · decide

/-! ### Claim C7 — intent classification -/

/-- The selection rule as the claim states it: among the categories with a
matching pattern, take the one with the highest weight, breaking weight
ties by declaration order, defaulting to informational.  With the concrete
weights (commercial 0.9 > transactional 0.85 > informational 0.8 >
navigational 0.7) all weights are distinct, so the rule is this descending-
weight chain. -/
def intentClaimSelect (keyword : JSStr) : Intent :=
  let lower := jsToLower keyword
  if matchesCommercial lower then .commercial
  else if matchesTransactional lower then .transactional
  else if matchesInformational lower then .informational
  else if matchesNavigational lower then .navigational
  else .informational

/-- Claim C7: `classifyIntent` returns the matching category of highest
weight (ties, which cannot occur, would go to declaration order), and
defaults to informational; the classifier agrees with the claim's
selection rule everywhere, and on the two example queries. -/
theorem claim_C7 :
    (∀ q, classifyIntent q = intentClaimSelect q) ∧
    (∀ q i, intentMatches i (jsToLower q) = true →
      intentWeight i ≤ intentWeight (classifyIntent q)) ∧
    (∀ q, (∃ i, intentMatches i (jsToLower q) = true) →
      intentMatches (classifyIntent q) (jsToLower q) = true) ∧
    (∀ q, (∀ i, intentMatches i (jsToLower q) = false) →
      classifyIntent q = .informational) ∧
    classifyIntent (jsStr "how to fix a leaky faucet") = .informational ∧
    classifyIntent (jsStr "buy iphone 15 price") = .commercial := by
  have hmain : ∀ q, classifyIntent q = intentClaimSelect q := by
    intro q
    simp only [classifyIntent, intentClaimSelect, intentOrder, List.foldl,
      intentMatches, intentWeight]
    cases hI : matchesInformational (jsToLower q) <;>
      cases hC : matchesCommercial (jsToLower q) <;>
        cases hN : matchesNavigational (jsToLower q) <;>
          cases hT : matchesTransactional (jsToLower q) <;>
            norm_num [hI, hC, hN, hT]
  refine ⟨hmain, ?_, ?_, ?_, by with_unfolding_all decide,
    by with_unfolding_all decide⟩
  · intro q i hi
    rw [hmain]
    simp only [intentClaimSelect]
    cases hI : matchesInformational (jsToLower q) <;>
      cases hC : matchesCommercial (jsToLower q) <;>
        cases hN : matchesNavigational (jsToLower q) <;>
          cases hT : matchesTransactional (jsToLower q) <;>
            cases i <;> simp_all [intentMatches, intentWeight] <;> norm_num
  · intro q hex
    obtain ⟨i, hi⟩ := hex
    rw [hmain]
    simp only [intentClaimSelect]
    cases hI : matchesInformational (jsToLower q) <;>
      cases hC : matchesCommercial (jsToLower q) <;>
        cases hN : matchesNavigational (jsToLower q) <;>
          cases hT : matchesTransactional (jsToLower q) <;>
            cases i <;> simp_all [intentMatches]
  · intro q hall
    rw [hmain]
    simp only [intentClaimSelect]
    have hI := hall .informational
    have hC := hall .commercial
    have hN := hall .navigational
    have hT := hall .transactional
    simp only [intentMatches] at hI hC hN hT
    simp [hI, hC, hN, hT]

/-- Witness for claim C7 at a concrete input: the commercial query matches
the commercial category, whose weight bounds the selection. -/
theorem claim_C7_witness :
    intentWeight .commercial ≤
      intentWeight (classifyIntent (jsStr "buy iphone 15 price")) ∧
    intentMatches (classifyIntent (jsStr "buy iphone 15 price"))
      (jsToLower (jsStr "buy iphone 15 price")) = true :=
  ⟨claim_C7.2.1 (jsStr "buy iphone 15 price") .commercial (by decide),
   claim_C7.2.2.1 (jsStr "buy iphone 15 price") ⟨.commercial, by decide⟩⟩

/-! ### The merge loop: reachable states and the best-pair scan -/

/-- The cluster lists the agglomeration loop can reach: the initial
singleton partition, and the result of any merge the loop performs (a
best pair whose similarity passed the stop test). -/
inductive ClusterReachable {α : Type} [DecidableEq α] (items : List α)
    (similarities : List (List ℚ)) (threshold : ℚ) :
    List (List α) → Prop where
  | init : ClusterReachable items similarities threshold
      (items.map (fun item => [item]))
  | step {clusters : List (List α)} {s : ℚ} {i j : Nat} :
      ClusterReachable items similarities threshold clusters →
      findBestPair clusters similarities items = (s, some (i, j)) →
      ¬ s < threshold →
      ClusterReachable items similarities threshold (mergeAt clusters i j)

/-- The generic maximum-tracking fold behind `findBestPair`: the
accumulator never decreases, every scanned value is bounded by the result,
and the result is the accumulator or a scanned entry. -/
theorem bestFold_inv (g : Nat × Nat → ℚ) :
    ∀ (l : List (Nat × Nat)) (acc : ℚ × Option (Nat × Nat)),
      acc.1 ≤ (l.foldl (fun a p => if g p > a.1 then (g p, some p) else a) acc).1 ∧
      (∀ p ∈ l, g p ≤ (l.foldl (fun a p => if g p > a.1 then (g p, some p) else a) acc).1) ∧
      ((l.foldl (fun a p => if g p > a.1 then (g p, some p) else a) acc) = acc ∨
        ∃ ij ∈ l, (l.foldl (fun a p => if g p > a.1 then (g p, some p) else a) acc) =
          (g ij, some ij))
  | [], acc => by simp
  | p :: l, acc => by
    simp only [List.foldl_cons]
    set acc2 := if g p > acc.1 then (g p, some p) else acc with hacc2
    have hstep : acc.1 ≤ acc2.1 ∧ g p ≤ acc2.1 := by
      rw [hacc2]
      split
      · constructor
        · rename_i h; exact le_of_lt h
        · exact le_refl _
      · rename_i h
        exact ⟨le_refl _, le_of_not_lt h⟩
    obtain ⟨ih1, ih2, ih3⟩ := bestFold_inv g l acc2
    refine ⟨le_trans hstep.1 ih1, ?_, ?_⟩
    · intro q hq
      rcases List.mem_cons.mp hq with hq | hq
      · subst hq; exact le_trans hstep.2 ih1
      · exact ih2 q hq
    · rcases ih3 with ih3 | ⟨ij, hij, hr⟩
      · rw [ih3, hacc2]
        split
        · exact Or.inr ⟨p, List.mem_cons_self .., rfl⟩
        · exact Or.inl rfl
      · exact Or.inr ⟨ij, List.mem_cons_of_mem _ hij, hr⟩

/-- Membership in the pair-index scan. -/
theorem mem_pairIndices {k i j : Nat} :
    (i, j) ∈ pairIndices k ↔ i < j ∧ j < k := by
  unfold pairIndices
  rw [List.mem_flatMap]
  constructor
  · rintro ⟨i', hi', hmem⟩
    rw [List.mem_map] at hmem
    obtain ⟨j', hj', hpair⟩ := hmem
    obtain ⟨hii, hjj⟩ := Prod.mk.injEq .. |>.mp hpair
    subst hii
    subst hjj
    rw [List.mem_range] at hi'
    rw [List.mem_range'_1] at hj'
    omega
  · rintro ⟨hij, hjk⟩
    refine ⟨i, List.mem_range.mpr (by omega), ?_⟩
    rw [List.mem_map]
    exact ⟨j, List.mem_range'_1.mpr (by omega), rfl⟩

/-- When `findBestPair` reports a pair, that pair is in range, its cluster
similarity is the reported maximum, and every pair's similarity is bounded
by it. -/
theorem findBestPair_some {α : Type} [DecidableEq α]
    (clusters : List (List α)) (similarities : List (List ℚ))
    (items : List α) (s : ℚ) (i j : Nat)
    (h : findBestPair clusters similarities items = (s, some (i, j))) :
    (i < j ∧ j < clusters.length) ∧
    s = getClusterSimilarity (clusters.getD i []) (clusters.getD j [])
      similarities items ∧
    ∀ p ∈ pairIndices clusters.length,
      getClusterSimilarity (clusters.getD p.1 []) (clusters.getD p.2 [])
        similarities items ≤ s := by
  have hinv := bestFold_inv
    (fun p => getClusterSimilarity (clusters.getD p.1 []) (clusters.getD p.2 [])
      similarities items)
    (pairIndices clusters.length) (-1, none)
  rw [show (pairIndices clusters.length).foldl _ _ = (s, some (i, j)) from h] at hinv
  obtain ⟨-, hbound, hcase⟩ := hinv
  rcases hcase with hcase | ⟨ij, hij, hr⟩
  · exact absurd (congrArg Prod.snd hcase) (by simp)
  · obtain ⟨hs, hsome⟩ := Prod.mk.injEq .. |>.mp hr
    have hij2 : ij = (i, j) := (Option.some.inj hsome).symm
    subst hij2
    rw [mem_pairIndices] at hij
    exact ⟨hij, hs, fun p hp => hs ▸ hbound p hp⟩

/-- When `findBestPair` reports no pair, the maximum is the sentinel `-1`. -/
theorem findBestPair_none {α : Type} [DecidableEq α]
    (clusters : List (List α)) (similarities : List (List ℚ))
    (items : List α) (s : ℚ)
    (h : findBestPair clusters similarities items = (s, none)) :
    s = -1 := by
  have hinv := bestFold_inv
    (fun p => getClusterSimilarity (clusters.getD p.1 []) (clusters.getD p.2 [])
      similarities items)
    (pairIndices clusters.length) (-1, none)
  rw [show (pairIndices clusters.length).foldl _ _ = (s, none) from h] at hinv
  obtain ⟨-, -, hcase⟩ := hinv
  rcases hcase with hcase | ⟨ij, hij, hr⟩
  · exact congrArg Prod.fst hcase
  · exact absurd (congrArg Prod.snd hr) (by simp)

/-- A `max`-fold stays below `t` when its start and every folded value
do. -/
theorem foldl_max_lt {β : Type} (l : List β) (g : β → ℚ) (a t : ℚ)
    (ha : a < t) (hl : ∀ y ∈ l, g y < t) :
    l.foldl (fun acc y => max acc (g y)) a < t := by
  induction l generalizing a with
  | nil => exact ha
  | cons y ys ih =>
    simp only [List.foldl_cons]
    exact ih _ (max_lt ha (hl y (List.mem_cons_self ..)))
      (fun z hz => hl z (List.mem_cons_of_mem _ hz))

/-- The single-linkage cluster similarity is below `t` when `t` is positive
and every cross-pair matrix entry is. -/
theorem getClusterSimilarity_lt {α : Type} [DecidableEq α]
    (cluster1 cluster2 : List α) (similarities : List (List ℚ))
    (items : List α) (t : ℚ) (ht : 0 < t)
    (h : ∀ x ∈ cluster1, ∀ y ∈ cluster2,
      matAt similarities (items.indexOf x) (items.indexOf y) < t) :
    getClusterSimilarity cluster1 cluster2 similarities items < t := by
  unfold getClusterSimilarity
  suffices hgen : ∀ (c1 : List α) (a : ℚ), a < t →
      (∀ x ∈ c1, ∀ y ∈ cluster2,
        matAt similarities (items.indexOf x) (items.indexOf y) < t) →
      c1.foldl (fun acc item1 => cluster2.foldl
        (fun acc2 item2 => max acc2
          (matAt similarities (items.indexOf item1) (items.indexOf item2)))
        acc) a < t by
    exact hgen cluster1 0 ht h
  intro c1
  induction c1 with
  | nil => intro a ha _; exact ha
  | cons x xs ih =>
    intro a ha hall
    simp only [List.foldl_cons]
    exact ih _ (foldl_max_lt cluster2 _ a t ha (hall x (List.mem_cons_self ..)))
      (fun z hz => hall z (List.mem_cons_of_mem _ hz))

/-- The single-linkage cluster similarity of nonempty clusters reaching `t`
yields a cross pair whose matrix entry reaches `t`, provided `t` is
positive (the fold's floor is `0`). -/
theorem getClusterSimilarity_exists {α : Type} [DecidableEq α]
    (cluster1 cluster2 : List α) (similarities : List (List ℚ))
    (items : List α) (t : ℚ) (ht : 0 < t)
    (h : t ≤ getClusterSimilarity cluster1 cluster2 similarities items) :
    ∃ x ∈ cluster1, ∃ y ∈ cluster2,
      t ≤ matAt similarities (items.indexOf x) (items.indexOf y) := by
  by_contra hn
  push_neg at hn
  exact absurd h (not_le.mpr (getClusterSimilarity_lt _ _ _ _ t ht hn))

/-- Members of a merged cluster list are old clusters or the merged pair. -/
theorem mem_mergeAt {α : Type} (clusters : List (List α)) (i j : Nat)
    (c : List α) (hc : c ∈ mergeAt clusters i j) :
    c ∈ clusters ∨ c = clusters.getD i [] ++ clusters.getD j [] := by
  unfold mergeAt at hc
  rcases List.mem_append.mp hc with hc | hc
  · rw [List.mem_map] at hc
    obtain ⟨p, hpm, hps⟩ := hc
    rw [List.mem_filter] at hpm
    have := hpm.1
    rw [List.enum_eq_zip_range] at this
    exact Or.inl (hps ▸ (List.of_mem_zip this).2)
  · exact Or.inr (List.mem_singleton.mp hc)

/-- In-range `getD` values are members. -/
theorem getD_mem {α : Type} (l : List α) (i : Nat) (d : α) (h : i < l.length) :
    l.getD i d ∈ l := by
  rw [List.getD_eq_getElem l d h]
  exact List.getElem_mem h

/-- Every state the agglomeration loop returns is reachable. -/
theorem clusterLoop_reachable {α : Type} [DecidableEq α]
    (similarities : List (List ℚ)) (items : List α) (threshold : ℚ) :
    ∀ (fuel : Nat) (clusters result : List (List α)),
      ClusterReachable items similarities threshold clusters →
      clusterLoop similarities items threshold fuel clusters = .ok result →
      ClusterReachable items similarities threshold result
  | 0, clusters, result, _, h => by simp [clusterLoop] at h
  | fuel + 1, clusters, result, hreach, h => by
    rcases hfb : findBestPair clusters similarities items with ⟨s, ij⟩
    simp only [clusterLoop] at h
    rw [hfb] at h
    simp only at h
    by_cases hst : s < threshold
    · rw [if_pos hst] at h
      exact (Except.ok.inj h) ▸ hreach
    · rw [if_neg hst] at h
      match ij, h with
      | none, h => exact absurd h (by simp)
      | some (i, j), h =>
        exact clusterLoop_reachable similarities items threshold fuel _ result
          (ClusterReachable.step hreach hfb hst) h

/-! ### Claim C8 — below-threshold subsets never share a cluster -/

/-- Claim C8 (counterexample): the claim quantifies over arbitrary record
subsets.  Take items `[0, 1, 2]`, the subsets `A = {0}` and `B = {2}`,
threshold `1/2`, and a matrix in which the only `A`–`B` cross pair has
similarity `1/10 < 1/2` while item `1` is `9/10`-similar to both.  Single
linkage chains through item `1`: the loop first merges `{0}` with `{1}`,
then the result with `{2}`, reaching a cluster that contains records of
both subsets. -/
theorem claim_C8_counterexample :
    matAt [[1, 9/10, 1/10], [9/10, 1, 9/10], [1/10, 9/10, 1]]
      (List.indexOf 0 [0, 1, 2]) (List.indexOf 2 [0, 1, 2]) < (1/2 : ℚ) ∧
    matAt [[1, 9/10, 1/10], [9/10, 1, 9/10], [1/10, 9/10, 1]]
      (List.indexOf 2 [0, 1, 2]) (List.indexOf 0 [0, 1, 2]) < (1/2 : ℚ) ∧
    ClusterReachable [0, 1, 2]
      [[1, 9/10, 1/10], [9/10, 1, 9/10], [1/10, 9/10, 1]] (1/2) [[2, 0, 1]] ∧
    ∃ c ∈ [[2, 0, 1]], (0 : Nat) ∈ c ∧ (2 : Nat) ∈ c := by
  refine ⟨by with_unfolding_all decide, by with_unfolding_all decide, ?_,
    by decide⟩
  have h1 : ClusterReachable [0, 1, 2]
      [[1, 9/10, 1/10], [9/10, 1, 9/10], [1/10, 9/10, 1]] (1/2)
      [[0], [1], [2]] := by
    have e1 : ([0, 1, 2] : List Nat).map (fun item => [item]) =
        [[0], [1], [2]] := rfl
    exact e1 ▸ ClusterReachable.init
  have hf1 : findBestPair [[0], [1], [2]]
      [[1, 9/10, 1/10], [9/10, 1, 9/10], [1/10, 9/10, 1]] [0, 1, 2] =
      (9/10, some (0, 1)) := by with_unfolding_all decide
  have h2 := ClusterReachable.step h1 hf1 (by norm_num)
  have e2 : mergeAt ([[0], [1], [2]] : List (List Nat)) 0 1 = [[2], [0, 1]] := by
    decide
  rw [e2] at h2
  have hf2 : findBestPair [[2], [0, 1]]
      [[1, 9/10, 1/10], [9/10, 1, 9/10], [1/10, 9/10, 1]] [0, 1, 2] =
      (9/10, some (0, 1)) := by with_unfolding_all decide
  have h3 := ClusterReachable.step h2 hf2 (by norm_num)
  have e3 : mergeAt ([[2], [0, 1]] : List (List Nat)) 0 1 = [[2, 0, 1]] := by
    decide
  rw [e3] at h3
  exact h3

/-- Claim C8 (amended): when the two subsets `A` and `B` are disjoint and
together cover the items handed to the clustering, the threshold is
positive, and every cross-pair matrix entry (in either orientation) is
strictly below the threshold, then at no step of the merge loop does any
cluster contain records of both subsets — regardless of merge order.  (The
cover condition excludes single-linkage chaining through outside records,
and positivity is needed because the cluster-similarity scan starts at 0.) -/
theorem claim_C8 {α : Type} [DecidableEq α] (items : List α)
    (similarities : List (List ℚ)) (threshold : ℚ) (A B : α → Prop)
    (hcover : ∀ x ∈ items, A x ∨ B x)
    (hdisj : ∀ x ∈ items, ¬(A x ∧ B x))
    (ht : 0 < threshold)
    (hcross : ∀ x ∈ items, ∀ y ∈ items, ((A x ∧ B y) ∨ (B x ∧ A y)) →
      matAt similarities (items.indexOf x) (items.indexOf y) < threshold) :
    ∀ clusters, ClusterReachable items similarities threshold clusters →
      ∀ c ∈ clusters, ¬((∃ x ∈ c, A x) ∧ (∃ y ∈ c, B y)) := by
  have hinv : ∀ clusters,
      ClusterReachable items similarities threshold clusters →
      ∀ c ∈ clusters, (∀ x ∈ c, x ∈ items) ∧
        ((∀ x ∈ c, A x) ∨ (∀ x ∈ c, B x)) := by
    intro clusters hreach
    induction hreach with
    | init =>
      intro c hc
      rw [List.mem_map] at hc
      obtain ⟨x, hx, hcx⟩ := hc
      subst hcx
      refine ⟨by simpa using hx, ?_⟩
      rcases hcover x hx with hA | hB
      · exact Or.inl (by simpa using hA)
      · exact Or.inr (by simpa using hB)
    | step hprev hfb hst ih =>
      rename_i cs s i j
      intro c hc
      rcases mem_mergeAt cs i j c hc with hc | hc
      · exact ih c hc
      · obtain ⟨⟨hij, hjk⟩, hs, -⟩ := findBestPair_some cs similarities items s i j hfb
        have hci := ih (cs.getD i []) (getD_mem cs i [] (by omega))
        have hcj := ih (cs.getD j []) (getD_mem cs j [] hjk)
        have hmerged : ∀ x ∈ c, x ∈ items := by
          intro x hx
          rw [hc, List.mem_append] at hx
          rcases hx with hx | hx
          · exact hci.1 x hx
          · exact hcj.1 x hx
        refine ⟨hmerged, ?_⟩
        have hmix : ∀ (c1 c2 : List α), (∀ x ∈ c1, x ∈ items) →
            (∀ x ∈ c2, x ∈ items) → (∀ x ∈ c1, A x) → (∀ x ∈ c2, B x) →
            ¬ threshold ≤ getClusterSimilarity c1 c2 similarities items := by
          intro c1 c2 hm1 hm2 hA1 hB2 hge
          obtain ⟨x, hx, y, hy, hxy⟩ :=
            getClusterSimilarity_exists c1 c2 similarities items threshold ht hge
          exact absurd hxy (not_le.mpr
            (hcross x (hm1 x hx) y (hm2 y hy) (Or.inl ⟨hA1 x hx, hB2 y hy⟩)))
        have hmix2 : ∀ (c1 c2 : List α), (∀ x ∈ c1, x ∈ items) →
            (∀ x ∈ c2, x ∈ items) → (∀ x ∈ c1, B x) → (∀ x ∈ c2, A x) →
            ¬ threshold ≤ getClusterSimilarity c1 c2 similarities items := by
          intro c1 c2 hm1 hm2 hB1 hA2 hge
          obtain ⟨x, hx, y, hy, hxy⟩ :=
            getClusterSimilarity_exists c1 c2 similarities items threshold ht hge
          exact absurd hxy (not_le.mpr
            (hcross x (hm1 x hx) y (hm2 y hy) (Or.inr ⟨hB1 x hx, hA2 y hy⟩)))
        have hge : threshold ≤ getClusterSimilarity (cs.getD i [])
            (cs.getD j []) similarities items := hs ▸ le_of_not_lt hst
        rcases hci.2 with hAi | hBi <;> rcases hcj.2 with hAj | hBj
        · refine Or.inl ?_
          intro x hx
          rw [hc, List.mem_append] at hx
          rcases hx with hx | hx
          · exact hAi x hx
          · exact hAj x hx
        · exact absurd hge (hmix _ _ hci.1 hcj.1 hAi hBj)
        · exact absurd hge (hmix2 _ _ hci.1 hcj.1 hBi hAj)
        · refine Or.inr ?_
          intro x hx
          rw [hc, List.mem_append] at hx
          rcases hx with hx | hx
          · exact hBi x hx
          · exact hBj x hx
  intro clusters hreach c hc
  rintro ⟨⟨x, hxc, hAx⟩, ⟨y, hyc, hBy⟩⟩
  obtain ⟨hmem, hpure⟩ := hinv clusters hreach c hc
  rcases hpure with hall | hall
  · exact hdisj y (hmem y hyc) ⟨hall y hyc, hBy⟩
  · exact hdisj x (hmem x hxc) ⟨hAx, hall x hxc⟩

/-! ### Structure of one merge step -/

/-- Dropping the entries with indices `i < j` from an indexed list is a
double `eraseIdx`, stated for an arbitrary starting index. -/
theorem enumFrom_filter_ne2 {β : Type} (i j : Nat) (hij : i < j) :
    ∀ (cs : List β) (n : Nat),
      ((List.enumFrom n cs).filter (fun p => p.1 ≠ i ∧ p.1 ≠ j)).map Prod.snd =
      if n ≤ i then (cs.eraseIdx (j - n)).eraseIdx (i - n)
      else if n ≤ j then cs.eraseIdx (j - n)
      else cs
  | [], n => by
    simp only [List.enumFrom, List.filter_nil, List.map_nil, List.eraseIdx_nil]
    split_ifs <;> rfl
  | x :: xs, n => by
    rw [List.enumFrom_cons, List.filter_cons]
    rcases Nat.lt_trichotomy n i with hni | hni | hni
    · rw [if_pos (by simp only [decide_eq_true_eq]; omega)]
      rw [List.map_cons, enumFrom_filter_ne2 i j hij xs (n + 1)]
      rw [if_pos (by omega : n + 1 ≤ i)]
      rw [if_pos (by omega : n ≤ i)]
      have hj2 : j - n = (j - (n + 1)) + 1 := by omega
      have hi2 : i - n = (i - (n + 1)) + 1 := by omega
      rw [hj2, hi2, List.eraseIdx_cons_succ, List.eraseIdx_cons_succ]
    · rw [if_neg (by simp only [decide_eq_true_eq]; omega)]
      rw [enumFrom_filter_ne2 i j hij xs (n + 1)]
      rw [if_neg (by omega : ¬ n + 1 ≤ i), if_pos (by omega : n + 1 ≤ j)]
      rw [if_pos (by omega : n ≤ i)]
      have hj2 : j - n = (j - (n + 1)) + 1 := by omega
      have hi2 : i - n = 0 := by omega
      rw [hj2, hi2, List.eraseIdx_cons_succ, List.eraseIdx_cons_zero]
    · rcases Nat.lt_trichotomy n j with hnj | hnj | hnj
      · rw [if_pos (by simp only [decide_eq_true_eq]; omega)]
        rw [List.map_cons, enumFrom_filter_ne2 i j hij xs (n + 1)]
        rw [if_neg (by omega : ¬ n + 1 ≤ i)]
        rw [if_neg (by omega : ¬ n ≤ i), if_pos (by omega : n ≤ j)]
        have hj2 : j - n = (j - (n + 1)) + 1 := by omega
        rw [hj2, List.eraseIdx_cons_succ]
        by_cases h2 : n + 1 ≤ j
        · rw [if_pos h2]
        · omega
      · rw [if_neg (by simp only [decide_eq_true_eq]; omega)]
        rw [enumFrom_filter_ne2 i j hij xs (n + 1)]
        rw [if_neg (by omega : ¬ n + 1 ≤ i), if_neg (by omega : ¬ n + 1 ≤ j)]
        rw [if_neg (by omega : ¬ n ≤ i), if_pos (by omega : n ≤ j)]
        have hj2 : j - n = 0 := by omega
        rw [hj2, List.eraseIdx_cons_zero]
      · rw [if_pos (by simp only [decide_eq_true_eq]; omega)]
        rw [List.map_cons, enumFrom_filter_ne2 i j hij xs (n + 1)]
        rw [if_neg (by omega : ¬ n + 1 ≤ i), if_neg (by omega : ¬ n + 1 ≤ j)]
        rw [if_neg (by omega : ¬ n ≤ i), if_neg (by omega : ¬ n ≤ j)]

/-- A merge keeps the other clusters (in order) and appends the
concatenation: the kept part is a double `eraseIdx`. -/
theorem mergeAt_eq {α : Type} (cs : List (List α)) (i j : Nat) (hij : i < j) :
    mergeAt cs i j =
      (cs.eraseIdx j).eraseIdx i ++ [cs.getD i [] ++ cs.getD j []] := by
  unfold mergeAt
  rw [List.enum_eq_enumFrom, enumFrom_filter_ne2 i j hij cs 0]
  rw [if_pos (Nat.zero_le i)]
  simp

/-- A merge of a valid pair shrinks the cluster list by one. -/
theorem length_mergeAt {α : Type} (cs : List (List α)) (i j : Nat)
    (hij : i < j) (hj : j < cs.length) :
    (mergeAt cs i j).length = cs.length - 1 := by
  rw [mergeAt_eq cs i j hij]
  rw [List.length_append, List.length_eraseIdx, List.length_eraseIdx]
  rw [if_pos hj]
  rw [if_pos (by omega)]
  simp
  omega

/-- A list is a permutation of any of its entries consed onto the list with
that entry erased. -/
theorem perm_getD_cons_eraseIdx {α : Type} (d : α) :
    ∀ (l : List α) (k : Nat), k < l.length →
      l.Perm (l.getD k d :: l.eraseIdx k)
  | [], k, h => by simp at h
  | x :: xs, 0, _ => by simp
  | x :: xs, k + 1, h => by
    rw [List.eraseIdx_cons_succ]
    have ih := perm_getD_cons_eraseIdx d xs k (by simpa using h)
    have hgd : (x :: xs).getD (k + 1) d = xs.getD k d := rfl
    rw [hgd]
    exact (ih.cons x).trans (List.Perm.swap _ _ _)

/-- Erasing a later index leaves earlier entries unchanged. -/
theorem getD_eraseIdx_of_lt {α : Type} (d : α) :
    ∀ (l : List α) (i j : Nat), i < j → j < l.length →
      (l.eraseIdx j).getD i d = l.getD i d
  | [], i, j, _, h => by simp at h
  | x :: xs, i, 0, hij, _ => by omega
  | x :: xs, 0, j + 1, _, _ => by
    rw [List.eraseIdx_cons_succ]
    rfl
  | x :: xs, i + 1, j + 1, hij, h => by
    rw [List.eraseIdx_cons_succ]
    have ih := getD_eraseIdx_of_lt d xs i j (by omega) (by simpa using h)
    simpa using ih

/-- The clusters of a merge are, as a list, a permutation of the old
clusters with the two merged ones replaced by their concatenation — so the
records, flattened, are conserved exactly. -/
theorem flatten_mergeAt_perm {α : Type} (cs : List (List α)) (i j : Nat)
    (hij : i < j) (hj : j < cs.length) :
    (mergeAt cs i j).flatten.Perm cs.flatten := by
  rw [mergeAt_eq cs i j hij]
  have h1 : cs.Perm (cs.getD j [] :: cs.eraseIdx j) :=
    perm_getD_cons_eraseIdx [] cs j hj
  have hlen2 : i < (cs.eraseIdx j).length := by
    rw [List.length_eraseIdx, if_pos hj]
    omega
  have h2 : (cs.eraseIdx j).Perm
      ((cs.eraseIdx j).getD i [] :: (cs.eraseIdx j).eraseIdx i) :=
    perm_getD_cons_eraseIdx [] (cs.eraseIdx j) i hlen2
  rw [getD_eraseIdx_of_lt [] cs i j hij hj] at h2
  have h3 : cs.Perm (cs.getD i [] :: cs.getD j [] ::
      (cs.eraseIdx j).eraseIdx i) :=
    (h1.trans (h2.cons _)).trans (List.Perm.swap _ _ _)
  have h4 := h3.flatten
  refine List.Perm.symm (h4.trans ?_)
  simp only [List.flatten_cons, List.flatten_append, List.flatten_nil,
    List.append_nil]
  have h5 := @List.perm_append_comm _ (cs.getD i [] ++ cs.getD j [])
    ((cs.eraseIdx j).eraseIdx i).flatten
  rw [List.append_assoc] at h5
  exact h5

/-! ### Termination and failure of the merge loop -/

/-- A `max`-fold never drops below its start. -/
theorem foldl_max_ge_init {β : Type} (g : β → ℚ) :
    ∀ (l : List β) (a : ℚ), a ≤ l.foldl (fun acc y => max acc (g y)) a
  | [], a => le_refl a
  | y :: ys, a => by
    simp only [List.foldl_cons]
    exact le_trans (le_max_left a (g y)) (foldl_max_ge_init g ys _)

/-- The cluster-similarity scan starts at `0`, so its result is
nonnegative. -/
theorem getClusterSimilarity_nonneg {α : Type} [DecidableEq α]
    (cluster1 cluster2 : List α) (similarities : List (List ℚ))
    (items : List α) :
    0 ≤ getClusterSimilarity cluster1 cluster2 similarities items := by
  unfold getClusterSimilarity
  suffices hgen : ∀ (c1 : List α) (a : ℚ),
      a ≤ c1.foldl (fun acc item1 => cluster2.foldl
        (fun acc2 item2 => max acc2
          (matAt similarities (items.indexOf item1) (items.indexOf item2)))
        acc) a by
    exact hgen cluster1 0
  intro c1
  induction c1 with
  | nil => intro a; exact le_refl a
  | cons x xs ih =>
    intro a
    simp only [List.foldl_cons]
    exact le_trans (foldl_max_ge_init _ cluster2 a) (ih _)

/-- With at least two clusters the best-pair scan always reports a pair,
whose similarity is nonnegative. -/
theorem findBestPair_two {α : Type} [DecidableEq α]
    (clusters : List (List α)) (similarities : List (List ℚ))
    (items : List α) (h2 : 2 ≤ clusters.length) :
    ∃ s i j, findBestPair clusters similarities items = (s, some (i, j)) ∧
      0 ≤ s := by
  rcases hfb : findBestPair clusters similarities items with ⟨s, ij⟩
  have hinv := bestFold_inv
    (fun p => getClusterSimilarity (clusters.getD p.1 []) (clusters.getD p.2 [])
      similarities items)
    (pairIndices clusters.length) (-1, none)
  rw [show (pairIndices clusters.length).foldl _ _ = (s, ij) from hfb] at hinv
  have h01 : ((0 : Nat), (1 : Nat)) ∈ pairIndices clusters.length :=
    mem_pairIndices.mpr ⟨Nat.zero_lt_one, by omega⟩
  have hge := hinv.2.1 (0, 1) h01
  have hnn := getClusterSimilarity_nonneg (clusters.getD 0 [])
    (clusters.getD 1 []) similarities items
  have hs : 0 ≤ s := le_trans hnn hge
  cases ij with
  | none =>
    have hneg := findBestPair_none clusters similarities items s hfb
    exact absurd (hneg ▸ hs) (by norm_num)
  | some p =>
    obtain ⟨i, j⟩ := p
    exact ⟨s, i, j, rfl, hs⟩

/-- For any threshold above `-1` the merge loop returns normally given
enough fuel: the stop test fires before the sentinel pair can be reached. -/
theorem clusterLoop_ok {α : Type} [DecidableEq α]
    (similarities : List (List ℚ)) (items : List α) (threshold : ℚ)
    (ht : -1 < threshold) :
    ∀ (fuel : Nat) (clusters : List (List α)), clusters.length < fuel →
      ∃ result, clusterLoop similarities items threshold fuel clusters =
        .ok result
  | 0, clusters, h => by omega
  | fuel + 1, clusters, h => by
    rcases hfb : findBestPair clusters similarities items with ⟨s, ij⟩
    by_cases hst : s < threshold
    · exact ⟨clusters, by simp only [clusterLoop]; rw [hfb]; simp [hst]⟩
    · match ij, hfb with
      | none, hfb =>
        have := findBestPair_none clusters similarities items s hfb
        subst this
        exact absurd ht (by simpa using hst)
      | some (i, j), hfb =>
        obtain ⟨⟨hij, hjk⟩, -, -⟩ :=
          findBestPair_some clusters similarities items s i j hfb
        have hlen : (mergeAt clusters i j).length < fuel := by
          rw [length_mergeAt clusters i j hij hjk]
          omega
        obtain ⟨result, hres⟩ := clusterLoop_ok similarities items threshold ht
          fuel (mergeAt clusters i j) hlen
        refine ⟨result, ?_⟩
        simp only [clusterLoop]
        rw [hfb]
        simp only [if_neg hst]
        exact hres

/-- For any threshold at or below `-1` the merge loop on a nonempty cluster
list throws: merges continue to a single cluster (cluster similarities are
nonnegative), then the stop test fails at the sentinel `-1` and the merge
dereferences `clusters[-1]`. -/
theorem clusterLoop_error {α : Type} [DecidableEq α]
    (similarities : List (List ℚ)) (items : List α) (threshold : ℚ)
    (ht : threshold ≤ -1) :
    ∀ (fuel : Nat) (clusters : List (List α)),
      1 ≤ clusters.length → clusters.length ≤ fuel →
      clusterLoop similarities items threshold fuel clusters = .error ()
  | 0, clusters, h1, h2 => by omega
  | fuel + 1, clusters, h1, h2 => by
    by_cases hlen : 2 ≤ clusters.length
    · obtain ⟨s, i, j, hfb, hs⟩ :=
        findBestPair_two clusters similarities items hlen
      obtain ⟨⟨hij, hjk⟩, -, -⟩ :=
        findBestPair_some clusters similarities items s i j hfb
      have hst : ¬ s < threshold :=
        not_lt.mpr (le_trans ht (le_trans (by norm_num : (-1 : ℚ) ≤ 0) hs))
      simp only [clusterLoop]
      rw [hfb]
      simp only [if_neg hst]
      refine clusterLoop_error similarities items threshold ht fuel _ ?_ ?_
      · rw [length_mergeAt clusters i j hij hjk]; omega
      · rw [length_mergeAt clusters i j hij hjk]; omega
    · have hone : clusters.length = 1 := by omega
      have hpairs : pairIndices clusters.length = [] := by
        rw [hone]
        rfl
      have hfb : findBestPair clusters similarities items = (-1, none) := by
        unfold findBestPair
        rw [hpairs]
        rfl
      have hst : ¬ (-1 : ℚ) < threshold := by
        intro hc
        exact absurd (lt_of_lt_of_le hc ht) (by norm_num)
      simp only [clusterLoop]
      rw [hfb]
      simp [hst]

/-! ### Invariants of reachable cluster states -/

/-- Reachable cluster states consist of nonempty clusters that conserve the
items exactly: their flattening is a permutation of the item list. -/
theorem clusterReachable_inv {α : Type} [DecidableEq α]
    {items : List α} {similarities : List (List ℚ)} {threshold : ℚ}
    {clusters : List (List α)}
    (h : ClusterReachable items similarities threshold clusters) :
    (∀ c ∈ clusters, c ≠ []) ∧ clusters.flatten.Perm items := by
  induction h with
  | init =>
    constructor
    · intro c hc
      rw [List.mem_map] at hc
      obtain ⟨x, -, hx⟩ := hc
      exact hx ▸ (by simp)
    · induction items with
      | nil => simp
      | cons x xs ih => simpa using ih.cons x
  | step hprev hfb hst ih =>
    rename_i cs s i j
    obtain ⟨⟨hij, hjk⟩, -, -⟩ := findBestPair_some cs _ _ s i j hfb
    constructor
    · intro c hc
      rcases mem_mergeAt cs i j c hc with hc | hc
      · exact ih.1 c hc
      · have hi : cs.getD i [] ∈ cs := getD_mem cs i [] (by omega)
        have hne := ih.1 _ hi
        rw [hc]
        intro hemp
        exact hne (by simpa using (List.append_eq_nil.mp hemp).1
          : cs.getD i [] = [])
    · exact (flatten_mergeAt_perm cs i j hij hjk).trans ih.2

/-- The merge loop conserves the records of its input clusters. -/
theorem clusterLoop_flatten_perm {α : Type} [DecidableEq α]
    (similarities : List (List ℚ)) (items : List α) (threshold : ℚ) :
    ∀ (fuel : Nat) (clusters result : List (List α)),
      clusterLoop similarities items threshold fuel clusters = .ok result →
      result.flatten.Perm clusters.flatten
  | 0, clusters, result, h => by simp [clusterLoop] at h
  | fuel + 1, clusters, result, h => by
    rcases hfb : findBestPair clusters similarities items with ⟨s, ij⟩
    simp only [clusterLoop] at h
    rw [hfb] at h
    simp only at h
    by_cases hst : s < threshold
    · rw [if_pos hst] at h
      exact (Except.ok.inj h) ▸ List.Perm.refl _
    · rw [if_neg hst] at h
      match ij, hfb, h with
      | none, hfb, h => exact absurd h (by simp)
      | some (i, j), hfb, h =>
        obtain ⟨⟨hij, hjk⟩, -, -⟩ :=
          findBestPair_some clusters similarities items s i j hfb
        exact (clusterLoop_flatten_perm similarities items threshold fuel _
          result h).trans (flatten_mergeAt_perm clusters i j hij hjk)

/-- The singleton partition flattens back to the item list. -/
theorem flatten_map_singleton {α : Type} (items : List α) :
    (items.map (fun item => [item])).flatten = items := by
  induction items with
  | nil => rfl
  | cons x xs ih => simpa using ih

/-- For thresholds above `-1`, `performHierarchicalClustering` returns
normally, and its clusters are nonempty, conserve the records, and consist
of records of the input. -/
theorem performHierarchicalClustering_ok {α : Type} [DecidableEq α]
    (items : List α) (similarities : List (List ℚ)) (threshold : ℚ)
    (ht : -1 < threshold) :
    ∃ result, performHierarchicalClustering items similarities threshold =
      .ok result ∧ (∀ c ∈ result, c ≠ []) ∧ result.flatten.Perm items ∧
      (∀ c ∈ result, ∀ x ∈ c, x ∈ items) := by
  obtain ⟨result, hres⟩ := clusterLoop_ok similarities items threshold ht
    (items.length + 1) (items.map (fun item => [item])) (by simp)
  have hreach := clusterLoop_reachable similarities items threshold
    (items.length + 1) _ result ClusterReachable.init hres
  obtain ⟨hne, hperm⟩ := clusterReachable_inv hreach
  refine ⟨result, hres, hne, hperm, ?_⟩
  intro c hc x hx
  exact hperm.mem_iff.mp (List.mem_flatten.mpr ⟨c, hc, hx⟩)

/-! ### When topic extraction cannot throw -/

/-- Regex safety passes to any take-of-drop (every window of a safe
string is safe). -/
theorem regexSafe_window (s : JSStr) (h : regexSafe s = true) (a b : Nat) :
    regexSafe ((s.drop a).take b) = true := by
  rw [regexSafe, List.all_eq_true] at h ⊢
  intro c hc
  exact h c ((((s.drop a).take_sublist b).trans (s.drop_sublist a)).mem hc)

/-- Candidate substrings are windows of the first keyword. -/
theorem candidatesAtLen_shape (kws : List JSStr) (firstKeyword : JSStr)
    (len : Nat) (t : JSStr) (ht : t ∈ candidatesAtLen kws firstKeyword len) :
    ∃ start, t = (firstKeyword.drop start).take len := by
  unfold candidatesAtLen at ht
  rw [List.mem_filterMap] at ht
  obtain ⟨start, -, hsm⟩ := ht
  refine ⟨start, ?_⟩
  dsimp only at hsm
  split at hsm
  · exact (Option.some.inj hsm).symm
  · exact absurd hsm (by simp)

/-- Every candidate the length scan returns comes from some length's
candidate list. -/
theorem firstLenHit_sub (kws : List JSStr) (firstKeyword : JSStr) :
    ∀ (lens : List Nat) (t : JSStr), t ∈ firstLenHit kws firstKeyword lens →
      ∃ len, t ∈ candidatesAtLen kws firstKeyword len
  | [], t, ht => absurd ht (by simp [firstLenHit])
  | len :: rest, t, ht => by
    rw [firstLenHit] at ht
    split at ht
    · exact firstLenHit_sub kws firstKeyword rest t ht
    · exact ⟨len, ht⟩

/-- For keywords whose lowercased forms contain no regex metacharacters,
`findCommonSubstrings` cannot throw: every compared candidate is a window
of a safe string. -/
theorem findCommonSubstrings_ok (keywords : List JSStr)
    (hsafe : ∀ kw ∈ keywords, regexSafe (jsToLower kw) = true) :
    ∃ l, findCommonSubstrings keywords = .ok l := by
  unfold findCommonSubstrings
  split
  · exact ⟨[], rfl⟩
  · rename_i hlen
    unfold sortCandidatesJS
    dsimp only
    split
    · exact ⟨_, rfl⟩
    · rename_i hgt1
      rw [if_pos ?hall]
      · exact ⟨_, rfl⟩
      case hall =>
        rw [List.all_eq_true]
        intro t htmem
        rw [List.mem_filter] at htmem
        obtain ⟨len, hcand⟩ := firstLenHit_sub _ _ _ t htmem.1
        obtain ⟨start, hshape⟩ := candidatesAtLen_shape _ _ _ t hcand
        have hhead : keywords.headD [] ∈ keywords := by
          cases keywords with
          | nil => simp at hlen
          | cons k ks => exact List.mem_cons_self ..
        rw [hshape]
        exact regexSafe_window _ (hsafe _ hhead) start len

/-- For a nonempty cluster of safe keywords, topic extraction returns
normally. -/
theorem extractGroupTopic_ok (keywords : List JSStr)
    (hne : keywords ≠ [])
    (hsafe : ∀ kw ∈ keywords, regexSafe (jsToLower kw) = true) :
    ∃ t, extractGroupTopic keywords = .ok t := by
  obtain ⟨l, hl⟩ := findCommonSubstrings_ok keywords hsafe
  unfold extractGroupTopic
  rw [hl]
  match l with
  | c :: _ => exact ⟨c, rfl⟩
  | [] =>
    rcases hct : commonTokensOf keywords with _ | ⟨c0, r0⟩
    · match keywords, hne with
      | k0 :: rest, _ => exact ⟨_, rfl⟩
    · exact ⟨_, rfl⟩

/-! ### Totality and failure of the orchestrator -/

/-- A bind is `ok` when its head is `ok` and its continuation is. -/
theorem exists_ok_bind {ε α β : Type} (x : Except ε α) (f : α → Except ε β)
    (a : α) (hx : x = .ok a) (h2 : ∃ b, f a = .ok b) :
    ∃ b, (x >>= f) = .ok b := by
  obtain ⟨b, hb⟩ := h2
  refine ⟨b, ?_⟩
  rw [hx]
  exact hb

/-- A bind propagates an error in its head. -/
theorem error_bind {ε α β : Type} (x : Except ε α) (f : α → Except ε β)
    (e : ε) (hx : x = .error e) : (x >>= f) = .error e := by
  rw [hx]
  rfl

/-- Cluster conversion returns normally when every cluster is nonempty and
made of safe queries. -/
theorem processClusters_ok (opts : Options) (bIntent : Option Intent) :
    ∀ (clusters : List (List KeywordRecord))
      (acc : List Group × List KeywordRecord),
      (∀ c ∈ clusters, c ≠ []) →
      (∀ c ∈ clusters, ∀ r ∈ c, regexSafe (jsToLower r.query) = true) →
      ∃ res, processClusters opts bIntent clusters acc = .ok res
  | [], acc, _, _ => ⟨acc, rfl⟩
  | cluster :: rest, acc, hne, hsafe => by
    obtain ⟨gs, ung⟩ := acc
    rw [processClusters.eq_def]
    dsimp only
    split
    · obtain ⟨t, htopic⟩ := extractGroupTopic_ok (cluster.map (·.query))
        (fun hmap => hne cluster (List.mem_cons_self ..)
          (List.map_eq_nil_iff.mp hmap))
        (by
          intro kw hkw
          rw [List.mem_map] at hkw
          obtain ⟨r, hr, hrq⟩ := hkw
          exact hrq ▸ hsafe cluster (List.mem_cons_self ..) r hr)
      exact exists_ok_bind _ _ t htopic
        (processClusters_ok opts bIntent rest _
          (fun c hc => hne c (List.mem_cons_of_mem _ hc))
          (fun c hc => hsafe c (List.mem_cons_of_mem _ hc)))
    · exact processClusters_ok opts bIntent rest _
        (fun c hc => hne c (List.mem_cons_of_mem _ hc))
        (fun c hc => hsafe c (List.mem_cons_of_mem _ hc))

/-- Bucket processing returns normally for thresholds above `-1` and safe
queries. -/
theorem processBuckets_ok (opts : Options)
    (ht : -1 < opts.similarityThreshold) :
    ∀ (buckets : List (Option Intent × List KeywordRecord))
      (acc : List Group × List KeywordRecord),
      (∀ b ∈ buckets, ∀ r ∈ b.2, regexSafe (jsToLower r.query) = true) →
      ∃ res, processBuckets opts buckets acc = .ok res
  | [], acc, _ => ⟨acc, rfl⟩
  | (bi, recs) :: rest, acc, hsafe => by
    rw [processBuckets]
    split
    · exact processBuckets_ok opts ht rest _
        (fun b hb => hsafe b (List.mem_cons_of_mem _ hb))
    · obtain ⟨clusters, hclu, hcne, hperm, hcmem⟩ :=
        performHierarchicalClustering_ok recs (createSimilarityMatrix recs)
          opts.similarityThreshold ht
      obtain ⟨acc2, hacc2⟩ := processClusters_ok opts bi clusters acc hcne
        (fun c hc r hr => hsafe (bi, recs) (List.mem_cons_self ..) r
          (hcmem c hc r hr))
      exact exists_ok_bind _ _ clusters hclu
        (exists_ok_bind _ _ acc2 hacc2
          (processBuckets_ok opts ht rest acc2
            (fun b hb => hsafe b (List.mem_cons_of_mem _ hb))))

/-- Bucket processing throws for thresholds at or below `-1` as soon as any
bucket holds at least two records. -/
theorem processBuckets_error (opts : Options)
    (ht : opts.similarityThreshold ≤ -1) :
    ∀ (buckets : List (Option Intent × List KeywordRecord))
      (acc : List Group × List KeywordRecord),
      (∃ b ∈ buckets, 2 ≤ b.2.length) →
      processBuckets opts buckets acc = .error ()
  | [], acc, hex => absurd hex (by simp)
  | (bi, recs) :: rest, acc, hex => by
    rw [processBuckets]
    split
    · rename_i hlt
      refine processBuckets_error opts ht rest _ ?_
      obtain ⟨b, hb, h2⟩ := hex
      rcases List.mem_cons.mp hb with hbeq | hb
      · rw [hbeq] at h2
        simp only at h2
        omega
      · exact ⟨b, hb, h2⟩
    · rename_i hge
      have herr : performHierarchicalClustering recs
          (createSimilarityMatrix recs) opts.similarityThreshold =
          .error () := by
        unfold performHierarchicalClustering
        refine clusterLoop_error _ _ _ ht (recs.length + 1) _ ?_ ?_
        · simp only [List.length_map]
          omega
        · simp only [List.length_map]
          omega
      exact error_bind _ _ () herr

/-- Every record of a bucket is a record of the input. -/
theorem bucketize_records_mem (keywordData : List KeywordRecord)
    (g : Bool) (b : Option Intent × List KeywordRecord)
    (hb : b ∈ bucketize keywordData g) :
    ∀ r ∈ b.2, r ∈ keywordData := by
  intro r hr
  unfold bucketize at hb
  split at hb
  · rw [List.mem_map] at hb
    obtain ⟨p, hp, hpb⟩ := hb
    rw [← hpb] at hr
    simp only at hr
    unfold groupBySearchIntent at hp
    rw [List.mem_map] at hp
    obtain ⟨intent, -, hip⟩ := hp
    rw [← hip] at hr
    simp only at hr
    exact (List.mem_filter.mp hr).1
  · rw [List.mem_singleton] at hb
    rw [hb] at hr
    exact hr

set_option maxRecDepth 100000 in
/-- Claim C10 (counterexample): the claim's first half states that any
threshold above `-1` makes `groupKeywords` return normally on every input.
With the default options (threshold `1/2 > -1`) the two queries
`"a(b c(b"` and `"c(b a(b"` land in one informational bucket, merge into
one cluster, and topic extraction finds the two common substrings `"a(b"`
and `"c(b"`; sorting them builds `new RegExp("\\ba(b\\b")`, whose
unbalanced `(` raises a `SyntaxError`, so the call throws. -/
theorem claim_C10_counterexample :
    (-1 : ℚ) < defaultOptions.similarityThreshold ∧
    (groupKeywords
      [⟨jsStr "a(b c(b", 0, 0, 0, 0⟩, ⟨jsStr "c(b a(b", 0, 0, 0, 0⟩]
      defaultOptions).toOption = none := by
  constructor
  · show (-1 : ℚ) < 1/2
    norm_num
  · with_unfolding_all decide

/-- Claim C10 (amended): if the threshold exceeds `-1` and every query's
lowercased form is free of regex metacharacters, `groupKeywords` returns
normally on every input (the merge loop's stop test always fires before
the sentinel pair, and the candidate sort cannot throw); and for any
threshold at or below `-1`, any bucket with at least two records drives
the merge loop to a single cluster, after which the failed stop test
spreads the `undefined` cluster at the sentinel index pair `[-1, -1]` and
`groupKeywords` throws. -/
theorem claim_C10 :
    (∀ (keywordData : List KeywordRecord) (opts : Options),
      -1 < opts.similarityThreshold →
      (∀ r ∈ keywordData, regexSafe (jsToLower r.query) = true) →
      ∃ res, groupKeywords keywordData opts = .ok res) ∧
    (∀ (keywordData : List KeywordRecord) (opts : Options),
      opts.similarityThreshold ≤ -1 →
      (∃ b ∈ bucketize keywordData opts.groupByIntent, 2 ≤ b.2.length) →
      groupKeywords keywordData opts = .error ()) := by
  constructor
  · intro keywordData opts ht hsafe
    unfold groupKeywords
    split
    · exact ⟨_, rfl⟩
    · obtain ⟨⟨gs, ung⟩, hsurv⟩ := processBuckets_ok opts ht
        (bucketize keywordData opts.groupByIntent) ([], [])
        (fun b hb r hr =>
          hsafe r (bucketize_records_mem keywordData _ b hb r hr))
      exact exists_ok_bind _ _ (gs, ung) hsurv ⟨_, rfl⟩
  · intro keywordData opts ht hex
    have hne0 : ¬ keywordData.length = 0 := by
      obtain ⟨b, hb, h2⟩ := hex
      have hsub := bucketize_records_mem keywordData _ b hb
      match hb2 : b.2 with
      | [] => rw [hb2] at h2; simp at h2
      | r :: _ =>
        have : r ∈ keywordData := hsub r (by rw [hb2]; exact List.mem_cons_self ..)
        intro hzero
        rw [List.length_eq_zero.mp hzero] at this
        simp at this
    unfold groupKeywords
    rw [if_neg hne0]
    exact error_bind _ _ () (processBuckets_error opts ht _ ([], []) hex)

/-- Witness for claim C10 at concrete inputs: two plain queries succeed
with the default options, and the same two records throw at threshold
`-1`. -/
theorem claim_C10_witness :
    (∃ res, groupKeywords
      [⟨jsStr "ab", 0, 0, 0, 0⟩, ⟨jsStr "cd", 0, 0, 0, 0⟩]
      defaultOptions = .ok res) ∧
    groupKeywords [⟨jsStr "ab", 0, 0, 0, 0⟩, ⟨jsStr "cd", 0, 0, 0, 0⟩]
      { similarityThreshold := -1, minGroupSize := 2, maxGroups := 20,
        groupByIntent := true } = .error () := by
  constructor
  · refine claim_C10.1 _ defaultOptions ?_ ?_
    · show (-1 : ℚ) < 1/2
      norm_num
    · decide
  · refine claim_C10.2 _ _ ?_ ?_
    · norm_num
    · with_unfolding_all decide

/-- Witness for claim C8 at a concrete instance: two records, identity
matrix, threshold `1/2`; the initial singleton partition has no mixed
cluster. -/
theorem claim_C8_witness :
    ¬((∃ x ∈ [5], (x : Nat) = 5) ∧ (∃ y ∈ [5], (y : Nat) = 7)) := by
  have hreach : ClusterReachable [5, 7] [[1, 0], [0, 1]] (1/2)
      [[5], [7]] := by
    have e : ([5, 7] : List Nat).map (fun item => [item]) = [[5], [7]] := rfl
    exact e ▸ ClusterReachable.init
  exact claim_C8 [5, 7] [[1, 0], [0, 1]] (1/2) (fun x => x = 5) (fun x => x = 7)
    (by decide) (by decide) (by norm_num) (by with_unfolding_all decide)
    [[5], [7]] hreach [5] (by simp)


/-! ### Conservation of records through the orchestrator (C2) and the
final sort and cap (C6) -/

/-- Cluster conversion only appends: the accumulated groups and ungrouped
records are kept, the new groups plus new ungrouped records carry exactly
the records of the processed clusters (up to order), and every new group's
`size` is its keyword count. -/
theorem processClusters_spec (opts : Options) (bIntent : Option Intent) :
    ∀ (clusters : List (List KeywordRecord))
      (gs : List Group) (ung : List KeywordRecord)
      (gs' : List Group) (ung' : List KeywordRecord),
      processClusters opts bIntent clusters (gs, ung) = .ok (gs', ung') →
      ∃ newGs newUng, gs' = gs ++ newGs ∧ ung' = ung ++ newUng ∧
        ((newGs.flatMap (·.keywords)) ++ newUng).Perm clusters.flatten ∧
        ∀ g ∈ newGs, g.size = g.keywords.length
  | [], gs, ung, gs', ung', h => by
    have hp : (gs, ung) = (gs', ung') :=
      Except.ok.inj (show Except.ok (gs, ung) = Except.ok (gs', ung') from h)
    have h1 : gs = gs' := congrArg Prod.fst hp
    have h2 : ung = ung' := congrArg Prod.snd hp
    subst h1
    subst h2
    exact ⟨[], [], by simp, by simp, by simp, by simp⟩
  | cluster :: rest, gs, ung, gs', ung', h => by
    rw [processClusters.eq_def] at h
    dsimp only at h
    split at h
    · rcases hext : extractGroupTopic (cluster.map (·.query)) with e | t
      · rw [hext] at h
        have h2 : (Except.error e : Except Unit (List Group × List KeywordRecord))
            = .ok (gs', ung') := h
        exact absurd h2 (by simp)
      · rw [hext] at h
        have h3 : processClusters opts bIntent rest
            (gs ++ [mkGroup bIntent t cluster gs.length], ung) =
            .ok (gs', ung') := h
        obtain ⟨newGs, newUng, hgs, hung, hperm, hsz⟩ :=
          processClusters_spec opts bIntent rest
            (gs ++ [mkGroup bIntent t cluster gs.length]) ung gs' ung' h3
        refine ⟨mkGroup bIntent t cluster gs.length :: newGs, newUng,
          by rw [hgs, List.append_assoc]; rfl, hung, ?_, ?_⟩
        · show ((mkGroup bIntent t cluster gs.length :: newGs).flatMap
              (·.keywords) ++ newUng).Perm (cluster ++ rest.flatten)
          have h4 : (mkGroup bIntent t cluster gs.length :: newGs).flatMap
              (·.keywords) = cluster ++ newGs.flatMap (·.keywords) := rfl
          rw [h4, List.append_assoc]
          exact List.Perm.append_left cluster hperm
        · intro g hg
          rcases List.mem_cons.mp hg with rfl | hg
          · rfl
          · exact hsz g hg
    · obtain ⟨newGs, newUng, hgs, hung, hperm, hsz⟩ :=
        processClusters_spec opts bIntent rest gs (ung ++ cluster) gs' ung' h
      refine ⟨newGs, cluster ++ newUng, hgs,
        by rw [hung, List.append_assoc], ?_, hsz⟩
      show (newGs.flatMap (·.keywords) ++ (cluster ++ newUng)).Perm
        (cluster ++ rest.flatten)
      have h1 : (newGs.flatMap (·.keywords) ++ (cluster ++ newUng)).Perm
          (cluster ++ (newGs.flatMap (·.keywords) ++ newUng)) := by
        rw [← List.append_assoc, ← List.append_assoc]
        exact List.Perm.append_right newUng List.perm_append_comm
      exact h1.trans (List.Perm.append_left cluster hperm)

/-- Bucket processing only appends, and the new groups' keywords plus the
new ungrouped records are exactly the records of the processed buckets, up
to order; every new group's `size` is its keyword count. -/
theorem processBuckets_spec (opts : Options) :
    ∀ (buckets : List (Option Intent × List KeywordRecord))
      (gs : List Group) (ung : List KeywordRecord)
      (gs' : List Group) (ung' : List KeywordRecord),
      processBuckets opts buckets (gs, ung) = .ok (gs', ung') →
      ∃ newGs newUng, gs' = gs ++ newGs ∧ ung' = ung ++ newUng ∧
        ((newGs.flatMap (·.keywords)) ++ newUng).Perm
          (buckets.flatMap (·.2)) ∧
        ∀ g ∈ newGs, g.size = g.keywords.length
  | [], gs, ung, gs', ung', h => by
    have hp : (gs, ung) = (gs', ung') :=
      Except.ok.inj (show Except.ok (gs, ung) = Except.ok (gs', ung') from h)
    have h1 : gs = gs' := congrArg Prod.fst hp
    have h2 : ung = ung' := congrArg Prod.snd hp
    subst h1
    subst h2
    exact ⟨[], [], by simp, by simp, by simp, by simp⟩
  | (bi, recs) :: rest, gs, ung, gs', ung', h => by
    rw [processBuckets] at h
    split at h
    · obtain ⟨newGs, newUng, hgs, hung, hperm, hsz⟩ :=
        processBuckets_spec opts rest gs (ung ++ recs) gs' ung' h
      refine ⟨newGs, recs ++ newUng, hgs,
        by rw [hung, List.append_assoc], ?_, hsz⟩
      show (newGs.flatMap (·.keywords) ++ (recs ++ newUng)).Perm
        (recs ++ rest.flatMap (·.2))
      have h1 : (newGs.flatMap (·.keywords) ++ (recs ++ newUng)).Perm
          (recs ++ (newGs.flatMap (·.keywords) ++ newUng)) := by
        rw [← List.append_assoc, ← List.append_assoc]
        exact List.Perm.append_right newUng List.perm_append_comm
      exact h1.trans (List.Perm.append_left recs hperm)
    · have h2 : (performHierarchicalClustering recs
          (createSimilarityMatrix recs) opts.similarityThreshold >>=
            fun clusters =>
              processClusters opts bi clusters (gs, ung) >>= fun acc2 =>
                processBuckets opts rest acc2) = .ok (gs', ung') := h
      rcases hph : performHierarchicalClustering recs
          (createSimilarityMatrix recs) opts.similarityThreshold
        with e | clusters
      · rw [hph] at h2
        have h3 : (Except.error e : Except Unit (List Group × List KeywordRecord))
            = .ok (gs', ung') := h2
        exact absurd h3 (by simp)
      · rw [hph] at h2
        have h4 : (processClusters opts bi clusters (gs, ung) >>= fun acc2 =>
            processBuckets opts rest acc2) = .ok (gs', ung') := h2
        rcases hpc : processClusters opts bi clusters (gs, ung)
          with e | acc2
        · rw [hpc] at h4
          have h5 : (Except.error e : Except Unit (List Group × List KeywordRecord))
              = .ok (gs', ung') := h4
          exact absurd h5 (by simp)
        · obtain ⟨gs2, ung2⟩ := acc2
          rw [hpc] at h4
          have h6 : processBuckets opts rest (gs2, ung2) = .ok (gs', ung') := h4
          obtain ⟨newGs1, newUng1, hgs2, hung2, hperm1, hsz1⟩ :=
            processClusters_spec opts bi clusters gs ung gs2 ung2 hpc
          obtain ⟨newGs2, newUng2, hgs3, hung3, hperm2, hsz2⟩ :=
            processBuckets_spec opts rest gs2 ung2 gs' ung' h6
          have hfl := clusterLoop_flatten_perm (createSimilarityMatrix recs)
            recs opts.similarityThreshold (recs.length + 1)
            (recs.map (fun item => [item])) clusters hph
          rw [flatten_map_singleton] at hfl
          refine ⟨newGs1 ++ newGs2, newUng1 ++ newUng2, ?_, ?_, ?_, ?_⟩
          · rw [hgs3, hgs2, List.append_assoc]
          · rw [hung3, hung2, List.append_assoc]
          · show ((newGs1 ++ newGs2).flatMap (·.keywords) ++
              (newUng1 ++ newUng2)).Perm (recs ++ rest.flatMap (·.2))
            rw [List.flatMap_append]
            have hint : ((newGs1.flatMap (·.keywords) ++
                newGs2.flatMap (·.keywords)) ++ (newUng1 ++ newUng2)).Perm
                ((newGs1.flatMap (·.keywords) ++ newUng1) ++
                 (newGs2.flatMap (·.keywords) ++ newUng2)) := by
              rw [List.append_assoc, List.append_assoc]
              refine List.Perm.append_left _ ?_
              rw [← List.append_assoc, ← List.append_assoc]
              exact List.Perm.append_right newUng2 List.perm_append_comm
            exact hint.trans (List.Perm.append (hperm1.trans hfl) hperm2)
          · intro g hg
            rcases List.mem_append.mp hg with hg | hg
            · exact hsz1 g hg
            · exact hsz2 g hg

/-- Each record of the input lands in exactly one of the four intent
filters, because classifyIntent assigns it exactly one intent. -/
theorem filterIntents_perm : ∀ (d : List KeywordRecord),
    (d.filter (fun kw => classifyIntent kw.query = Intent.informational) ++
     (d.filter (fun kw => classifyIntent kw.query = Intent.commercial) ++
      (d.filter (fun kw => classifyIntent kw.query = Intent.navigational) ++
       d.filter (fun kw => classifyIntent kw.query = Intent.transactional)))).Perm
      d := by
  intro d
  induction d with
  | nil => simp
  | cons x d ih =>
    rcases hx : classifyIntent x.query with _ | _ | _ | _
    · simp [List.filter_cons, hx]
      exact ih
    · simp [List.filter_cons, hx]
      exact List.perm_middle.trans (ih.cons x)
    · simp [List.filter_cons, hx]
      rw [← List.append_assoc]
      refine List.perm_middle.trans (List.Perm.cons x ?_)
      simpa [List.append_assoc] using ih
    · simp [List.filter_cons, hx]
      rw [← List.append_assoc, ← List.append_assoc]
      refine List.perm_middle.trans (List.Perm.cons x ?_)
      simpa [List.append_assoc] using ih

/-- The buckets the orchestrator iterates over cover the input exactly:
their record lists concatenate to a permutation of the input. -/
theorem bucketize_flatMap_perm (keywordData : List KeywordRecord)
    (g : Bool) :
    ((bucketize keywordData g).flatMap (·.2)).Perm keywordData := by
  cases g with
  | false =>
    show (keywordData ++ []).Perm keywordData
    rw [List.append_nil]
  | true =>
    show (keywordData.filter
        (fun kw : KeywordRecord =>
          classifyIntent kw.query = Intent.informational) ++
      (keywordData.filter
        (fun kw : KeywordRecord =>
          classifyIntent kw.query = Intent.commercial) ++
       (keywordData.filter
        (fun kw : KeywordRecord =>
          classifyIntent kw.query = Intent.navigational) ++
        (keywordData.filter
          (fun kw : KeywordRecord =>
            classifyIntent kw.query = Intent.transactional) ++
         [])))).Perm keywordData
    rw [List.append_nil]
    exact filterIntents_perm keywordData

/-- The groups and ungrouped records surviving all buckets partition the
input, and every group's `size` is its keyword count. -/
theorem survivingGroups_spec (keywordData : List KeywordRecord)
    (opts : Options) (gs : List Group) (ung : List KeywordRecord)
    (h : survivingGroups keywordData opts = .ok (gs, ung)) :
    ((gs.flatMap (·.keywords)) ++ ung).Perm keywordData ∧
    ∀ g ∈ gs, g.size = g.keywords.length := by
  obtain ⟨newGs, newUng, hgs, hung, hperm, hsz⟩ :=
    processBuckets_spec opts (bucketize keywordData opts.groupByIntent)
      [] [] gs ung h
  rw [List.nil_append] at hgs hung
  subst hgs
  subst hung
  exact ⟨hperm.trans (bucketize_flatMap_perm keywordData opts.groupByIntent),
    hsz⟩

/-- Sorting, capping, and counting keeps the partition: the finalized
groups' keywords plus the finalized ungrouped records are still a
permutation of the input, and group sizes still match keyword counts. -/
theorem finalizeGroups_conserve (keywordData : List KeywordRecord)
    (opts : Options) (gs : List Group) (ung : List KeywordRecord)
    (hperm : ((gs.flatMap (·.keywords)) ++ ung).Perm keywordData)
    (hsz : ∀ g ∈ gs, g.size = g.keywords.length) :
    (((finalizeGroups keywordData opts gs ung).groups.flatMap
      (·.keywords)) ++
      (finalizeGroups keywordData opts gs ung).ungrouped).Perm keywordData ∧
    ∀ g ∈ (finalizeGroups keywordData opts gs ung).groups,
      g.size = g.keywords.length := by
  have hgroups : (finalizeGroups keywordData opts gs ung).groups =
      (if opts.maxGroups < (List.insertionSort clicksGE gs).length then
        (List.insertionSort clicksGE gs).take opts.maxGroups
      else List.insertionSort clicksGE gs) := rfl
  have hungr : (finalizeGroups keywordData opts gs ung).ungrouped =
      (if opts.maxGroups < (List.insertionSort clicksGE gs).length then
        ung ++ ((List.insertionSort clicksGE gs).drop opts.maxGroups).flatMap
          (·.keywords)
      else ung) := rfl
  have hsp : (List.insertionSort clicksGE gs).Perm gs :=
    List.perm_insertionSort clicksGE gs
  rw [hgroups, hungr]
  set K := List.insertionSort clicksGE gs with hK
  by_cases hcap : opts.maxGroups < K.length
  · rw [if_pos hcap, if_pos hcap]
    refine ⟨?_, ?_⟩
    · have hsplit : (K.take opts.maxGroups).flatMap (·.keywords) ++
          (K.drop opts.maxGroups).flatMap (·.keywords) =
          K.flatMap (·.keywords) := by
        rw [← List.flatMap_append, List.take_append_drop]
      have h2 : ((K.take opts.maxGroups).flatMap (·.keywords) ++
          (ung ++ (K.drop opts.maxGroups).flatMap (·.keywords))).Perm
          (((K.take opts.maxGroups).flatMap (·.keywords) ++
            (K.drop opts.maxGroups).flatMap (·.keywords)) ++ ung) := by
        rw [List.append_assoc]
        exact List.Perm.append_left _ List.perm_append_comm
      refine (h2.trans ?_).trans hperm
      rw [hsplit]
      exact List.Perm.append_right ung
        (List.Perm.flatMap_right (·.keywords) hsp)
    · intro g hg
      exact hsz g (hsp.mem_iff.mp (List.take_subset _ _ hg))
  · rw [if_neg hcap, if_neg hcap]
    refine ⟨?_, ?_⟩
    · exact (List.Perm.append_right ung
        (List.Perm.flatMap_right (·.keywords) hsp)).trans hperm
    · intro g hg
      exact hsz g (hsp.mem_iff.mp hg)

/-- On a nonempty input, a normal return of groupKeywords is the
finalization of the surviving groups. -/
theorem groupKeywords_eq_finalize (keywordData : List KeywordRecord)
    (opts : Options) (r : GroupingResult) (gs : List Group)
    (ung : List KeywordRecord) (hne : keywordData ≠ [])
    (hs : survivingGroups keywordData opts = .ok (gs, ung))
    (h : groupKeywords keywordData opts = .ok r) :
    r = finalizeGroups keywordData opts gs ung := by
  unfold groupKeywords at h
  rw [if_neg (fun h0 => hne (List.length_eq_zero.mp h0))] at h
  rw [hs] at h
  have h2 : Except.ok (finalizeGroups keywordData opts gs ung) =
      Except.ok r := h
  exact (Except.ok.inj h2).symm

/-- C2: on a nonempty input, a normal groupKeywords return partitions the
input records.  The groups' keyword lists together with `ungrouped` are a
permutation of the input (each record appears exactly once — never in two
groups, never in a group and in `ungrouped`, never duplicated, never
dropped), `totalKeywords` is the input length, `totalGroups` counts the
groups, `groupedKeywords` is the sum of the group sizes (each the group's
keyword count), and `groupedKeywords + ungrouped.length = totalKeywords`. -/
theorem claim_C2 (keywordData : List KeywordRecord) (opts : Options)
    (r : GroupingResult) (hne : keywordData ≠ [])
    (h : groupKeywords keywordData opts = .ok r) :
    ((r.groups.flatMap (·.keywords)) ++ r.ungrouped).Perm keywordData ∧
    r.totalKeywords = some keywordData.length ∧
    r.totalGroups = some r.groups.length ∧
    r.groupedKeywords = some ((r.groups.map (·.size)).sum) ∧
    (r.groups.map (·.size)).sum + r.ungrouped.length =
      keywordData.length := by
  rcases hsv : survivingGroups keywordData opts with e | p
  · unfold groupKeywords at h
    rw [if_neg (fun h0 => hne (List.length_eq_zero.mp h0))] at h
    rw [hsv] at h
    have h2 : (Except.error e : Except Unit GroupingResult) = .ok r := h
    exact absurd h2 (by simp)
  · obtain ⟨gs, ung⟩ := p
    have hr := groupKeywords_eq_finalize keywordData opts r gs ung hne hsv h
    obtain ⟨hperm0, hsz0⟩ := survivingGroups_spec keywordData opts gs ung hsv
    obtain ⟨hP, hksz⟩ :=
      finalizeGroups_conserve keywordData opts gs ung hperm0 hsz0
    subst hr
    refine ⟨hP, rfl, rfl, rfl, ?_⟩
    have hlen := hP.length_eq
    rw [List.length_append, List.length_flatMap] at hlen
    have hmap : (finalizeGroups keywordData opts gs ung).groups.map
        (·.size) =
        (finalizeGroups keywordData opts gs ung).groups.map
          (List.length ∘ (·.keywords)) :=
      List.map_congr_left (fun g hg => hksz g hg)
    rw [hmap]
    exact hlen

/-- Witness for C2: a single-record input is returned entirely in
`ungrouped` with counts 1, 0 and 0, and the partition equalities hold. -/
theorem claim_C2_witness :
    ∃ r, groupKeywords [⟨jsStr "qq", 0, 0, 0, 0⟩] defaultOptions = .ok r ∧
      ((r.groups.flatMap (·.keywords)) ++ r.ungrouped).Perm
        [⟨jsStr "qq", 0, 0, 0, 0⟩] ∧
      r.totalKeywords = some 1 ∧
      r.totalGroups = some r.groups.length ∧
      r.groupedKeywords = some ((r.groups.map (·.size)).sum) ∧
      (r.groups.map (·.size)).sum + r.ungrouped.length = 1 := by
  have hGK : groupKeywords [⟨jsStr "qq", 0, 0, 0, 0⟩] defaultOptions =
      .ok { groups := [], ungrouped := [⟨jsStr "qq", 0, 0, 0, 0⟩],
            totalGroups := some 0, totalKeywords := some 1,
            groupedKeywords := some 0 } := by with_unfolding_all rfl
  obtain ⟨hperm, ht, hg, hk, hsum⟩ :=
    claim_C2 [⟨jsStr "qq", 0, 0, 0, 0⟩] defaultOptions _ (by simp) hGK
  exact ⟨_, hGK, hperm, ht, hg, hk, hsum⟩

/-- Total clicks descending is a total relation on groups. -/
instance : IsTotal Group clicksGE :=
  ⟨fun a b => le_total b.metrics.totalClicks a.metrics.totalClicks⟩

/-- Total clicks descending is a transitive relation on groups. -/
instance : IsTrans Group clicksGE :=
  ⟨fun _ _ _ hab hbc => le_trans hbc hab⟩

/-- C6: the returned groups are sorted by total clicks descending, at most
`maxGroups` groups are returned, and when more groups survive than
`maxGroups`, exactly `maxGroups` are kept — the top of the descending
sort — while the dropped (lowest-ranked) groups' keywords are appended to
`ungrouped`. -/
theorem claim_C6 (keywordData : List KeywordRecord) (opts : Options)
    (r : GroupingResult) (gs : List Group) (ung : List KeywordRecord)
    (hs : survivingGroups keywordData opts = .ok (gs, ung))
    (h : groupKeywords keywordData opts = .ok r)
    (hne : keywordData ≠ []) :
    r.groups.Pairwise clicksGE ∧
    r.groups.length ≤ opts.maxGroups ∧
    (opts.maxGroups < gs.length →
      r.groups = (List.insertionSort clicksGE gs).take opts.maxGroups ∧
      r.groups.length = opts.maxGroups ∧
      r.ungrouped = ung ++
        ((List.insertionSort clicksGE gs).drop opts.maxGroups).flatMap
          (·.keywords)) := by
  have hr := groupKeywords_eq_finalize keywordData opts r gs ung hne hs h
  subst hr
  have hgroups : (finalizeGroups keywordData opts gs ung).groups =
      (if opts.maxGroups < (List.insertionSort clicksGE gs).length then
        (List.insertionSort clicksGE gs).take opts.maxGroups
      else List.insertionSort clicksGE gs) := rfl
  have hungr : (finalizeGroups keywordData opts gs ung).ungrouped =
      (if opts.maxGroups < (List.insertionSort clicksGE gs).length then
        ung ++ ((List.insertionSort clicksGE gs).drop opts.maxGroups).flatMap
          (·.keywords)
      else ung) := rfl
  have hsorted : List.Pairwise clicksGE (List.insertionSort clicksGE gs) :=
    List.sorted_insertionSort clicksGE gs
  have hlenS : (List.insertionSort clicksGE gs).length = gs.length :=
    (List.perm_insertionSort clicksGE gs).length_eq
  rw [hgroups, hungr]
  by_cases hcap : opts.maxGroups < (List.insertionSort clicksGE gs).length
  · rw [if_pos hcap, if_pos hcap]
    refine ⟨List.Pairwise.sublist (List.take_sublist _ _) hsorted, ?_,
      fun hgl => ⟨rfl, ?_, rfl⟩⟩
    · rw [List.length_take]
      exact min_le_left _ _
    · rw [List.length_take]
      exact min_eq_left (Nat.le_of_lt hcap)
  · rw [if_neg hcap, if_neg hcap]
    exact ⟨hsorted, Nat.le_of_not_lt hcap,
      fun hgl => absurd (by omega :
        opts.maxGroups < (List.insertionSort clicksGE gs).length) hcap⟩

/-- Witness for C6: the single-record run keeps its (empty) group list
within the cap and sorted. -/
theorem claim_C6_witness :
    ∃ r gs ung,
      survivingGroups [⟨jsStr "zz", 0, 0, 0, 0⟩] defaultOptions =
        .ok (gs, ung) ∧
      groupKeywords [⟨jsStr "zz", 0, 0, 0, 0⟩] defaultOptions = .ok r ∧
      r.groups.Pairwise clicksGE ∧
      r.groups.length ≤ defaultOptions.maxGroups := by
  have hs : survivingGroups [⟨jsStr "zz", 0, 0, 0, 0⟩] defaultOptions =
      .ok ([], [⟨jsStr "zz", 0, 0, 0, 0⟩]) := by with_unfolding_all rfl
  have hGK : groupKeywords [⟨jsStr "zz", 0, 0, 0, 0⟩] defaultOptions =
      .ok { groups := [], ungrouped := [⟨jsStr "zz", 0, 0, 0, 0⟩],
            totalGroups := some 0, totalKeywords := some 1,
            groupedKeywords := some 0 } := by with_unfolding_all rfl
  obtain ⟨hpw, hle, -⟩ :=
    claim_C6 [⟨jsStr "zz", 0, 0, 0, 0⟩] defaultOptions _ [] _ hs hGK
      (by simp)
  exact ⟨_, _, _, hs, hGK, hpw, hle⟩


/-! ### Symmetry of the similarity measure -/

/-- Membership through the set-building fold of `dedupKeep`. -/
theorem mem_dedupKeep_aux :
    ∀ (l acc : List JSStr) (x : JSStr),
      x ∈ l.foldl (fun acc x => if x ∈ acc then acc else acc ++ [x]) acc ↔
      x ∈ acc ∨ x ∈ l
  | [], acc, x => by simp
  | y :: l, acc, x => by
    simp only [List.foldl_cons]
    rw [mem_dedupKeep_aux l _ x]
    by_cases hy : y ∈ acc
    · rw [if_pos hy]
      constructor
      · rintro (h | h)
        · exact Or.inl h
        · exact Or.inr (List.mem_cons_of_mem _ h)
      · rintro (h | h)
        · exact Or.inl h
        · rcases List.mem_cons.mp h with rfl | h
          · exact Or.inl hy
          · exact Or.inr h
    · rw [if_neg hy]
      simp only [List.mem_append, List.mem_singleton, List.mem_cons]
      tauto

/-- `dedupKeep` holds exactly the elements of its input. -/
theorem mem_dedupKeep (l : List JSStr) (x : JSStr) :
    x ∈ dedupKeep l ↔ x ∈ l := by
  unfold dedupKeep
  rw [mem_dedupKeep_aux]
  simp

/-- The set-building fold keeps the accumulator duplicate-free. -/
theorem nodup_dedupKeep_aux :
    ∀ (l acc : List JSStr), acc.Nodup →
      (l.foldl (fun acc x => if x ∈ acc then acc else acc ++ [x]) acc).Nodup
  | [], _, h => h
  | y :: l, acc, h => by
    simp only [List.foldl_cons]
    by_cases hy : y ∈ acc
    · rw [if_pos hy]
      exact nodup_dedupKeep_aux l acc h
    · rw [if_neg hy]
      refine nodup_dedupKeep_aux l _ ?_
      rw [List.nodup_append]
      exact ⟨h, List.nodup_singleton y,
        fun a ha hay => hy ((List.mem_singleton.mp hay) ▸ ha)⟩

/-- `dedupKeep` output is duplicate-free. -/
theorem nodup_dedupKeep (l : List JSStr) : (dedupKeep l).Nodup :=
  nodup_dedupKeep_aux l [] List.nodup_nil

/-- Jaccard similarity is symmetric: intersection and union sizes do not
depend on the argument order. -/
theorem jaccardSimilarity_comm (a b : List JSStr) :
    jaccardSimilarity a b = jaccardSimilarity b a := by
  simp only [jaccardSimilarity]
  have hinter : ((dedupKeep a).filter (fun x => x ∈ dedupKeep b)).length =
      ((dedupKeep b).filter (fun x => x ∈ dedupKeep a)).length := by
    refine List.Perm.length_eq ?_
    rw [List.perm_ext_iff_of_nodup
      (List.Nodup.filter _ (nodup_dedupKeep a))
      (List.Nodup.filter _ (nodup_dedupKeep b))]
    intro x
    simp only [List.mem_filter, decide_eq_true_eq]
    tauto
  have hunion : (dedupKeep (dedupKeep a ++ dedupKeep b)).length =
      (dedupKeep (dedupKeep b ++ dedupKeep a)).length := by
    refine List.Perm.length_eq ?_
    rw [List.perm_ext_iff_of_nodup (nodup_dedupKeep _) (nodup_dedupKeep _)]
    intro x
    rw [mem_dedupKeep, mem_dedupKeep]
    simp only [List.mem_append]
    tauto
  rw [hinter, hunion]

/-- The fuel-indexed Levenshtein recursion is symmetric in its two string
arguments. -/
theorem levAux_comm : ∀ (fuel : Nat) (xs ys : List Char),
    levAux fuel xs ys = levAux fuel ys xs := by
  intro fuel
  induction fuel with
  | zero =>
    intro xs ys
    match xs, ys with
    | [], [] => rfl
    | [], _ :: _ => rfl
    | _ :: _, [] => rfl
    | x :: xs, y :: ys =>
      show (x :: xs).length + (y :: ys).length =
        (y :: ys).length + (x :: xs).length
      omega
  | succ fuel ih =>
    intro xs ys
    match xs, ys with
    | [], [] => rfl
    | [], _ :: _ => rfl
    | _ :: _, [] => rfl
    | x :: xs, y :: ys =>
      show (if x = y then levAux fuel xs ys
        else 1 + min (levAux fuel xs (y :: ys))
          (min (levAux fuel (x :: xs) ys) (levAux fuel xs ys))) =
        (if y = x then levAux fuel ys xs
        else 1 + min (levAux fuel ys (x :: xs))
          (min (levAux fuel (y :: ys) xs) (levAux fuel ys xs)))
      by_cases hxy : x = y
      · rw [if_pos hxy, if_pos hxy.symm]
        exact ih xs ys
      · rw [if_neg hxy, if_neg (fun h => hxy h.symm)]
        rw [ih xs (y :: ys), ih (x :: xs) ys, ih xs ys]
        rw [min_left_comm]

/-- The Levenshtein distance is symmetric. -/
theorem levenshteinDistance_comm (a b : List Char) :
    levenshteinDistance a b = levenshteinDistance b a := by
  unfold levenshteinDistance
  rw [Nat.add_comm a.length b.length, levAux_comm]

/-- The edit-distance similarity is symmetric. -/
theorem editDistanceSimilarity_comm (a b : JSStr) :
    editDistanceSimilarity a b = editDistanceSimilarity b a := by
  simp only [editDistanceSimilarity]
  rw [levenshteinDistance_comm, Nat.max_comm a.length b.length]

/-- The matched-pair count behind `commonSuffixLen` is symmetric. -/
theorem zipSuffix_comm : ∀ (u v : List Char),
    ((u.zip v).takeWhile (fun p => p.1 = p.2)).length =
    ((v.zip u).takeWhile (fun p => p.1 = p.2)).length
  | [], v => by cases v <;> rfl
  | _ :: _, [] => rfl
  | x :: u, y :: v => by
    by_cases hxy : x = y
    · have ih := zipSuffix_comm u v
      simp [hxy, List.takeWhile_cons]
      omega
    · simp [List.takeWhile_cons, hxy, Ne.symm hxy]

/-- The longest-common-suffix length is symmetric. -/
theorem commonSuffixLen_comm (a b : List Char) :
    commonSuffixLen a b = commonSuffixLen b a :=
  zipSuffix_comm a.reverse b.reverse

/-- The common suffix is no longer than the first string. -/
theorem commonSuffixLen_le_left (a b : List Char) :
    commonSuffixLen a b ≤ a.length := by
  unfold commonSuffixLen
  refine le_trans (List.Sublist.length_le (List.takeWhile_sublist _)) ?_
  rw [List.length_zip, List.length_reverse]
  exact le_trans (min_le_left _ _) (le_refl _)

/-- A `max`-fold over naturals never drops below its start. -/
theorem natFoldMax_ge_init {β : Type} (g : β → Nat) :
    ∀ (l : List β) (a : Nat), a ≤ l.foldl (fun acc y => max acc (g y)) a
  | [], a => le_refl a
  | y :: ys, a => by
    simp only [List.foldl_cons]
    exact le_trans (le_max_left a (g y)) (natFoldMax_ge_init g ys _)

/-- A `max`-fold over naturals dominates every folded value. -/
theorem natFoldMax_ge_mem {β : Type} (g : β → Nat) :
    ∀ (l : List β) (a : Nat) (y : β), y ∈ l →
      g y ≤ l.foldl (fun acc y => max acc (g y)) a
  | [], _, y, hy => absurd hy (by simp)
  | z :: zs, a, y, hy => by
    simp only [List.foldl_cons]
    rcases List.mem_cons.mp hy with rfl | hy
    · exact le_trans (le_max_right a (g y)) (natFoldMax_ge_init g zs _)
    · exact natFoldMax_ge_mem g zs _ y hy

/-- A `max`-fold over naturals stays below any common bound. -/
theorem natFoldMax_le {β : Type} (g : β → Nat) (t : Nat) :
    ∀ (l : List β) (a : Nat), a ≤ t → (∀ y ∈ l, g y ≤ t) →
      l.foldl (fun acc y => max acc (g y)) a ≤ t
  | [], _, ha, _ => ha
  | y :: ys, a, ha, hl => by
    simp only [List.foldl_cons]
    exact natFoldMax_le g t ys _ (max_le ha (hl y (List.mem_cons_self ..)))
      (fun z hz => hl z (List.mem_cons_of_mem _ hz))

/-- The cell list of the longest-common-substring table scan. -/
def lcsCells (s1 s2 : JSStr) : List (Nat × Nat) :=
  (List.range s1.length).flatMap (fun i0 =>
    (List.range s2.length).map (fun j0 => (i0 + 1, j0 + 1)))

/-- The best-cell fold of the table scan, as a named function. -/
def lcsBestFold (s1 s2 : JSStr) (cells : List (Nat × Nat))
    (acc : Nat × Nat) : Nat × Nat :=
  cells.foldl
    (fun acc cell =>
      if acc.1 < commonSuffixLen (s1.take cell.1) (s2.take cell.2) then
        (commonSuffixLen (s1.take cell.1) (s2.take cell.2), cell.1)
      else acc)
    acc

/-- The running maximum of the suffix lengths over the scanned cells. -/
def lcsMaxFold (s1 s2 : JSStr) (cells : List (Nat × Nat)) (m : Nat) : Nat :=
  cells.foldl
    (fun m cell =>
      max m (commonSuffixLen (s1.take cell.1) (s2.take cell.2)))
    m

/-- `findLongestCommonSubstring` slices the winner of the best-cell fold
out of its first argument. -/
theorem findLCS_eq (s1 s2 : JSStr) :
    findLongestCommonSubstring s1 s2 =
      (s1.take (lcsBestFold s1 s2 (lcsCells s1 s2) (0, 0)).2).drop
        ((lcsBestFold s1 s2 (lcsCells s1 s2) (0, 0)).2 -
         (lcsBestFold s1 s2 (lcsCells s1 s2) (0, 0)).1) := rfl

/-- Membership in the cell list. -/
theorem lcsCells_mem (s1 s2 : JSStr) (c : Nat × Nat) :
    c ∈ lcsCells s1 s2 ↔
      ∃ i0 < s1.length, ∃ j0 < s2.length, c = (i0 + 1, j0 + 1) := by
  unfold lcsCells
  simp only [List.mem_flatMap, List.mem_map, List.mem_range]
  constructor
  · rintro ⟨i0, hi0, j0, hj0, rfl⟩
    exact ⟨i0, hi0, j0, hj0, rfl⟩
  · rintro ⟨i0, hi0, j0, hj0, rfl⟩
    exact ⟨i0, hi0, j0, hj0, rfl⟩

/-- Invariants of the best-cell fold: the first component never exceeds the
second, the second stays within the first string, and the first component
is the running maximum of the suffix lengths. -/
theorem lcsBestFold_inv (s1 s2 : JSStr) :
    ∀ (cells : List (Nat × Nat)) (acc : Nat × Nat),
      acc.1 ≤ acc.2 → acc.2 ≤ s1.length →
      (∀ c ∈ cells, c.1 ≤ s1.length) →
      (lcsBestFold s1 s2 cells acc).1 ≤ (lcsBestFold s1 s2 cells acc).2 ∧
      (lcsBestFold s1 s2 cells acc).2 ≤ s1.length ∧
      (lcsBestFold s1 s2 cells acc).1 = lcsMaxFold s1 s2 cells acc.1
  | [], acc, h12, h2, _ => ⟨h12, h2, rfl⟩
  | c :: cells, acc, h12, h2, hc => by
    have hcv : commonSuffixLen (s1.take c.1) (s2.take c.2) ≤ c.1 := by
      refine le_trans (commonSuffixLen_le_left _ _) ?_
      rw [List.length_take]
      exact min_le_left _ _
    simp only [lcsBestFold, lcsMaxFold, List.foldl_cons]
    by_cases hlt : acc.1 < commonSuffixLen (s1.take c.1) (s2.take c.2)
    · rw [if_pos hlt]
      have hmax : max acc.1 (commonSuffixLen (s1.take c.1) (s2.take c.2)) =
          commonSuffixLen (s1.take c.1) (s2.take c.2) :=
        max_eq_right (le_of_lt hlt)
      rw [hmax]
      exact lcsBestFold_inv s1 s2 cells
        (commonSuffixLen (s1.take c.1) (s2.take c.2), c.1) hcv
        (hc c (List.mem_cons_self ..))
        (fun d hd => hc d (List.mem_cons_of_mem _ hd))
    · rw [if_neg hlt]
      have hmax : max acc.1 (commonSuffixLen (s1.take c.1) (s2.take c.2)) =
          acc.1 := max_eq_left (le_of_not_lt hlt)
      rw [hmax]
      exact lcsBestFold_inv s1 s2 cells acc h12 h2
        (fun d hd => hc d (List.mem_cons_of_mem _ hd))

/-- The length of the found common substring is the maximum suffix length
over all table cells. -/
theorem findLCS_length (s1 s2 : JSStr) :
    (findLongestCommonSubstring s1 s2).length =
      lcsMaxFold s1 s2 (lcsCells s1 s2) 0 := by
  have hc : ∀ c ∈ lcsCells s1 s2, c.1 ≤ s1.length := by
    intro c hcm
    obtain ⟨i0, hi0, j0, hj0, rfl⟩ := (lcsCells_mem s1 s2 c).mp hcm
    simpa using hi0
  obtain ⟨h12, h2, hmax⟩ := lcsBestFold_inv s1 s2 (lcsCells s1 s2) (0, 0)
    (le_refl 0) (Nat.zero_le _) hc
  dsimp only at hmax
  rw [findLCS_eq, List.length_drop, List.length_take, min_eq_left h2, hmax]
  rw [hmax] at h12
  omega

/-- The maximum suffix length over the table is symmetric: each cell maps
to the transposed cell of the transposed table. -/
theorem lcsMaxFold_comm (s1 s2 : JSStr) :
    lcsMaxFold s1 s2 (lcsCells s1 s2) 0 =
    lcsMaxFold s2 s1 (lcsCells s2 s1) 0 := by
  have hdir : ∀ (a b : JSStr),
      lcsMaxFold a b (lcsCells a b) 0 ≤ lcsMaxFold b a (lcsCells b a) 0 := by
    intro a b
    refine natFoldMax_le
      (fun cell => commonSuffixLen (a.take cell.1) (b.take cell.2)) _
      (lcsCells a b) 0 (Nat.zero_le _) ?_
    intro c hcm
    obtain ⟨i0, hi0, j0, hj0, rfl⟩ := (lcsCells_mem a b c).mp hcm
    have hswap : (j0 + 1, i0 + 1) ∈ lcsCells b a :=
      (lcsCells_mem b a _).mpr ⟨j0, hj0, i0, hi0, rfl⟩
    have hv : commonSuffixLen (a.take (i0 + 1)) (b.take (j0 + 1)) =
        commonSuffixLen (b.take (j0 + 1)) (a.take (i0 + 1)) :=
      commonSuffixLen_comm _ _
    show commonSuffixLen (a.take (i0 + 1)) (b.take (j0 + 1)) ≤
      lcsMaxFold b a (lcsCells b a) 0
    rw [hv]
    exact natFoldMax_ge_mem
      (fun cell => commonSuffixLen (b.take cell.1) (a.take cell.2))
      (lcsCells b a) 0 (j0 + 1, i0 + 1) hswap
  exact le_antisymm (hdir s1 s2) (hdir s2 s1)

/-- The length of the longest common substring is symmetric. -/
theorem lcsLength_comm (a b : JSStr) :
    (findLongestCommonSubstring a b).length =
    (findLongestCommonSubstring b a).length := by
  rw [findLCS_length, findLCS_length, lcsMaxFold_comm]

/-- The token-overlap part is symmetric. -/
theorem tokenSimilarityPart_comm (a b : JSStr) :
    tokenSimilarityPart a b = tokenSimilarityPart b a := by
  simp only [tokenSimilarityPart]
  rw [jaccardSimilarity_comm]
  exact if_congr and_comm rfl rfl

/-- The algorithmic similarity is symmetric: every signal of the weighted
sum is. -/
theorem calculateAlgorithmicSimilarity_comm (a b : JSStr) :
    calculateAlgorithmicSimilarity a b =
    calculateAlgorithmicSimilarity b a := by
  simp only [calculateAlgorithmicSimilarity]
  by_cases heq : jsToLower a = jsToLower b
  · rw [if_pos heq, if_pos (show jsToLower b = jsToLower a from heq.symm)]
  · rw [if_neg heq,
      if_neg (show ¬jsToLower b = jsToLower a from fun h => heq h.symm)]
    rw [jaccardSimilarity_comm (getNGrams a 2) (getNGrams b 2),
      jaccardSimilarity_comm (getNGrams a 3) (getNGrams b 3),
      tokenSimilarityPart_comm a b, editDistanceSimilarity_comm a b]
    rw [show (if (jsToLower b).isPrefixOf (jsToLower a) ∨
          (jsToLower a).isPrefixOf (jsToLower b) then (3 : ℚ)/20 else 0) =
        (if (jsToLower a).isPrefixOf (jsToLower b) ∨
          (jsToLower b).isPrefixOf (jsToLower a) then (3 : ℚ)/20 else 0) from
      if_congr or_comm rfl rfl]
    rw [show (if (jsToLower b).isSuffixOf (jsToLower a) ∨
          (jsToLower a).isSuffixOf (jsToLower b) then (1 : ℚ)/10 else 0) =
        (if (jsToLower a).isSuffixOf (jsToLower b) ∨
          (jsToLower b).isSuffixOf (jsToLower a) then (1 : ℚ)/10 else 0) from
      if_congr or_comm rfl rfl]
    rw [lcsLength_comm (jsToLower a) (jsToLower b),
      sup_comm (((jsToLower a).length : ℚ)) (((jsToLower b).length : ℚ))]

/-- The similarity used by the clustering pipeline is symmetric. -/
theorem calculateSimilarity_comm (a b : JSStr) :
    calculateSimilarity a b = calculateSimilarity b a :=
  calculateAlgorithmicSimilarity_comm a b


/-! ### The similarity matrix, and the merge loop's final partition -/

/-- In-range reads of a map over a range. -/
theorem getD_map_range {β : Type} (f : Nat → β) (n i : Nat) (d : β)
    (hi : i < n) : ((List.range n).map f).getD i d = f i := by
  rw [List.getD_eq_getElem _ d (by simpa using hi), List.getElem_map,
    List.getElem_range]

/-- The similarity matrix entry at in-range indices: `1` on the diagonal
and the query similarity off it (in either triangle, by symmetry). -/
theorem matAt_csm (recs : List KeywordRecord) (i j : Nat)
    (hi : i < recs.length) (hj : j < recs.length) :
    matAt (createSimilarityMatrix recs) i j =
      if i = j then 1
      else calculateSimilarity ((recs.getD i emptyRecord).query)
        ((recs.getD j emptyRecord).query) := by
  unfold matAt
  have h1 : (createSimilarityMatrix recs).getD i [] =
      (List.range recs.length).map (fun j =>
        if i = j then (1 : ℚ)
        else if i < j then
          calculateSimilarity ((recs.getD i emptyRecord).query)
            ((recs.getD j emptyRecord).query)
        else calculateSimilarity ((recs.getD j emptyRecord).query)
          ((recs.getD i emptyRecord).query)) := by
    have h0 := getD_map_range (fun i =>
      (List.range recs.length).map (fun j =>
        if i = j then (1 : ℚ)
        else if i < j then
          calculateSimilarity ((recs.getD i emptyRecord).query)
            ((recs.getD j emptyRecord).query)
        else calculateSimilarity ((recs.getD j emptyRecord).query)
          ((recs.getD i emptyRecord).query))) recs.length i [] hi
    exact h0
  rw [h1, getD_map_range _ _ _ _ hj]
  show (if i = j then (1 : ℚ)
      else if i < j then
        calculateSimilarity ((recs.getD i emptyRecord).query)
          ((recs.getD j emptyRecord).query)
      else calculateSimilarity ((recs.getD j emptyRecord).query)
        ((recs.getD i emptyRecord).query)) = _
  by_cases hij : i = j
  · rw [if_pos hij, if_pos hij]
  · rw [if_neg hij, if_neg hij]
    by_cases hlt : i < j
    · rw [if_pos hlt]
    · rw [if_neg hlt, calculateSimilarity_comm]

/-- Two members of a list at the same `indexOf` position are equal. -/
theorem mem_indexOf_inj {α : Type} [DecidableEq α] (l : List α) (x y : α)
    (hx : x ∈ l) (hy : y ∈ l) (hidx : l.indexOf x = l.indexOf y) :
    x = y := by
  have hxl : l.indexOf x < l.length := List.indexOf_lt_length.mpr hx
  have hyl : l.indexOf y < l.length := List.indexOf_lt_length.mpr hy
  have h1 : l.getD (l.indexOf x) y = x := by
    rw [List.getD_eq_getElem _ _ hxl]
    exact List.getElem_indexOf hxl
  have h2 : l.getD (l.indexOf y) y = y := by
    rw [List.getD_eq_getElem _ _ hyl]
    exact List.getElem_indexOf hyl
  rw [hidx] at h1
  exact h1.symm.trans h2

/-- The matrix entry looked up through `indexOf` is the similarity of the
two records' queries whenever the looked-up indices differ. -/
theorem matAt_indexOf (recs : List KeywordRecord) (x y : KeywordRecord)
    (hx : x ∈ recs) (hy : y ∈ recs)
    (hne : recs.indexOf x ≠ recs.indexOf y) :
    matAt (createSimilarityMatrix recs) (recs.indexOf x) (recs.indexOf y) =
      calculateSimilarity x.query y.query := by
  have hxl : recs.indexOf x < recs.length := List.indexOf_lt_length.mpr hx
  have hyl : recs.indexOf y < recs.length := List.indexOf_lt_length.mpr hy
  have hgx : recs.getD (recs.indexOf x) emptyRecord = x := by
    rw [List.getD_eq_getElem _ _ hxl]
    exact List.getElem_indexOf hxl
  have hgy : recs.getD (recs.indexOf y) emptyRecord = y := by
    rw [List.getD_eq_getElem _ _ hyl]
    exact List.getElem_indexOf hyl
  rw [matAt_csm recs _ _ hxl hyl, if_neg hne, hgx, hgy]

/-- A `max`-fold over the rationals dominates every folded value. -/
theorem foldl_max_ge_mem {β : Type} (g : β → ℚ) :
    ∀ (l : List β) (a : ℚ) (y : β), y ∈ l →
      g y ≤ l.foldl (fun acc y => max acc (g y)) a
  | [], _, y, hy => absurd hy (by simp)
  | z :: zs, a, y, hy => by
    simp only [List.foldl_cons]
    rcases List.mem_cons.mp hy with rfl | hy
    · exact le_trans (le_max_right a (g y)) (foldl_max_ge_init g zs _)
    · exact foldl_max_ge_mem g zs _ y hy

/-- The nested cluster-similarity fold never drops below its start. -/
theorem clusterFold_ge_init {α : Type} [DecidableEq α]
    (cluster2 : List α) (similarities : List (List ℚ)) (items : List α) :
    ∀ (c1 : List α) (a : ℚ),
      a ≤ c1.foldl (fun acc item1 => cluster2.foldl
        (fun acc2 item2 => max acc2
          (matAt similarities (items.indexOf item1) (items.indexOf item2)))
        acc) a
  | [], a => le_refl a
  | x :: xs, a => by
    simp only [List.foldl_cons]
    exact le_trans (foldl_max_ge_init _ cluster2 a)
      (clusterFold_ge_init cluster2 similarities items xs _)

/-- Every cross-pair matrix entry is bounded by the cluster similarity. -/
theorem getClusterSimilarity_ge {α : Type} [DecidableEq α]
    (cluster1 cluster2 : List α) (similarities : List (List ℚ))
    (items : List α) (x y : α) (hx : x ∈ cluster1) (hy : y ∈ cluster2) :
    matAt similarities (items.indexOf x) (items.indexOf y) ≤
      getClusterSimilarity cluster1 cluster2 similarities items := by
  unfold getClusterSimilarity
  suffices hgen : ∀ (c1 : List α) (a : ℚ), x ∈ c1 →
      matAt similarities (items.indexOf x) (items.indexOf y) ≤
      c1.foldl (fun acc item1 => cluster2.foldl
        (fun acc2 item2 => max acc2
          (matAt similarities (items.indexOf item1) (items.indexOf item2)))
        acc) a by
    exact hgen cluster1 0 hx
  intro c1
  induction c1 with
  | nil => intro a hmem; exact absurd hmem (by simp)
  | cons z zs ih =>
    intro a hmem
    simp only [List.foldl_cons]
    rcases List.mem_cons.mp hmem with rfl | hmem
    · exact le_trans (foldl_max_ge_mem _ cluster2 a y hy)
        (clusterFold_ge_init cluster2 similarities items zs _)
    · exact ih _ hmem

/-- Any best-pair scan outcome bounds every pair's cluster similarity. -/
theorem findBestPair_bound {α : Type} [DecidableEq α]
    (clusters : List (List α)) (similarities : List (List ℚ))
    (items : List α) (s : ℚ) (ij : Option (Nat × Nat))
    (h : findBestPair clusters similarities items = (s, ij)) :
    ∀ p ∈ pairIndices clusters.length,
      getClusterSimilarity (clusters.getD p.1 []) (clusters.getD p.2 [])
        similarities items ≤ s := by
  have hinv := bestFold_inv
    (fun p => getClusterSimilarity (clusters.getD p.1 [])
      (clusters.getD p.2 []) similarities items)
    (pairIndices clusters.length) (-1, none)
  rw [show (pairIndices clusters.length).foldl _ _ = (s, ij) from h] at hinv
  exact hinv.2.1

/-- At every normal return of the merge loop, all pairwise cluster
similarities of the final state are below the threshold. -/
theorem clusterLoop_final_sep {α : Type} [DecidableEq α]
    (similarities : List (List ℚ)) (items : List α) (threshold : ℚ) :
    ∀ (fuel : Nat) (clusters result : List (List α)),
      clusterLoop similarities items threshold fuel clusters = .ok result →
      ∀ p ∈ pairIndices result.length,
        getClusterSimilarity (result.getD p.1 []) (result.getD p.2 [])
          similarities items < threshold
  | 0, clusters, result, h => by simp [clusterLoop] at h
  | fuel + 1, clusters, result, h => by
    rcases hfb : findBestPair clusters similarities items with ⟨s, ij⟩
    simp only [clusterLoop] at h
    rw [hfb] at h
    simp only at h
    by_cases hst : s < threshold
    · rw [if_pos hst] at h
      have hres : clusters = result := Except.ok.inj h
      subst hres
      intro p hp
      exact lt_of_le_of_lt
        (findBestPair_bound clusters similarities items s ij hfb p hp) hst
    · rw [if_neg hst] at h
      match ij, h with
      | none, h => exact absurd h (by simp)
      | some (i, j), h =>
        exact clusterLoop_final_sep similarities items threshold fuel _
          result h

/-- One similarity edge of a bucket: both endpoints are records of the
bucket and their queries' similarity reaches the threshold. -/
def simEdge (t : ℚ) (items : List KeywordRecord)
    (x y : KeywordRecord) : Prop :=
  x ∈ items ∧ y ∈ items ∧ t ≤ calculateSimilarity x.query y.query

/-- Connectivity in the similarity graph of a bucket: the reflexive
transitive closure of `simEdge`. -/
def EConn (t : ℚ) (items : List KeywordRecord) :
    KeywordRecord → KeywordRecord → Prop :=
  Relation.ReflTransGen (simEdge t items)

/-- Connectivity only depends on the bucket through membership. -/
theorem EConn_congr (t : ℚ) (items1 items2 : List KeywordRecord)
    (hmm : ∀ a, a ∈ items1 ↔ a ∈ items2) (x y : KeywordRecord)
    (h : EConn t items1 x y) : EConn t items2 x y :=
  Relation.ReflTransGen.mono
    (fun a b hab => ⟨(hmm a).mp hab.1, (hmm b).mp hab.2.1, hab.2.2⟩) h

/-- Along every reachable state of the merge loop run on a bucket's own
similarity matrix with a positive threshold, each cluster is connected in
the bucket's similarity graph. -/
theorem clusterReachable_conn (items : List KeywordRecord) (t : ℚ)
    (ht : 0 < t) {clusters : List (List KeywordRecord)}
    (h : ClusterReachable items (createSimilarityMatrix items) t clusters) :
    ∀ c ∈ clusters, ∀ x ∈ c, ∀ y ∈ c, EConn t items x y := by
  induction h with
  | init =>
    intro c hc x hx y hy
    rw [List.mem_map] at hc
    obtain ⟨z, -, hz⟩ := hc
    rw [← hz] at hx hy
    rw [List.mem_singleton.mp hx, List.mem_singleton.mp hy]
    exact Relation.ReflTransGen.refl
  | step hprev hfb hst ih =>
    rename_i cs s i j
    obtain ⟨⟨hij, hjk⟩, hs, -⟩ := findBestPair_some cs _ _ s i j hfb
    have hik : i < cs.length := lt_trans hij hjk
    have hci : cs.getD i [] ∈ cs := getD_mem cs i [] hik
    have hcj : cs.getD j [] ∈ cs := getD_mem cs j [] hjk
    have hflat := (clusterReachable_inv hprev).2
    have hmem : ∀ c ∈ cs, ∀ z ∈ c, z ∈ items := fun c hc z hz =>
      hflat.mem_iff.mp (List.mem_flatten.mpr ⟨c, hc, hz⟩)
    intro c hc x hx y hy
    rcases mem_mergeAt cs i j c hc with hcold | hcnew
    · exact ih c hcold x hx y hy
    · rw [hcnew] at hx hy
      have hscs : t ≤ getClusterSimilarity (cs.getD i []) (cs.getD j [])
          (createSimilarityMatrix items) items := hs ▸ not_lt.mp hst
      obtain ⟨x0, hx0, y0, hy0, hmxy⟩ :=
        getClusterSimilarity_exists _ _ _ _ t ht hscs
      have hx0i : x0 ∈ items := hmem _ hci x0 hx0
      have hy0i : y0 ∈ items := hmem _ hcj y0 hy0
      have hedge : EConn t items x0 y0 := by
        by_cases hidx : items.indexOf x0 = items.indexOf y0
        · rw [mem_indexOf_inj items x0 y0 hx0i hy0i hidx]
          exact Relation.ReflTransGen.refl
        · refine Relation.ReflTransGen.single ⟨hx0i, hy0i, ?_⟩
          rw [← matAt_indexOf items x0 y0 hx0i hy0i hidx]
          exact hmxy
      have hedge2 : EConn t items y0 x0 := by
        by_cases hidx : items.indexOf x0 = items.indexOf y0
        · rw [mem_indexOf_inj items x0 y0 hx0i hy0i hidx] at hedge ⊢
          exact Relation.ReflTransGen.refl
        · refine Relation.ReflTransGen.single ⟨hy0i, hx0i, ?_⟩
          rw [calculateSimilarity_comm,
            ← matAt_indexOf items x0 y0 hx0i hy0i hidx]
          exact hmxy
      rcases List.mem_append.mp hx with hxi | hxj
      · rcases List.mem_append.mp hy with hyi | hyj
        · exact ih _ hci x hxi y hyi
        · exact ((ih _ hci x hxi x0 hx0).trans hedge).trans
            (ih _ hcj y0 hy0 y hyj)
      · rcases List.mem_append.mp hy with hyi | hyj
        · exact ((ih _ hcj x hxj y0 hy0).trans hedge2).trans
            (ih _ hci x0 hx0 y hyi)
        · exact ih _ hcj x hxj y hyj

/-- What a normal hierarchical clustering of a bucket returns: nonempty
clusters conserving the bucket's records, each cluster connected in the
similarity graph, and any two records of different clusters dissimilar. -/
theorem performHC_char (items : List KeywordRecord) (t : ℚ) (ht : 0 < t)
    (result : List (List KeywordRecord))
    (h : performHierarchicalClustering items (createSimilarityMatrix items)
      t = .ok result) :
    (∀ c ∈ result, c ≠ []) ∧ result.flatten.Perm items ∧
    (∀ c ∈ result, ∀ x ∈ c, ∀ y ∈ c, EConn t items x y) ∧
    (∀ p q : Nat, p < result.length → q < result.length → p ≠ q →
      ∀ x ∈ result.getD p [], ∀ y ∈ result.getD q [],
        x ≠ y → calculateSimilarity x.query y.query < t) := by
  have hreach := clusterLoop_reachable (createSimilarityMatrix items) items
    t (items.length + 1) _ result ClusterReachable.init h
  obtain ⟨hne, hperm⟩ := clusterReachable_inv hreach
  have hmem : ∀ c ∈ result, ∀ z ∈ c, z ∈ items := fun c hc z hz =>
    hperm.mem_iff.mp (List.mem_flatten.mpr ⟨c, hc, hz⟩)
  refine ⟨hne, hperm, clusterReachable_conn items t ht hreach, ?_⟩
  have hsep := clusterLoop_final_sep (createSimilarityMatrix items) items t
    (items.length + 1) _ result h
  have hcross : ∀ a b : Nat, a < b → b < result.length →
      ∀ u ∈ result.getD a [], ∀ v ∈ result.getD b [],
        u ≠ v → calculateSimilarity u.query v.query < t := by
    intro a b hab hb u hu v hv huv
    have hui : u ∈ items := hmem _ (getD_mem result a [] (lt_trans hab hb)) u hu
    have hvi : v ∈ items := hmem _ (getD_mem result b [] hb) v hv
    have hidx : items.indexOf u ≠ items.indexOf v :=
      fun hmm => huv (mem_indexOf_inj items u v hui hvi hmm)
    rw [← matAt_indexOf items u v hui hvi hidx]
    refine lt_of_le_of_lt
      (getClusterSimilarity_ge (result.getD a []) (result.getD b []) _ items
        u v hu hv) ?_
    exact hsep (a, b) (mem_pairIndices.mpr ⟨hab, hb⟩)
  intro p q hp hq hpq x hxm y hym hxy
  rcases Nat.lt_or_ge p q with hlt | hge
  · exact hcross p q hlt hq x hxm y hym hxy
  · have hqp : q < p := by omega
    rw [calculateSimilarity_comm]
    exact hcross q p hqp hp y hym x hxm (Ne.symm hxy)


/-! ### Uniqueness of a connected, separated partition -/

/-- A record of the flattened family lies in some positionally indexed
cluster. -/
theorem mem_family_pos {α : Type} (R : List (List α)) (x : α)
    (h : x ∈ R.flatten) : ∃ q, q < R.length ∧ x ∈ R.getD q [] := by
  rw [List.mem_flatten] at h
  obtain ⟨l, hl, hx⟩ := h
  rw [List.mem_iff_getElem] at hl
  obtain ⟨q, hq, hval⟩ := hl
  refine ⟨q, hq, ?_⟩
  rw [List.getD_eq_getElem _ _ hq, hval]
  exact hx

/-- In a covering family whose clusters are mutually dissimilar, a
similarity path starting inside a cluster never leaves it. -/
theorem econn_stays (t : ℚ) (items : List KeywordRecord)
    (R : List (List KeywordRecord))
    (hf : R.flatten.Perm items)
    (hsep : ∀ p q : Nat, p < R.length → q < R.length → p ≠ q →
      ∀ x ∈ R.getD p [], ∀ y ∈ R.getD q [], x ≠ y →
        calculateSimilarity x.query y.query < t)
    (p : Nat) (hp : p < R.length) (x y : KeywordRecord)
    (hx : x ∈ R.getD p []) (hconn : EConn t items x y) :
    y ∈ R.getD p [] := by
  induction hconn with
  | refl => exact hx
  | tail hpath hedge ih =>
    rename_i b c
    obtain ⟨hbi, hci, hsim⟩ := hedge
    have hcf : c ∈ R.flatten := hf.mem_iff.mpr hci
    obtain ⟨q, hq, hcq⟩ := mem_family_pos R c hcf
    by_cases hpq : p = q
    · rw [hpq]
      exact hcq
    · by_cases hbc : b = c
      · rw [← hbc]
        exact ih
      · exact absurd (hsep p q hp hq hpq b ih c hcq hbc)
          (not_lt.mpr hsim)

/-- Each cluster of a connected, separated, covering family over a bucket
is matched, up to order, by a cluster of any other such family over a
permutation of the bucket. -/
theorem cluster_match (t : ℚ) (items1 items2 : List KeywordRecord)
    (R1 R2 : List (List KeywordRecord))
    (hperm : items2.Perm items1)
    (hne1 : ∀ c ∈ R1, c ≠ [])
    (hf1 : R1.flatten.Perm items1) (hf2 : R2.flatten.Perm items2)
    (hfn1 : R1.flatten.Nodup) (hfn2 : R2.flatten.Nodup)
    (hconn1 : ∀ c ∈ R1, ∀ x ∈ c, ∀ y ∈ c, EConn t items1 x y)
    (hconn2 : ∀ c ∈ R2, ∀ x ∈ c, ∀ y ∈ c, EConn t items2 x y)
    (hsep1 : ∀ p q : Nat, p < R1.length → q < R1.length → p ≠ q →
      ∀ x ∈ R1.getD p [], ∀ y ∈ R1.getD q [], x ≠ y →
        calculateSimilarity x.query y.query < t)
    (hsep2 : ∀ p q : Nat, p < R2.length → q < R2.length → p ≠ q →
      ∀ x ∈ R2.getD p [], ∀ y ∈ R2.getD q [], x ≠ y →
        calculateSimilarity x.query y.query < t)
    (p : Nat) (hp : p < R1.length) :
    ∃ q, q < R2.length ∧ (R1.getD p []).Perm (R2.getD q []) := by
  have hc1R : R1.getD p [] ∈ R1 := getD_mem R1 p [] hp
  obtain ⟨x, hx⟩ := List.exists_mem_of_ne_nil _ (hne1 _ hc1R)
  have hxi1 : x ∈ items1 :=
    hf1.mem_iff.mp (List.mem_flatten.mpr ⟨_, hc1R, hx⟩)
  have hxi2 : x ∈ items2 := hperm.mem_iff.mpr hxi1
  obtain ⟨q, hq, hxq⟩ := mem_family_pos R2 x (hf2.mem_iff.mpr hxi2)
  refine ⟨q, hq, ?_⟩
  have hnd1c : (R1.getD p []).Nodup := (List.nodup_flatten.mp hfn1).1 _ hc1R
  have hnd2c : (R2.getD q []).Nodup :=
    (List.nodup_flatten.mp hfn2).1 _ (getD_mem R2 q [] hq)
  rw [List.perm_ext_iff_of_nodup hnd1c hnd2c]
  intro y
  have hmm12 : ∀ a : KeywordRecord, a ∈ items1 ↔ a ∈ items2 :=
    fun a => (hperm.mem_iff).symm
  constructor
  · intro hy
    have hcxy : EConn t items1 x y := hconn1 _ hc1R x hx y hy
    have hcxy2 : EConn t items2 x y :=
      EConn_congr t items1 items2 hmm12 x y hcxy
    exact econn_stays t items2 R2 hf2 hsep2 q hq x y hxq hcxy2
  · intro hy
    have hcxy : EConn t items2 x y :=
      hconn2 _ (getD_mem R2 q [] hq) x hxq y hy
    have hcxy1 : EConn t items1 x y :=
      EConn_congr t items2 items1 (fun a => (hmm12 a).symm) x y hcxy
    exact econn_stays t items1 R1 hf1 hsep1 p hp x y hx hcxy1

/-- The mapped multiset family of a covering, duplicate-free family of
nonempty clusters is itself duplicate-free. -/
theorem nodup_family_map (R : List (List KeywordRecord))
    (hfn : R.flatten.Nodup) (hne : ∀ c ∈ R, c ≠ []) :
    (R.map (fun c => Multiset.ofList c)).Nodup := by
  have hpw : List.Pairwise (fun a b : List KeywordRecord =>
      Multiset.ofList a ≠ Multiset.ofList b) R := by
    refine List.pairwise_iff_getElem.mpr ?_
    intro i j hi hj hij
    have hdisj : List.Disjoint (R[i]) (R[j]) :=
    List.pairwise_iff_getElem.mp (List.nodup_flatten.mp hfn).2 i j hi hj hij
    have hneI : R[i] ≠ [] := hne _ (List.getElem_mem hi)
    obtain ⟨x, hxm⟩ := List.exists_mem_of_ne_nil _ hneI
    intro hmeq
    have hx2 : x ∈ Multiset.ofList (R[i]) :=
      Multiset.mem_coe.mpr hxm
    rw [hmeq] at hx2
    exact hdisj hxm (Multiset.mem_coe.mp hx2)
  exact List.pairwise_map.mpr hpw

/-- Two connected, separated, covering, duplicate-free families over
permutation-equivalent buckets are the same family of record sets: their
clusters, read as multisets, are a permutation of one another. -/
theorem partition_unique (t : ℚ) (items1 items2 : List KeywordRecord)
    (R1 R2 : List (List KeywordRecord))
    (hperm : items2.Perm items1)
    (hne1 : ∀ c ∈ R1, c ≠ []) (hne2 : ∀ c ∈ R2, c ≠ [])
    (hf1 : R1.flatten.Perm items1) (hf2 : R2.flatten.Perm items2)
    (hfn1 : R1.flatten.Nodup) (hfn2 : R2.flatten.Nodup)
    (hconn1 : ∀ c ∈ R1, ∀ x ∈ c, ∀ y ∈ c, EConn t items1 x y)
    (hconn2 : ∀ c ∈ R2, ∀ x ∈ c, ∀ y ∈ c, EConn t items2 x y)
    (hsep1 : ∀ p q : Nat, p < R1.length → q < R1.length → p ≠ q →
      ∀ x ∈ R1.getD p [], ∀ y ∈ R1.getD q [], x ≠ y →
        calculateSimilarity x.query y.query < t)
    (hsep2 : ∀ p q : Nat, p < R2.length → q < R2.length → p ≠ q →
      ∀ x ∈ R2.getD p [], ∀ y ∈ R2.getD q [], x ≠ y →
        calculateSimilarity x.query y.query < t) :
    (R1.map (fun c => Multiset.ofList c)).Perm
      (R2.map (fun c => Multiset.ofList c)) := by
  rw [List.perm_ext_iff_of_nodup (nodup_family_map R1 hfn1 hne1)
    (nodup_family_map R2 hfn2 hne2)]
  intro m
  constructor
  · intro hm
    rw [List.mem_map] at hm ⊢
    obtain ⟨c, hcR, hcm⟩ := hm
    obtain ⟨p, hp, hval⟩ := List.mem_iff_getElem.mp hcR
    obtain ⟨q, hq, hcperm⟩ := cluster_match t items1 items2 R1 R2 hperm hne1
      hf1 hf2 hfn1 hfn2 hconn1 hconn2 hsep1 hsep2 p hp
    refine ⟨R2.getD q [], getD_mem R2 q [] hq, ?_⟩
    rw [← hcm]
    have hc : R1.getD p [] = c := by
      rw [List.getD_eq_getElem _ _ hp, hval]
    rw [← hc]
    exact (Multiset.coe_eq_coe.mpr hcperm).symm
  · intro hm
    rw [List.mem_map] at hm ⊢
    obtain ⟨c, hcR, hcm⟩ := hm
    obtain ⟨q, hq, hval⟩ := List.mem_iff_getElem.mp hcR
    obtain ⟨p, hp, hcperm⟩ := cluster_match t items2 items1 R2 R1 hperm.symm
      hne2 hf2 hf1 hfn2 hfn1 hconn2 hconn1 hsep2 hsep1 q hq
    refine ⟨R1.getD p [], getD_mem R1 p [] hp, ?_⟩
    rw [← hcm]
    have hc : R2.getD q [] = c := by
      rw [List.getD_eq_getElem _ _ hq, hval]
    rw [← hc]
    exact (Multiset.coe_eq_coe.mpr hcperm).symm


/-! ### Transporting the cluster family through the group conversion -/

/-- Cluster conversion, exactly: the new groups' keyword lists are the
clusters of qualifying size in order, and the undersized clusters'
records are appended to `ungrouped` in order. -/
theorem processClusters_shape (opts : Options) (bIntent : Option Intent) :
    ∀ (clusters : List (List KeywordRecord))
      (gs : List Group) (ung : List KeywordRecord)
      (gs' : List Group) (ung' : List KeywordRecord),
      processClusters opts bIntent clusters (gs, ung) = .ok (gs', ung') →
      gs'.map (·.keywords) = gs.map (·.keywords) ++
        clusters.filter (fun c => opts.minGroupSize ≤ c.length) ∧
      ung' = ung ++
        (clusters.filter (fun c => ¬ opts.minGroupSize ≤ c.length)).flatten
  | [], gs, ung, gs', ung', h => by
    have hp : (gs, ung) = (gs', ung') :=
      Except.ok.inj (show Except.ok (gs, ung) = Except.ok (gs', ung') from h)
    have h1 : gs = gs' := congrArg Prod.fst hp
    have h2 : ung = ung' := congrArg Prod.snd hp
    subst h1
    subst h2
    exact ⟨by simp, by simp⟩
  | cluster :: rest, gs, ung, gs', ung', h => by
    rw [processClusters.eq_def] at h
    dsimp only at h
    split at h
    · rename_i hcond
      rcases hext : extractGroupTopic (cluster.map (·.query)) with e | t
      · rw [hext] at h
        exact absurd (show (Except.error e :
          Except Unit (List Group × List KeywordRecord)) = .ok (gs', ung')
          from h) (by simp)
      · rw [hext] at h
        have h3 : processClusters opts bIntent rest
            (gs ++ [mkGroup bIntent t cluster gs.length], ung) =
            .ok (gs', ung') := h
        obtain ⟨hkw, hung⟩ := processClusters_shape opts bIntent rest
          (gs ++ [mkGroup bIntent t cluster gs.length]) ung gs' ung' h3
        constructor
        · have hmk : [mkGroup bIntent t cluster gs.length].map
              (·.keywords) = [cluster] := rfl
          rw [hkw, List.map_append, hmk, List.append_assoc,
            List.filter_cons, if_pos (decide_eq_true hcond),
            List.singleton_append]
        · rw [hung, List.filter_cons, if_neg (by simp [hcond])]
    · rename_i hcond
      obtain ⟨hkw, hung⟩ := processClusters_shape opts bIntent rest gs
        (ung ++ cluster) gs' ung' h
      constructor
      · rw [hkw, List.filter_cons, if_neg (by simp [hcond])]
      · rw [hung, List.filter_cons, if_pos (decide_eq_true hcond),
          List.flatten_cons, ← List.append_assoc]

/-- The per-group keyword multisets, through the keyword-list map. -/
theorem map_kwM_eq (gs : List Group) :
    gs.map (fun g => Multiset.ofList g.keywords) =
      (gs.map (·.keywords)).map (fun c => Multiset.ofList c) := by
  rw [List.map_map]
  rfl

/-- The multiset of a flattened family is the sum of its clusters'
multisets. -/
theorem coe_flatten (cs : List (List KeywordRecord)) :
    Multiset.ofList cs.flatten =
      (cs.map (fun c => Multiset.ofList c)).sum := by
  induction cs with
  | nil => rfl
  | cons c cs ih =>
    rw [List.flatten_cons, List.map_cons, List.sum_cons, ← ih,
      ← Multiset.coe_add]

/-- Families whose cluster multisets agree up to order have
permutation-equivalent flattenings. -/
theorem flatten_perm_of_map_perm (cs1 cs2 : List (List KeywordRecord))
    (h : (cs1.map (fun c => Multiset.ofList c)).Perm
      (cs2.map (fun c => Multiset.ofList c))) :
    cs1.flatten.Perm cs2.flatten := by
  rw [← Multiset.coe_eq_coe, coe_flatten, coe_flatten]
  exact h.sum_eq

/-- The size filter commutes with reading clusters as multisets. -/
theorem filter_size_map (n : Nat) (R : List (List KeywordRecord)) :
    (R.filter (fun c => n ≤ c.length)).map (fun c => Multiset.ofList c) =
      (R.map (fun c => Multiset.ofList c)).filter
        (fun m => n ≤ Multiset.card m) := by
  induction R with
  | nil => rfl
  | cons c R ih =>
    by_cases hc : n ≤ c.length
    · simp [List.filter_cons, hc, Multiset.coe_card, ih]
    · simp [List.filter_cons, hc, Multiset.coe_card, ih]

/-- The complementary size filter commutes with reading clusters as
multisets. -/
theorem filter_small_map (n : Nat) (R : List (List KeywordRecord)) :
    (R.filter (fun c => ¬ n ≤ c.length)).map
        (fun c => Multiset.ofList c) =
      (R.map (fun c => Multiset.ofList c)).filter
        (fun m => ¬ n ≤ Multiset.card m) := by
  induction R with
  | nil => rfl
  | cons c R ih =>
    simp only [not_le] at ih ⊢
    by_cases hc : c.length < n
    · simp [List.filter_cons, hc, Multiset.coe_card, ih]
    · simp [List.filter_cons, hc, Multiset.coe_card, ih]

/-- Permutation-equivalent cluster families keep that relation under the
qualifying-size filter. -/
theorem filter_size_perm (R1 R2 : List (List KeywordRecord)) (n : Nat)
    (h : (R1.map (fun c => Multiset.ofList c)).Perm
      (R2.map (fun c => Multiset.ofList c))) :
    ((R1.filter (fun c => n ≤ c.length)).map
      (fun c => Multiset.ofList c)).Perm
      ((R2.filter (fun c => n ≤ c.length)).map
        (fun c => Multiset.ofList c)) := by
  rw [filter_size_map, filter_size_map]
  exact h.filter _

/-- Permutation-equivalent cluster families keep that relation under the
undersized filter. -/
theorem filter_small_perm (R1 R2 : List (List KeywordRecord)) (n : Nat)
    (h : (R1.map (fun c => Multiset.ofList c)).Perm
      (R2.map (fun c => Multiset.ofList c))) :
    ((R1.filter (fun c => ¬ n ≤ c.length)).map
      (fun c => Multiset.ofList c)).Perm
      ((R2.filter (fun c => ¬ n ≤ c.length)).map
        (fun c => Multiset.ofList c)) := by
  rw [filter_small_map, filter_small_map]
  exact h.filter _


/-! ### Order invariance through the bucket pipeline -/

/-- The buckets of a permuted, duplicate-free input are positionally
matched: same intents, permutation-equivalent record lists, first run's
records duplicate-free. -/
theorem bucketize_rel (l1 l2 : List KeywordRecord) (g : Bool)
    (hperm : l2.Perm l1) (hnd : l1.Nodup) :
    List.Forall₂ (fun b1 b2 => b2.2.Perm b1.2 ∧ b1.2.Nodup)
      (bucketize l1 g) (bucketize l2 g) := by
  cases g with
  | false =>
    show List.Forall₂ _ [(none, l1)] [(none, l2)]
    exact List.Forall₂.cons ⟨hperm, hnd⟩ List.Forall₂.nil
  | true =>
    show List.Forall₂ _
      ((groupBySearchIntent l1).map (fun p => (some p.1, p.2)))
      ((groupBySearchIntent l2).map (fun p => (some p.1, p.2)))
    unfold groupBySearchIntent
    rw [List.map_map, List.map_map]
    have hgen : ∀ (is : List Intent),
        List.Forall₂ (fun b1 b2 => b2.2.Perm b1.2 ∧ b1.2.Nodup)
          (is.map ((fun p : Intent × List KeywordRecord =>
              ((some p.1 : Option Intent), p.2)) ∘ (fun i =>
            (i, l1.filter (fun kw => classifyIntent kw.query = i)))))
          (is.map ((fun p : Intent × List KeywordRecord =>
              ((some p.1 : Option Intent), p.2)) ∘ (fun i =>
            (i, l2.filter (fun kw => classifyIntent kw.query = i))))) := by
      intro is
      induction is with
      | nil => exact List.Forall₂.nil
      | cons i is ih =>
        refine List.Forall₂.cons ⟨?_, ?_⟩ ih
        · exact hperm.filter _
        · exact List.Nodup.filter _ hnd
    exact hgen intentOrder

/-- Bucket processing on positionally matched buckets with a positive
threshold: the accumulated per-group keyword multisets and ungrouped
records stay permutation-equivalent. -/
theorem processBuckets_c9 (opts : Options)
    (ht : 0 < opts.similarityThreshold) :
    ∀ {buckets1 buckets2 : List (Option Intent × List KeywordRecord)},
      List.Forall₂ (fun b1 b2 => b2.2.Perm b1.2 ∧ b1.2.Nodup)
        buckets1 buckets2 →
      ∀ (gs1 : List Group) (ung1 : List KeywordRecord)
        (gs1' : List Group) (ung1' : List KeywordRecord)
        (gs2 : List Group) (ung2 : List KeywordRecord)
        (gs2' : List Group) (ung2' : List KeywordRecord),
      (gs1.map (fun g => Multiset.ofList g.keywords)).Perm
        (gs2.map (fun g => Multiset.ofList g.keywords)) →
      ung1.Perm ung2 →
      processBuckets opts buckets1 (gs1, ung1) = .ok (gs1', ung1') →
      processBuckets opts buckets2 (gs2, ung2) = .ok (gs2', ung2') →
      (gs1'.map (fun g => Multiset.ofList g.keywords)).Perm
        (gs2'.map (fun g => Multiset.ofList g.keywords)) ∧
      ung1'.Perm ung2' := by
  intro buckets1 buckets2 hb
  induction hb with
  | nil =>
    intro gs1 ung1 gs1' ung1' gs2 ung2 gs2' ung2' hacc huacc h1 h2
    have hp1 : (gs1, ung1) = (gs1', ung1') :=
      Except.ok.inj (show Except.ok (gs1, ung1) = _ from h1)
    have hp2 : (gs2, ung2) = (gs2', ung2') :=
      Except.ok.inj (show Except.ok (gs2, ung2) = _ from h2)
    have e11 : gs1 = gs1' := congrArg Prod.fst hp1
    have e12 : ung1 = ung1' := congrArg Prod.snd hp1
    have e21 : gs2 = gs2' := congrArg Prod.fst hp2
    have e22 : ung2 = ung2' := congrArg Prod.snd hp2
    subst e11
    subst e12
    subst e21
    subst e22
    exact ⟨hacc, huacc⟩
  | cons hrel htail ih =>
    rename_i b1 b2 t1 t2
    intro gs1 ung1 gs1' ung1' gs2 ung2 gs2' ung2' hacc huacc h1 h2
    obtain ⟨hbperm, hbnd⟩ := hrel
    obtain ⟨bi1, recs1⟩ := b1
    obtain ⟨bi2, recs2⟩ := b2
    rw [processBuckets] at h1 h2
    have hlen : recs2.length = recs1.length := hbperm.length_eq
    by_cases hsmall : recs1.length < 2
    · rw [if_pos hsmall] at h1
      rw [if_pos (show recs2.length < 2 by omega)] at h2
      exact ih gs1 (ung1 ++ recs1) gs1' ung1' gs2 (ung2 ++ recs2) gs2'
        ung2' hacc (huacc.append hbperm.symm) h1 h2
    · rw [if_neg hsmall] at h1
      rw [if_neg (show ¬ recs2.length < 2 by omega)] at h2
      have h1a : (performHierarchicalClustering recs1
          (createSimilarityMatrix recs1) opts.similarityThreshold >>=
            fun clusters =>
              processClusters opts bi1 clusters (gs1, ung1) >>= fun acc2 =>
                processBuckets opts t1 acc2) = .ok (gs1', ung1') := h1
      have h2a : (performHierarchicalClustering recs2
          (createSimilarityMatrix recs2) opts.similarityThreshold >>=
            fun clusters =>
              processClusters opts bi2 clusters (gs2, ung2) >>= fun acc2 =>
                processBuckets opts t2 acc2) = .ok (gs2', ung2') := h2
      rcases hph1 : performHierarchicalClustering recs1
          (createSimilarityMatrix recs1) opts.similarityThreshold
        with e | R1
      · rw [hph1] at h1a
        exact absurd (show (Except.error e :
          Except Unit (List Group × List KeywordRecord)) = .ok (gs1', ung1')
          from h1a) (by simp)
      rcases hph2 : performHierarchicalClustering recs2
          (createSimilarityMatrix recs2) opts.similarityThreshold
        with e | R2
      · rw [hph2] at h2a
        exact absurd (show (Except.error e :
          Except Unit (List Group × List KeywordRecord)) = .ok (gs2', ung2')
          from h2a) (by simp)
      rw [hph1] at h1a
      rw [hph2] at h2a
      have h1b : (processClusters opts bi1 R1 (gs1, ung1) >>= fun acc2 =>
          processBuckets opts t1 acc2) = .ok (gs1', ung1') := h1a
      have h2b : (processClusters opts bi2 R2 (gs2, ung2) >>= fun acc2 =>
          processBuckets opts t2 acc2) = .ok (gs2', ung2') := h2a
      rcases hpc1 : processClusters opts bi1 R1 (gs1, ung1) with e | acc1m
      · rw [hpc1] at h1b
        exact absurd (show (Except.error e :
          Except Unit (List Group × List KeywordRecord)) = .ok (gs1', ung1')
          from h1b) (by simp)
      rcases hpc2 : processClusters opts bi2 R2 (gs2, ung2) with e | acc2m
      · rw [hpc2] at h2b
        exact absurd (show (Except.error e :
          Except Unit (List Group × List KeywordRecord)) = .ok (gs2', ung2')
          from h2b) (by simp)
      obtain ⟨gs1m, ung1m⟩ := acc1m
      obtain ⟨gs2m, ung2m⟩ := acc2m
      rw [hpc1] at h1b
      rw [hpc2] at h2b
      have h1r : processBuckets opts t1 (gs1m, ung1m) =
        .ok (gs1', ung1') := h1b
      have h2r : processBuckets opts t2 (gs2m, ung2m) =
        .ok (gs2', ung2') := h2b
      obtain ⟨hcne1, hf1, hconn1, hsep1⟩ :=
        performHC_char recs1 opts.similarityThreshold ht R1 hph1
      obtain ⟨hcne2, hf2, hconn2, hsep2⟩ :=
        performHC_char recs2 opts.similarityThreshold ht R2 hph2
      have hnd2 : recs2.Nodup := (hbperm.nodup_iff).mpr hbnd
      have hfn1 : R1.flatten.Nodup := (hf1.nodup_iff).mpr hbnd
      have hfn2 : R2.flatten.Nodup := (hf2.nodup_iff).mpr hnd2
      have hpart := partition_unique opts.similarityThreshold recs1 recs2
        R1 R2 hbperm hcne1 hcne2 hf1 hf2 hfn1 hfn2 hconn1 hconn2 hsep1
        hsep2
      obtain ⟨hkw1, hung1m⟩ := processClusters_shape opts bi1 R1 gs1 ung1
        gs1m ung1m hpc1
      obtain ⟨hkw2, hung2m⟩ := processClusters_shape opts bi2 R2 gs2 ung2
        gs2m ung2m hpc2
      refine ih gs1m ung1m gs1' ung1' gs2m ung2m gs2' ung2' ?_ ?_ h1r h2r
      · rw [map_kwM_eq, map_kwM_eq, hkw1, hkw2, List.map_append,
          List.map_append]
        refine List.Perm.append ?_ ?_
        · rw [← map_kwM_eq, ← map_kwM_eq]
          exact hacc
        · exact filter_size_perm R1 R2 opts.minGroupSize hpart
      · rw [hung1m, hung2m]
        exact huacc.append (flatten_perm_of_map_perm _ _
          (filter_small_perm R1 R2 opts.minGroupSize hpart))

/-- The surviving groups of a permuted, duplicate-free input with a
positive threshold are the same family of keyword sets, and the surviving
ungrouped records are the same set. -/
theorem survivingGroups_match (l1 l2 : List KeywordRecord) (opts : Options)
    (gs1 : List Group) (ung1 : List KeywordRecord)
    (gs2 : List Group) (ung2 : List KeywordRecord)
    (hperm : l2.Perm l1) (hnd : l1.Nodup)
    (ht : 0 < opts.similarityThreshold)
    (hs1 : survivingGroups l1 opts = .ok (gs1, ung1))
    (hs2 : survivingGroups l2 opts = .ok (gs2, ung2)) :
    (gs1.map (fun g => Multiset.ofList g.keywords)).Perm
      (gs2.map (fun g => Multiset.ofList g.keywords)) ∧
    ung1.Perm ung2 :=
  processBuckets_c9 opts ht
    (bucketize_rel l1 l2 opts.groupByIntent hperm hnd)
    [] [] gs1 ung1 [] [] gs2 ung2 (List.Perm.refl []) (List.Perm.refl [])
    hs1 hs2


set_option maxRecDepth 1000000 in
/-- C9 (counterexample): group membership is not order-independent in
general.  Four records form two equally similar pairs under a `maxGroups`
cap of `1`; the sort is a tie (equal click totals), JavaScript's stable
sort keeps first-come order, and the cap dissolves whichever pair came
second — so the ungrouped set differs between the two orders. -/
theorem claim_C9_counterexample :
    ∃ (l1 l2 : List KeywordRecord) (o : Options)
      (r1 r2 : GroupingResult),
      l2.Perm l1 ∧
      groupKeywords l1 o = .ok r1 ∧
      groupKeywords l2 o = .ok r2 ∧
      ∃ x ∈ r2.ungrouped, ∀ y ∈ r1.ungrouped, x.query ≠ y.query := by
  have h1 : ∃ r, groupKeywords
      [⟨jsStr "aaa bbb", 1, 0, 0, 0⟩, ⟨jsStr "aaa ccc", 1, 0, 0, 0⟩,
       ⟨jsStr "ddd eee", 1, 0, 0, 0⟩, ⟨jsStr "ddd fff", 1, 0, 0, 0⟩]
      ⟨1/5, 2, 1, true⟩ = .ok r ∧
      r.ungrouped.map (·.query) = [jsStr "ddd eee", jsStr "ddd fff"] := by
    with_unfolding_all exact ⟨_, rfl, rfl⟩
  have h2 : ∃ r, groupKeywords
      [⟨jsStr "ddd eee", 1, 0, 0, 0⟩, ⟨jsStr "ddd fff", 1, 0, 0, 0⟩,
       ⟨jsStr "aaa bbb", 1, 0, 0, 0⟩, ⟨jsStr "aaa ccc", 1, 0, 0, 0⟩]
      ⟨1/5, 2, 1, true⟩ = .ok r ∧
      r.ungrouped.map (·.query) = [jsStr "aaa bbb", jsStr "aaa ccc"] := by
    with_unfolding_all exact ⟨_, rfl, rfl⟩
  obtain ⟨r1, hgk1, hq1⟩ := h1
  obtain ⟨r2, hgk2, hq2⟩ := h2
  refine ⟨_, _, _, r1, r2, ?_, hgk1, hgk2, ?_⟩
  · exact (show (([⟨jsStr "ddd eee", 1, 0, 0, 0⟩,
        ⟨jsStr "ddd fff", 1, 0, 0, 0⟩] : List KeywordRecord) ++
        ([⟨jsStr "aaa bbb", 1, 0, 0, 0⟩,
          ⟨jsStr "aaa ccc", 1, 0, 0, 0⟩] : List KeywordRecord)).Perm
        (([⟨jsStr "aaa bbb", 1, 0, 0, 0⟩,
          ⟨jsStr "aaa ccc", 1, 0, 0, 0⟩] : List KeywordRecord) ++
         ([⟨jsStr "ddd eee", 1, 0, 0, 0⟩,
          ⟨jsStr "ddd fff", 1, 0, 0, 0⟩] : List KeywordRecord))
      from List.perm_append_comm)
  · rcases hu2 : r2.ungrouped with _ | ⟨x, rest⟩
    · rw [hu2] at hq2
      exact absurd hq2 (by simp)
    · rw [hu2] at hq2
      simp only [List.map_cons, List.cons.injEq] at hq2
      refine ⟨x, List.mem_cons_self .., ?_⟩
      intro y hy
      have hyq : y.query ∈ r1.ungrouped.map (·.query) :=
        List.mem_map_of_mem _ hy
      rw [hq1] at hyq
      rw [hq2.1]
      rcases List.mem_cons.mp hyq with h | h
      · rw [h]
        decide
      · rw [List.mem_singleton.mp h]
        decide

/-- C9 (amended): for a duplicate-free input, a positive threshold, and a
run in which the `maxGroups` cap does not bite, group membership is
order-independent.  With a positive threshold the merge loop's final
clusters of each bucket are exactly the connected components of the
bucket's similarity graph; the buckets themselves are content-determined;
and without trimming, the final sort only reorders the groups.  The
counterexample shows the cap hypothesis is necessary; positivity guards
the `0`-floored cluster-similarity scan, and duplicate-freedom the
`indexOf` matrix lookups. -/
theorem claim_C9 (l1 l2 : List KeywordRecord) (opts : Options)
    (r1 r2 : GroupingResult)
    (gs1 : List Group) (ung1 : List KeywordRecord)
    (gs2 : List Group) (ung2 : List KeywordRecord)
    (hperm : l2.Perm l1) (hnd : l1.Nodup) (hne : l1 ≠ [])
    (ht : 0 < opts.similarityThreshold)
    (hs1 : survivingGroups l1 opts = .ok (gs1, ung1))
    (hs2 : survivingGroups l2 opts = .ok (gs2, ung2))
    (hcap : gs1.length ≤ opts.maxGroups)
    (h1 : groupKeywords l1 opts = .ok r1)
    (h2 : groupKeywords l2 opts = .ok r2) :
    (r1.groups.map (fun g => Multiset.ofList g.keywords)).Perm
      (r2.groups.map (fun g => Multiset.ofList g.keywords)) ∧
    r1.ungrouped.Perm r2.ungrouped := by
  have hne2 : l2 ≠ [] := fun h0 =>
    hne (List.Perm.eq_nil (h0 ▸ hperm).symm)
  have hr1 := groupKeywords_eq_finalize l1 opts r1 gs1 ung1 hne hs1 h1
  have hr2 := groupKeywords_eq_finalize l2 opts r2 gs2 ung2 hne2 hs2 h2
  obtain ⟨hgsM, hungP⟩ := survivingGroups_match l1 l2 opts gs1 ung1 gs2
    ung2 hperm hnd ht hs1 hs2
  have hglen : gs2.length = gs1.length := by
    have hl := hgsM.length_eq
    simp only [List.length_map] at hl
    omega
  have hlen1 : (List.insertionSort clicksGE gs1).length = gs1.length :=
    (List.perm_insertionSort clicksGE gs1).length_eq
  have hlen2 : (List.insertionSort clicksGE gs2).length = gs2.length :=
    (List.perm_insertionSort clicksGE gs2).length_eq
  have hcap1 : ¬ opts.maxGroups <
      (List.insertionSort clicksGE gs1).length := by omega
  have hcap2 : ¬ opts.maxGroups <
      (List.insertionSort clicksGE gs2).length := by omega
  have hg1 : r1.groups = List.insertionSort clicksGE gs1 := by
    rw [hr1]
    have hgroups : (finalizeGroups l1 opts gs1 ung1).groups =
        (if opts.maxGroups < (List.insertionSort clicksGE gs1).length then
          (List.insertionSort clicksGE gs1).take opts.maxGroups
        else List.insertionSort clicksGE gs1) := rfl
    rw [hgroups, if_neg hcap1]
  have hg2 : r2.groups = List.insertionSort clicksGE gs2 := by
    rw [hr2]
    have hgroups : (finalizeGroups l2 opts gs2 ung2).groups =
        (if opts.maxGroups < (List.insertionSort clicksGE gs2).length then
          (List.insertionSort clicksGE gs2).take opts.maxGroups
        else List.insertionSort clicksGE gs2) := rfl
    rw [hgroups, if_neg hcap2]
  have hu1 : r1.ungrouped = ung1 := by
    rw [hr1]
    have hungr : (finalizeGroups l1 opts gs1 ung1).ungrouped =
        (if opts.maxGroups < (List.insertionSort clicksGE gs1).length then
          ung1 ++
            ((List.insertionSort clicksGE gs1).drop opts.maxGroups).flatMap
              (·.keywords)
        else ung1) := rfl
    rw [hungr, if_neg hcap1]
  have hu2 : r2.ungrouped = ung2 := by
    rw [hr2]
    have hungr : (finalizeGroups l2 opts gs2 ung2).ungrouped =
        (if opts.maxGroups < (List.insertionSort clicksGE gs2).length then
          ung2 ++
            ((List.insertionSort clicksGE gs2).drop opts.maxGroups).flatMap
              (·.keywords)
        else ung2) := rfl
    rw [hungr, if_neg hcap2]
  constructor
  · rw [hg1, hg2]
    exact ((List.perm_insertionSort clicksGE gs1).map _).trans
      (hgsM.trans ((List.perm_insertionSort clicksGE gs2).map _).symm)
  · rw [hu1, hu2]
    exact hungP

/-- Witness for C9: the two (identical) single-record runs agree. -/
theorem claim_C9_witness :
    ∃ r : GroupingResult,
      groupKeywords [⟨jsStr "ww", 3, 0, 0, 0⟩] defaultOptions = .ok r ∧
      (r.groups.map (fun g => Multiset.ofList g.keywords)).Perm
        (r.groups.map (fun g => Multiset.ofList g.keywords)) ∧
      r.ungrouped.Perm r.ungrouped := by
  have hs : survivingGroups [⟨jsStr "ww", 3, 0, 0, 0⟩] defaultOptions =
      .ok ([], [⟨jsStr "ww", 3, 0, 0, 0⟩]) := by with_unfolding_all rfl
  have hGK : groupKeywords [⟨jsStr "ww", 3, 0, 0, 0⟩] defaultOptions =
      .ok { groups := [], ungrouped := [⟨jsStr "ww", 3, 0, 0, 0⟩],
            totalGroups := some 0, totalKeywords := some 1,
            groupedKeywords := some 0 } := by with_unfolding_all rfl
  obtain ⟨hg, hu⟩ := claim_C9 [⟨jsStr "ww", 3, 0, 0, 0⟩]
    [⟨jsStr "ww", 3, 0, 0, 0⟩] defaultOptions _ _
    [] [⟨jsStr "ww", 3, 0, 0, 0⟩] [] [⟨jsStr "ww", 3, 0, 0, 0⟩]
    (List.Perm.refl _) (by simp) (by simp)
    (by with_unfolding_all decide) hs hs (by simp) hGK hGK
  exact ⟨_, hGK, hg, hu⟩

end KwGroup
